import Mathlib

/-!
# LAB-GO file harvester: collector (`5/server.go`) and agent (`5/client.go`)

A shallow embedding of the Go sources under
`2 request and respone automatic/5/` together with the parts of the Go
standard library they call (`strings`, `path/filepath`, `time.Format`,
`os.MkdirAll`, `os.WriteFile`, `filepath.Walk`, `encoding/json`).

Modelling conventions

* A Go `string` is modelled by the list of its characters (`Str`), that is,
  as well-formed UTF-8 text; `utf8.bytes` gives its bytes, and `len(s)` and
  `s[i:]` are taken on them. A `[]byte` is a `List UInt8`, a possibly-nil
  `[]byte` an `Option (List UInt8)`. What leaves the JSON decoder is
  well-formed in every case; for the encoder, which also meets strings that
  are not, a record is given a second time with its strings as bytes
  (`json.RawFileInfo`).
* `os.PathSeparator` is `/` (POSIX build of the programs); `filepath.Clean`
  and the functions built on it work on the elements between separators, in
  the order and with the cases of the loop of the Go implementation.
* `strings.ToLower` maps every character through the Unicode lower-case
  table; the table is a parameter `lower : Char → Char` of every definition
  that uses it, so each result holds for every such table.
* The environment is explicit: the working directory `wd` that `os.Getwd`
  reports, the instant `now` that `time.Now()` reports, the collector's file
  system `FS`, the agent's directory tree `Entry`, the connection `Conn`, the
  reports `Incoming` of the collector's decoder, the result `config` of
  `parseArgs()` and the result `localIP` of `getLocalIP()`.
* Stateful code is written in state-passing style; an `error` result is an
  `Option` (`none` for nil), a panic is a result of its own; console output
  is left out.
-/

namespace LabGo

/-- A Go string, as the list of its characters. -/
abbrev Str := List Char

/-- A Go string literal. -/
def str (s : String) : Str := s.toList

/-! ## Package `strings` -/

namespace strings

/-- Go `strings.HasPrefix(s, prefix)`. -/
def HasPrefix : Str → Str → Bool
  | _, [] => true
  | [], _ :: _ => false
  | c :: s, d :: p => c == d && HasPrefix s p

/-- Go `strings.Contains(s, substr)`: some position of `s` starts with `substr`. -/
def Contains : Str → Str → Bool
  | [], sub => HasPrefix [] sub
  | c :: s, sub => HasPrefix (c :: s) sub || Contains s sub

/-- Go `strings.ToLower(s)`, for the lower-case table `lower`. -/
def ToLower (lower : Char → Char) (s : Str) : Str := s.map lower

/-- Lower-casing of the ASCII letters, one admissible table. -/
def asciiLower (c : Char) : Char := c.toLower

/-- The scan of `strings.ReplaceAll` for a non-empty `old`; the first argument
bounds the number of steps (the length of the input suffices). -/
def replaceScan (old new : Str) : Nat → Str → Str
  | 0, s => s
  | _ + 1, [] => []
  | n + 1, c :: s =>
    if HasPrefix (c :: s) old then new ++ replaceScan old new n ((c :: s).drop old.length)
    else c :: replaceScan old new n s

/-- Go `strings.ReplaceAll(s, old, new)`: every non-overlapping occurrence of
`old`, from the left; an empty `old` matches before every character and at
the end. -/
def ReplaceAll (s old new : Str) : Str :=
  if old = [] then new ++ s.flatMap (fun c => c :: new)
  else replaceScan old new s.length s

/-- Go `strings.Count(s, substr)` for a `substr` of one byte, on the bytes of
`s`: the number of bytes of `s` equal to it (`bytealg.CountString`). The
bytes may be those of a slice `t[i:]` that begins inside a character. -/
def Count (s : List UInt8) (sub : UInt8) : Nat := s.count sub

/-- Go `strings.Join(elems, sep)`. -/
def Join (elems : List Str) (sep : Str) : Str := sep.intercalate elems

end strings

/-! ## Package `path/filepath` (POSIX) -/

namespace filepath

/-- Go `os.PathSeparator` / `filepath.Separator`. -/
def Separator : Char := '/'

/-- The one byte of the string `string(os.PathSeparator)`. -/
def SeparatorByte : UInt8 := 0x2F

/-- Put `c` in front of the first element of a split. -/
def consHead (c : Char) : List Str → List Str
  | [] => [[c]]
  | h :: t => (c :: h) :: t

/-- The elements of a path: the maximal separator-free pieces between
separators (empty pieces included). -/
def elements : Str → List Str
  | [] => [[]]
  | c :: s => if c = Separator then [] :: elements s else consHead c (elements s)

/-- The output buffer of `Clean`, element-wise: `dotdot` counts the leading
`..` elements that can no longer be removed, `out` holds the elements written
after them, in order. -/
structure CleanBuf where
  dotdot : Nat
  out : List Str
deriving DecidableEq, Repr

/-- One turn of the loop of `Clean`, for the next path element. -/
def cleanStep (rooted : Bool) (b : CleanBuf) (e : Str) : CleanBuf :=
  if e = [] then b                                  -- empty path element
  else if e = ['.'] then b                          -- . element
  else if e = ['.', '.'] then                       -- .. element
    if b.out ≠ [] then { b with out := b.out.dropLast }   -- can backtrack
    else if !rooted then { b with dotdot := b.dotdot + 1 } -- append .. element
    else b
  else { b with out := b.out ++ [e] }               -- real path element

/-- The string held by the buffer of `Clean` at the end. -/
def cleanString (rooted : Bool) (b : CleanBuf) : Str :=
  let all := List.replicate b.dotdot ['.', '.'] ++ b.out
  if rooted then Separator :: [Separator].intercalate all
  else if all = [] then ['.'] else [Separator].intercalate all

/-- Go `filepath.Clean(path)` (POSIX). -/
def Clean (path : Str) : Str :=
  if path = [] then ['.']
  else
    let rooted := path.head? == some Separator
    cleanString rooted ((elements path).foldl (cleanStep rooted) ⟨0, []⟩)

/-- Go `filepath.Join(elem...)` (POSIX): leading empty elements are ignored,
the rest is joined with the separator and cleaned. -/
def Join (elem : List Str) : Str :=
  match elem.dropWhile (fun e => e == []) with
  | [] => []
  | e :: rest => Clean (strings.Join (e :: rest) [Separator])

/-- Go `filepath.IsAbs(path)` (POSIX). -/
def IsAbs (path : Str) : Bool := strings.HasPrefix path [Separator]

/-- Go `filepath.Abs(path)` (POSIX), `wd` being the working directory that
`os.Getwd` reports. -/
def Abs (wd path : Str) : Str :=
  if IsAbs path then Clean path else Join [wd, path]

/-- The part of `path` up to and including its last separator. -/
def upToLastSeparator (path : Str) : Str :=
  (path.reverse.dropWhile (fun c => c != Separator)).reverse

/-- The part of `path` after its last separator. -/
def afterLastSeparator (path : Str) : Str :=
  (path.reverse.takeWhile (fun c => c != Separator)).reverse

/-- Go `filepath.Dir(path)` (POSIX). -/
def Dir (path : Str) : Str := Clean (upToLastSeparator path)

/-- Go `filepath.Base(path)` (POSIX). -/
def Base (path : Str) : Str :=
  if path = [] then ['.']
  else
    let stripped := (path.reverse.dropWhile (fun c => c == Separator)).reverse
    let last := afterLastSeparator stripped
    if last = [] then [Separator] else last

end filepath

/-! ## Package `time` -/

/-- A wall-clock instant, broken down as `time.Now()` reports it. -/
structure Time where
  year : Nat
  month : Nat
  day : Nat
  hour : Nat
  minute : Nat
  second : Nat
  nanosecond : Nat
deriving DecidableEq, Repr

namespace time

/-- Decimal digits of a number, least significant first; the first argument
bounds the number of digits (the number itself suffices). -/
def digitsRev : Nat → Nat → List Char
  | 0, _ => []
  | fuel + 1, n => if n = 0 then [] else Nat.digitChar (n % 10) :: digitsRev fuel (n / 10)

/-- Go `appendInt(b, x, width)` of package `time` for `x ≥ 0`: the decimal
digits of `x`, zero-padded on the left to `width`. -/
def appendInt (x width : Nat) : Str :=
  let ds := if x = 0 then ['0'] else (digitsRev x x).reverse
  List.replicate (width - ds.length) '0' ++ ds

/-- Go `t.Format("2006_01_02___15_04")`: the layout holds the year (4 digits),
the month, the day, the hour (24 h) and the minute (2 digits each); it holds
no seconds. -/
def Format_2006_01_02___15_04 (t : Time) : Str :=
  appendInt t.year 4 ++ str "_" ++ appendInt t.month 2 ++ str "_" ++ appendInt t.day 2 ++
    str "___" ++ appendInt t.hour 2 ++ str "_" ++ appendInt t.minute 2

end time

/-! ## Package `os`: the collector's file system -/

/-- The file system of the collector: the directories and the regular files
that exist, each under its absolute path. -/
structure FS where
  dirs : List Str
  files : List (Str × List UInt8)
deriving DecidableEq, Repr

namespace os

/-- Whether a directory exists at the absolute path `p`. -/
def isDir (fs : FS) (p : Str) : Bool := p == [filepath.Separator] || fs.dirs.contains p

/-- Whether a regular file exists at the absolute path `p`. -/
def isFile (fs : FS) (p : Str) : Bool := (fs.files.lookup p).isSome

/-- The path itself and every ancestor directory of it, outermost first. -/
def ancestors (p : Str) : List Str :=
  let es := filepath.elements p
  ((List.range es.length).map (fun k => strings.Join (es.take (k + 1)) [filepath.Separator])).filter
    (fun q => q != [] && q != [filepath.Separator])

/-- Add the directories of `ps` that do not exist yet. -/
def addDirs (fs : FS) : List Str → FS
  | [] => fs
  | p :: ps => addDirs (if isDir fs p then fs else { fs with dirs := fs.dirs ++ [p] }) ps

/-- Go `os.MkdirAll(path, 0755)` in working directory `wd`: creates `path` and
every missing parent; fails, creating nothing, when `path` or a parent exists
as a regular file. `none` is the error. -/
def MkdirAll (wd : Str) (fs : FS) (path : Str) : Option FS :=
  let as := ancestors (filepath.Abs wd path)
  if as.any (isFile fs) then none else some (addDirs fs as)

/-- Replace the content stored under `p`, or add it. -/
def setFile (p : Str) (data : List UInt8) : List (Str × List UInt8) → List (Str × List UInt8)
  | [] => [(p, data)]
  | (q, d) :: rest => if q = p then (p, data) :: rest else (q, d) :: setFile p data rest

/-- Go `os.WriteFile(name, data, 0644)` in working directory `wd`: creates or
truncates the file and writes `data`; fails when `name` is a directory or its
parent directory does not exist. `none` is the error. -/
def WriteFile (wd : Str) (fs : FS) (name : Str) (data : List UInt8) : Option FS :=
  let p := filepath.Abs wd name
  if isDir fs p || !isDir fs (filepath.Dir p) then none
  else some { fs with files := setFile p data fs.files }

end os

/-! ## Collector: storage (`server.go`) -/

/-- Go `FileInfo` (`server.go` lines 15-20, `client.go` lines 13-18); a nil
`Content` is `none`. -/
structure FileInfo where
  RelativePath : Str
  Content : Option (List UInt8)
  ClientIP : Str
  Username : Str
deriving DecidableEq, Repr

/-- Go constant `BASE_DIR`. -/
def BASE_DIR : Str := str "received_files"

/-- The errors `saveFile` returns. -/
inductive SaveError where
  /-- The error "invalid path: attempted to write outside base directory". -/
  | invalidPath
  /-- The error "error creating directory structure: ...". -/
  | creatingDirectory
  /-- The error "error writing file: ...". -/
  | writingFile
deriving DecidableEq, Repr

/-- The value `clientDirName` of `saveFile` (lines 101-108). -/
def clientDirName (fileInfo : FileInfo) (now : Time) : Str :=
  let timestamp := time.Format_2006_01_02___15_04 now
  let sanitizedIP := strings.ReplaceAll fileInfo.ClientIP (str ".") (str "_")
  let sanitizedUsername := strings.ReplaceAll fileInfo.Username (str " ") (str "_")
  sanitizedUsername ++ str "_" ++ sanitizedIP ++ str "_" ++ timestamp

/-- The value `fullPath` of `saveFile` (lines 111-115). -/
def fullPath (fileInfo : FileInfo) (now : Time) : Str :=
  let cleanRelPath := filepath.Clean fileInfo.RelativePath
  let cleanRelPath := strings.ReplaceAll cleanRelPath (str "/") [filepath.Separator]
  filepath.Join [BASE_DIR, clientDirName fileInfo now, cleanRelPath]

/-- The security check of `saveFile` (lines 118-120): true when the record
passes. -/
def securityCheck (wd : Str) (fileInfo : FileInfo) (now : Time) : Bool :=
  let absBasedir := filepath.Abs wd BASE_DIR
  let absPath := filepath.Abs wd (fullPath fileInfo now)
  strings.HasPrefix absPath absBasedir

/-- Go `saveFile(fileInfo)` (`server.go` lines 99-142), run in working
directory `wd` at time `now` on the file system `fs`: the error returned
(`none` for nil) and the file system afterwards. -/
def saveFile (wd : Str) (now : Time) (fs : FS) (fileInfo : FileInfo) : Option SaveError × FS :=
  if !securityCheck wd fileInfo now then (some .invalidPath, fs)
  else
    let dirPath := filepath.Dir (fullPath fileInfo now)
    match os.MkdirAll wd fs dirPath with
    | none => (some .creatingDirectory, fs)
    | some fs1 =>
      match fileInfo.Content with
      | none => (none, fs1)
      | some content =>
        match os.WriteFile wd fs1 (fullPath fileInfo now) content with
        | none => (some .writingFile, fs1)
        | some fs2 => (none, fs2)

/-! ## Notions used to state the storage properties -/

/-- A real path element: not empty, not `.`, not `..`. -/
def filepath.IsName (e : Str) : Prop := e ≠ [] ∧ e ≠ ['.'] ∧ e ≠ ['.', '.']

/-- The non-empty elements of a path. -/
def pathComponents (p : Str) : List Str := (filepath.elements p).filter (fun e => e != [])

/-- Component-wise descent: the components of `base` are a proper prefix of
the components of `dest`. -/
def isDescendant (base dest : Str) : Prop :=
  pathComponents base <+: pathComponents dest ∧ pathComponents base ≠ pathComponents dest

instance (base dest : Str) : Decidable (isDescendant base dest) := by
  unfold isDescendant; infer_instance

/-- The client-scoped root directory `<base>/<client directory name>` of a
record saved at time `now`. -/
def clientRoot (fileInfo : FileInfo) (now : Time) : Str :=
  filepath.Join [BASE_DIR, clientDirName fileInfo now]

/-- Two instants lie in the same calendar minute. -/
def sameMinute (t1 t2 : Time) : Prop :=
  t1.year = t2.year ∧ t1.month = t2.month ∧ t1.day = t2.day ∧ t1.hour = t2.hour ∧
    t1.minute = t2.minute

/-! ## Package `unicode/utf8`: a string and its bytes -/

namespace utf8

/-- Go `utf8.AppendRune(nil, r)` for a character: its UTF-8 encoding, of one
to four bytes. -/
def AppendRune (c : Char) : List UInt8 :=
  if c.toNat < 0x80 then [UInt8.ofNat c.toNat]
  else if c.toNat < 0x800 then
    [UInt8.ofNat (0xC0 + c.toNat / 64), UInt8.ofNat (0x80 + c.toNat % 64)]
  else if c.toNat < 0x10000 then
    [UInt8.ofNat (0xE0 + c.toNat / 4096), UInt8.ofNat (0x80 + c.toNat / 64 % 64),
      UInt8.ofNat (0x80 + c.toNat % 64)]
  else
    [UInt8.ofNat (0xF0 + c.toNat / 262144), UInt8.ofNat (0x80 + c.toNat / 4096 % 64),
      UInt8.ofNat (0x80 + c.toNat / 64 % 64), UInt8.ofNat (0x80 + c.toNat % 64)]

/-- The bytes of a string of well-formed text, as Go holds it in memory:
`len(s)` is their number and `s[i:]` drops the first `i` of them. -/
def bytes (s : Str) : List UInt8 := s.flatMap AppendRune

/-- The table `first` of package `utf8` with `acceptRanges`, for a byte
`0x80` or above: the length of the sequence that the byte leads and the
lowest and highest second byte accepted; `none` for a byte that leads no
sequence (`0x80`-`0xC1`, `0xF5`-`0xFF`). -/
def first (b : Nat) : Option (Nat × Nat × Nat) :=
  if 0xC2 ≤ b ∧ b ≤ 0xDF then some (2, 0x80, 0xBF)
  else if b = 0xE0 then some (3, 0xA0, 0xBF)
  else if b = 0xED then some (3, 0x80, 0x9F)
  else if 0xE1 ≤ b ∧ b ≤ 0xEF then some (3, 0x80, 0xBF)
  else if b = 0xF0 then some (4, 0x90, 0xBF)
  else if 0xF1 ≤ b ∧ b ≤ 0xF3 then some (4, 0x80, 0xBF)
  else if b = 0xF4 then some (4, 0x80, 0x8F)
  else none

/-- A continuation byte, `0x80` to `0xBF`. -/
def isCont (b : Nat) : Bool := 0x80 ≤ b && b ≤ 0xBF

/-- Go `utf8.DecodeRuneInString(s)` on the bytes of `s`: the first character
and the number of bytes it takes. Where Go returns `(RuneError, 1)`, for a
byte that begins no well-formed sequence, the result is `(none, 1)`; for the
empty string it is `(none, 0)`. -/
def DecodeRune : List UInt8 → Option Char × Nat
  | [] => (none, 0)
  | s0 :: rest =>
    if s0.toNat < 0x80 then (some (Char.ofNat s0.toNat), 1)
    else
      match first s0.toNat, rest with
      | some (2, lo, hi), s1 :: _ =>
        if s1.toNat < lo ∨ hi < s1.toNat then (none, 1)
        else (some (Char.ofNat (s0.toNat % 32 * 64 + s1.toNat % 64)), 2)
      | some (3, lo, hi), s1 :: s2 :: _ =>
        if s1.toNat < lo ∨ hi < s1.toNat then (none, 1)
        else if !isCont s2.toNat then (none, 1)
        else (some (Char.ofNat (s0.toNat % 16 * 4096 + s1.toNat % 64 * 64 + s2.toNat % 64)), 3)
      | some (4, lo, hi), s1 :: s2 :: s3 :: _ =>
        if s1.toNat < lo ∨ hi < s1.toNat then (none, 1)
        else if !isCont s2.toNat then (none, 1)
        else if !isCont s3.toNat then (none, 1)
        else
          (some (Char.ofNat (s0.toNat % 8 * 262144 + s1.toNat % 64 * 4096 +
            s2.toNat % 64 * 64 + s3.toNat % 64)), 4)
      | _, _ => (none, 1)

/-- Go `[]rune(s)` on the bytes of `s`, as a string again: the characters in
order, with U+FFFD for every byte that begins no well-formed sequence. The
first argument bounds the number of steps (the number of bytes suffices). -/
def runes : Nat → List UInt8 → Str
  | 0, _ => []
  | _ + 1, [] => []
  | n + 1, b :: rest =>
    match DecodeRune (b :: rest) with
    | (some c, size) => c :: runes n ((b :: rest).drop size)
    | (none, _) => '\ufffd' :: runes n rest

end utf8

/-! ## Package `path/filepath`: `Ext`, `Rel`, `Walk` -/

namespace filepath

/-- Go `filepath.Ext(path)`: the suffix beginning at the final dot in the
final element of `path`; empty if there is no dot. -/
def Ext (path : Str) : Str :=
  let last := afterLastSeparator path
  if last.contains '.' then '.' :: (last.reverse.takeWhile (fun c => c != '.')).reverse else []

/-- The elements the comparison loop of `Rel` runs through: none for the empty
string, and no empty element after a final separator. -/
def relElements (s : Str) : List Str :=
  if s = [] then []
  else if (elements s).getLast? = some [] then (elements s).dropLast else elements s

/-- Drop the leading elements on which `base` and `targ` agree. -/
def dropCommon : List Str → List Str → List Str × List Str
  | b :: bs, t :: ts => if b = t then dropCommon bs ts else (b :: bs, t :: ts)
  | bs, ts => (bs, ts)

/-- Go `filepath.Rel(basepath, targpath)` (POSIX); `none` is the error
"Rel: can't make ... relative to ...". -/
def Rel (basepath targpath : Str) : Option Str :=
  let base := Clean basepath
  let targ := Clean targpath
  if targ = base then some ['.']
  else
    let base := if base = ['.'] then [] else base
    let baseSlashed := strings.HasPrefix base [Separator]
    let targSlashed := strings.HasPrefix targ [Separator]
    if baseSlashed != targSlashed then none
    else
      let rest := dropCommon (relElements base) (relElements targ)
      if rest.1.head? = some ['.', '.'] then none
      else if rest.1 ≠ [] then
        -- base elements left: go up before going down
        some ([Separator].intercalate (List.replicate rest.1.length ['.', '.'] ++ rest.2))
      else some ([Separator].intercalate rest.2)

end filepath

/-! ## The agent's directory tree -/

/-- What `os.Lstat`, the directory listing and `os.ReadFile` report for an
entry: a file with its content (`none` when reading it fails), or a directory
with its entries in the lexical order in which `Walk` visits them
(`listable = false` when listing it fails). Every entry of a listed directory
answers `os.Lstat`. -/
inductive Entry where
  | file (name : Str) (content : Option (List UInt8))
  | dir (name : Str) (listable : Bool) (children : List Entry)
deriving Repr

namespace Entry

/-- The name of the entry in its directory. -/
def name : Entry → Str
  | file n _ => n
  | dir n _ _ => n

/-- Go `info.IsDir()`. -/
def IsDir : Entry → Bool
  | file _ _ => false
  | dir _ _ _ => true

end Entry

/-- What a walk function returns besides nil: `filepath.SkipDir`, one of the
errors of `searchAndSendFiles`, or a run-time panic (which leaves the walk
like an error that nobody handles). -/
inductive WalkError where
  | SkipDir
  /-- The error of `filepath.Rel`. -/
  | rel
  /-- The error "error sending folder info: ...". -/
  | sendingFolder
  /-- The error "error sending file info: ...". -/
  | sendingFile
  /-- A panic: slice bounds out of range, or nil dereference. -/
  | panic
deriving DecidableEq, Repr

/-- Go `filepath.WalkFunc` over a state `σ`: path, info (nil as `none`),
whether `err != nil`. -/
abbrev WalkFunc (σ : Type) := Str → Option Entry → Bool → σ → Option WalkError × σ

namespace filepath

mutual

/-- Go `walk(path, info, walkFn)` of package `filepath`. -/
def walk {σ : Type} (fn : WalkFunc σ) (path : Str) : Entry → σ → Option WalkError × σ
  | .file n c, s => fn path (some (.file n c)) false s
  | .dir n listable children, s =>
    match fn path (some (.dir n listable children)) (!listable) s with
    | (err1, s1) =>
      if !listable || err1.isSome then (err1, s1)
      else walkNames fn path children s1

/-- The loop of `walk` over the names of a directory. -/
def walkNames {σ : Type} (fn : WalkFunc σ) (path : Str) : List Entry → σ → Option WalkError × σ
  | [], s => (none, s)
  | e :: rest, s =>
    match walk fn (Join [path, e.name]) e s with
    | (none, s1) => walkNames fn path rest s1
    | (some err, s1) =>
      if !e.IsDir || err != WalkError.SkipDir then (some err, s1)
      else walkNames fn path rest s1

end

/-- Go `filepath.Walk(root, fn)`; `info = none` when `os.Lstat(root)` fails. -/
def Walk {σ : Type} (fn : WalkFunc σ) (root : Str) (info : Option Entry) (s : σ) :
    Option WalkError × σ :=
  match (match info with
    | none => fn root none true s
    | some e => walk fn root e s) with
  | (err, s1) => if err = some WalkError.SkipDir then (none, s1) else (err, s1)

end filepath

/-! ## Package `encoding/json`, as far as `FileInfo` records use it -/

namespace json

/-- Go `hex[n]` of package `encoding/json`: the digit of `"0123456789abcdef"`. -/
def hex (n : Nat) : Char := if n < 10 then Char.ofNat (48 + n) else Char.ofNat (87 + n)

/-- How `appendString` (with `escapeHTML`, as `Encoder.Encode` sets it)
writes one character of a string. -/
def appendChar (c : Char) : Str :=
  if c = '\\' ∨ c = '"' then ['\\', c]
  else if c = '\x08' then ['\\', 'b']
  else if c = '\x0c' then ['\\', 'f']
  else if c = '\n' then ['\\', 'n']
  else if c = '\r' then ['\\', 'r']
  else if c = '\t' then ['\\', 't']
  else if c.toNat < 32 ∨ c = '<' ∨ c = '>' ∨ c = '&' then
    ['\\', 'u', '0', '0', hex (c.toNat / 16), hex (c.toNat % 16)]
  else if c = '\u2028' ∨ c = '\u2029' then
    ['\\', 'u', '2', '0', '2', hex (c.toNat % 16)]
  else [c]

/-- Go `appendString(dst, src, true)`: the JSON string literal for `s`. -/
def appendString (s : Str) : Str := '"' :: (s.flatMap appendChar ++ ['"'])

/-- The alphabet of `base64.StdEncoding`. -/
def encodeStd : Str := str "ABCDEFGHIJKLMNOPQRSTUVWXYZabcdefghijklmnopqrstuvwxyz0123456789+/"

/-- The character for a 6-bit value. -/
def b64Char (i : Nat) : Char := encodeStd.getD i 'A'

/-- The 6-bit value of a character of the alphabet. -/
def b64Index (c : Char) : Option Nat :=
  if 'A' ≤ c ∧ c ≤ 'Z' then some (c.toNat - 65)
  else if 'a' ≤ c ∧ c ≤ 'z' then some (c.toNat - 71)
  else if '0' ≤ c ∧ c ≤ '9' then some (c.toNat + 4)
  else if c = '+' then some 62
  else if c = '/' then some 63
  else none

/-- Go `base64.StdEncoding.EncodeToString(src)`. -/
def b64Encode : List UInt8 → Str
  | [] => []
  | [a] => [b64Char (a.toNat / 4), b64Char (a.toNat % 4 * 16), '=', '=']
  | [a, b] =>
    [b64Char (a.toNat / 4), b64Char (a.toNat % 4 * 16 + b.toNat / 16),
     b64Char (b.toNat % 16 * 4), '=']
  | a :: b :: c :: rest =>
    b64Char (a.toNat / 4) :: b64Char (a.toNat % 4 * 16 + b.toNat / 16) ::
      b64Char (b.toNat % 16 * 4 + c.toNat / 64) :: b64Char (c.toNat % 64) :: b64Encode rest

/-- The quanta of `base64.StdEncoding.Decode`, after new-line characters have
been dropped: four characters give three bytes; padding may only end the
input. -/
def b64DecodeQuanta : Str → Option (List UInt8)
  | [] => some []
  | c1 :: c2 :: c3 :: c4 :: rest =>
    match b64Index c1, b64Index c2 with
    | some i1, some i2 =>
      if c3 = '=' ∧ c4 = '=' ∧ rest = [] then some [UInt8.ofNat (i1 * 4 + i2 / 16)]
      else
        match b64Index c3 with
        | some i3 =>
          if c4 = '=' ∧ rest = [] then
            some [UInt8.ofNat (i1 * 4 + i2 / 16), UInt8.ofNat (i2 % 16 * 16 + i3 / 4)]
          else
            match b64Index c4, b64DecodeQuanta rest with
            | some i4, some bytes =>
              some (UInt8.ofNat (i1 * 4 + i2 / 16) :: UInt8.ofNat (i2 % 16 * 16 + i3 / 4) ::
                UInt8.ofNat (i3 % 4 * 64 + i4) :: bytes)
            | _, _ => none
        | none => none
    | _, _ => none
  | _ => none

/-- Go `base64.StdEncoding.Decode`: `\r` and `\n` are ignored; `none` is the
error. -/
def b64Decode (s : Str) : Option (List UInt8) :=
  b64DecodeQuanta (s.filter (fun c => c != '\r' && c != '\n'))

/-- The encoding of a `FileInfo` by `Marshal`: the fields in declaration
order, a nil `Content` as `null`, any other as a base64 string. -/
def Marshal (v : FileInfo) : Str :=
  str "\x7b\"RelativePath\":" ++ appendString v.RelativePath ++
  str ",\"Content\":" ++
    (match v.Content with
     | none => str "null"
     | some bytes => '"' :: (b64Encode bytes ++ ['"'])) ++
  str ",\"ClientIP\":" ++ appendString v.ClientIP ++
  str ",\"Username\":" ++ appendString v.Username ++ str "\x7d"

/-- Go `json.NewEncoder(w).Encode(v)` for a `FileInfo`: the bytes written. -/
def Encode (v : FileInfo) : Str := Marshal v ++ ['\n']

/-- Go's `FileInfo` as the agent holds it in memory: a string is any sequence
of bytes, well-formed UTF-8 or not (a file name, a host name). -/
structure RawFileInfo where
  RelativePath : List UInt8
  Content : Option (List UInt8)
  ClientIP : List UInt8
  Username : List UInt8
deriving DecidableEq, Repr

/-- The loop of `appendString(dst, src, true)` over the bytes of `src`: a
character is written as `appendChar` says, a byte that begins no well-formed
sequence as the escape `\ufffd`. The first argument bounds the number of
steps (the number of bytes suffices). -/
def appendBytes : Nat → List UInt8 → Str
  | 0, _ => []
  | _ + 1, [] => []
  | n + 1, b :: rest =>
    match utf8.DecodeRune (b :: rest) with
    | (some c, size) => appendChar c ++ appendBytes n ((b :: rest).drop size)
    | (none, _) => str "\\ufffd" ++ appendBytes n rest

/-- Go `appendString(dst, src, true)` for a string given by its bytes. -/
def appendStringRaw (s : List UInt8) : Str := '"' :: (appendBytes s.length s ++ ['"'])

/-- The encoding by `Marshal` of a record held in memory; what is written is
well-formed UTF-8 in every case and is given as text. -/
def MarshalRaw (v : RawFileInfo) : Str :=
  str "\x7b\"RelativePath\":" ++ appendStringRaw v.RelativePath ++
  str ",\"Content\":" ++
    (match v.Content with
     | none => str "null"
     | some bytes => '"' :: (b64Encode bytes ++ ['"'])) ++
  str ",\"ClientIP\":" ++ appendStringRaw v.ClientIP ++
  str ",\"Username\":" ++ appendStringRaw v.Username ++ str "\x7d"

/-- Go `json.NewEncoder(w).Encode(v)` for a record held in memory. -/
def EncodeRaw (v : RawFileInfo) : Str := MarshalRaw v ++ ['\n']

/-- The value of a hexadecimal digit. -/
def hexVal (c : Char) : Option Nat :=
  if '0' ≤ c ∧ c ≤ '9' then some (c.toNat - 48)
  else if 'a' ≤ c ∧ c ≤ 'f' then some (c.toNat - 87)
  else if 'A' ≤ c ∧ c ≤ 'F' then some (c.toNat - 55)
  else none

/-- Go `getu4`: the rune value of four hexadecimal digits. -/
def getu4 (a b c d : Char) : Option Nat :=
  match hexVal a, hexVal b, hexVal c, hexVal d with
  | some x, some y, some z, some w => some (((x * 16 + y) * 16 + z) * 16 + w)
  | _, _, _, _ => none

/-- The character a `\uXXXX` escape with value `rr` stands for, and whether a
following low surrogate escape `next` is consumed with it. -/
def decodeEscape (rr : Nat) (next : Option Nat) : Char × Bool :=
  if 0xd800 ≤ rr ∧ rr < 0xe000 then
    match next with
    | some rr1 =>
      if rr < 0xdc00 ∧ 0xdc00 ≤ rr1 ∧ rr1 < 0xe000 then
        (Char.ofNat ((rr - 0xd800) * 1024 + (rr1 - 0xdc00) + 0x10000), true)
      else ('\ufffd', false)
    | none => ('\ufffd', false)
  else (Char.ofNat rr, false)

/-- The value of a `\uXXXX` escape that follows, if one does. -/
def peekU4 : Str → Option Nat
  | '\\' :: 'u' :: a :: b :: c :: d :: _ => getu4 a b c d
  | _ => none

/-- The `\u` case of `unquote`, on the input after `\u`: the character, and
the input after the escape (or after the surrogate pair). -/
def unquoteEscapeU : Str → Option (Char × Str)
  | a :: b :: c :: d :: rest =>
    match getu4 a b c d with
    | none => none
    | some rr =>
      some ((decodeEscape rr (peekU4 rest)).1,
        if (decodeEscape rr (peekU4 rest)).2 then rest.drop 6 else rest)
  | _ => none

/-- The escape cases of `unquote`, for the character `e` after the
backslash; the scanner admits no other. -/
def unquoteEscape (e : Char) (rest : Str) : Option (Char × Str) :=
  if e = '"' ∨ e = '\\' ∨ e = '/' then some (e, rest)
  else if e = 'b' then some ('\x08', rest)
  else if e = 'f' then some ('\x0c', rest)
  else if e = 'n' then some ('\n', rest)
  else if e = 'r' then some ('\r', rest)
  else if e = 't' then some ('\t', rest)
  else if e = 'u' then unquoteEscapeU rest
  else none

/-- One turn of the loop of `unquote` on a character `c` other than the
closing quote: the character read and the input after it; control characters
are invalid. -/
def unquoteStep (c : Char) (rest : Str) : Option (Char × Str) :=
  if c = '\\' then
    match rest with
    | [] => none
    | e :: rest1 => unquoteEscape e rest1
  else if c.toNat < 32 then none
  else some (c, rest)

/-- Go `unquote`, reading a string literal after its opening quote: the string
and the input after the closing quote. The first argument bounds the number
of steps (the length of the input suffices). `none` is a syntax error. -/
def unquoteLoop : Nat → Str → Option (Str × Str)
  | 0, _ => none
  | _ + 1, [] => none
  | n + 1, c :: rest =>
    if c = '"' then some ([], rest)
    else
      match unquoteStep c rest with
      | none => none
      | some (x, rest1) => (unquoteLoop n rest1).map (fun r => (x :: r.1, r.2))

/-- JSON white space is skipped between tokens. -/
def skipSpace (s : Str) : Str :=
  s.dropWhile (fun c => c == ' ' || c == '\t' || c == '\r' || c == '\n')

/-- How deep arrays and objects may nest before the scanner reports
"exceeded max depth" (`maxNestingDepth`). -/
def maxNestingDepth : Nat := 10000

/-- A JSON value as the scanner delimits it; a number is kept as its
literal. -/
inductive Value where
  | null
  | bool (b : Bool)
  | number (literal : Str)
  | string (s : Str)
  | array (elems : List Value)
  | object (members : List (Str × Value))

/-- The input after `lit`, when the input begins with `lit`. -/
def expect (lit s : Str) : Option Str :=
  if strings.HasPrefix s lit then some (s.drop lit.length) else none

/-- The fraction of a number (states `stateDot`, `stateDot0`): a dot and at
least one digit, or nothing. The text read and the input after it. -/
def scanFraction : Str → Option (Str × Str)
  | '.' :: rest =>
    if rest.takeWhile Char.isDigit = [] then none
    else some ('.' :: rest.takeWhile Char.isDigit, rest.dropWhile Char.isDigit)
  | s => some ([], s)

/-- The digits of an exponent (states `stateESign`, `stateE0`): at least
one. -/
def scanExponentDigits (s : Str) : Option (Str × Str) :=
  if s.takeWhile Char.isDigit = [] then none
  else some (s.takeWhile Char.isDigit, s.dropWhile Char.isDigit)

/-- The exponent of a number (state `stateE`): `e` or `E`, a sign or none, and
at least one digit; or nothing. -/
def scanExponent : Str → Option (Str × Str)
  | [] => some ([], [])
  | e :: rest =>
    if e = 'e' ∨ e = 'E' then
      match rest with
      | [] => none
      | c :: rest1 =>
        if c = '+' ∨ c = '-' then
          (scanExponentDigits rest1).map (fun r => (e :: c :: r.1, r.2))
        else (scanExponentDigits (c :: rest1)).map (fun r => (e :: r.1, r.2))
    else some ([], e :: rest)

/-- The digits before the fraction (states `state0`, `state1`): a single `0`,
or a digit from 1 to 9 and any digits. -/
def scanInteger : Str → Option (Str × Str)
  | [] => none
  | c :: rest =>
    if c = '0' then some (['0'], rest)
    else if '1' ≤ c ∧ c ≤ '9' then
      some (c :: rest.takeWhile Char.isDigit, rest.dropWhile Char.isDigit)
    else none

/-- The text after a minus sign that may begin a number (state `stateNeg`). -/
def dropMinus : Str → Str
  | '-' :: rest => rest
  | s => s

/-- The number literal at the front of the input, as the scanner delimits it,
and the input after it; `none` is a syntax error. -/
def scanNumber (s : Str) : Option (Str × Str) :=
  match scanInteger (dropMinus s) with
  | none => none
  | some (_, s1) =>
    match scanFraction s1 with
    | none => none
    | some (_, s2) =>
      match scanExponent s2 with
      | none => none
      | some (_, s3) => some (s.take (s.length - s3.length), s3)

mutual

/-- Read one value, as the scanner and `unquote` do; `depth` is the number of
arrays and objects that are open. The first argument bounds the number of
nested calls (twice the length of the input suffices). `none` is a syntax
error, the end of the input inside the value included. -/
def parseValue : Nat → Nat → Str → Option (Value × Str)
  | 0, _, _ => none
  | fuel + 1, depth, s =>
    match skipSpace s with
    | [] => none
    | c :: rest =>
      if c = '"' then (unquoteLoop rest.length rest).map (fun r => (Value.string r.1, r.2))
      else if c = '\x7b' then
        if depth ≥ maxNestingDepth then none
        else
          match skipSpace rest with
          | '\x7d' :: rest1 => some (Value.object [], rest1)
          | _ => (parseMembers fuel (depth + 1) rest).map (fun r => (Value.object r.1, r.2))
      else if c = '[' then
        if depth ≥ maxNestingDepth then none
        else
          match skipSpace rest with
          | ']' :: rest1 => some (Value.array [], rest1)
          | _ => (parseElements fuel (depth + 1) rest).map (fun r => (Value.array r.1, r.2))
      else if c = 't' then (expect (str "rue") rest).map (fun r => (Value.bool true, r))
      else if c = 'f' then (expect (str "alse") rest).map (fun r => (Value.bool false, r))
      else if c = 'n' then (expect (str "ull") rest).map (fun r => (Value.null, r))
      else (scanNumber (c :: rest)).map (fun r => (Value.number r.1, r.2))

/-- Read the members of a non-empty object after its opening brace, up to and
including the closing brace. -/
def parseMembers : Nat → Nat → Str → Option (List (Str × Value) × Str)
  | 0, _, _ => none
  | fuel + 1, depth, s =>
    match skipSpace s with
    | '"' :: rest =>
      match unquoteLoop rest.length rest with
      | none => none
      | some (key, rest1) =>
        match skipSpace rest1 with
        | ':' :: rest2 =>
          match parseValue fuel depth rest2 with
          | none => none
          | some (v, rest3) =>
            match skipSpace rest3 with
            | ',' :: rest4 =>
              (parseMembers fuel depth rest4).map (fun r => ((key, v) :: r.1, r.2))
            | '\x7d' :: rest4 => some ([(key, v)], rest4)
            | _ => none
        | _ => none
    | _ => none

/-- Read the elements of a non-empty array after its opening bracket, up to
and including the closing bracket. -/
def parseElements : Nat → Nat → Str → Option (List Value × Str)
  | 0, _, _ => none
  | fuel + 1, depth, s =>
    match parseValue fuel depth s with
    | none => none
    | some (v, rest) =>
      match skipSpace rest with
      | ',' :: rest1 => (parseElements fuel depth rest1).map (fun r => (v :: r.1, r.2))
      | ']' :: rest1 => some ([v], rest1)
      | _ => none

end

/-- Go `foldRune` as far as it matters for names of ASCII letters: the
upper-case letter for a lower-case ASCII letter, `S` for U+017F (long s),
`K` for U+212A (Kelvin sign); every other character outside ASCII folds to
a character outside ASCII, and is left as it is here. -/
def foldRune (c : Char) : Char :=
  if 'a' ≤ c ∧ c ≤ 'z' then Char.ofNat (c.toNat - 32)
  else if c = '\u017f' then 'S'
  else if c = '\u212a' then 'K'
  else c

/-- Go's matching of an object key with a field name: the exact name, or
equal names after folding (`foldName`). -/
def keyMatches (key : Str) (field : String) : Bool :=
  key == str field || key.map foldRune == (str field).map foldRune

/-- A value stored into a string field: a string is taken, `null` leaves the
field as it is; `none` is the `UnmarshalTypeError` for a value of another
kind. -/
def storeString (old : Str) : Value → Option Str
  | .string s => some s
  | .null => some old
  | _ => none

/-- Go `strconv.ParseUint(literal, 10, 64)` followed by the overflow check for
a `uint8`: the literal must consist of digits and be at most 255. -/
def parseUint8 (literal : Str) : Option UInt8 :=
  if literal ≠ [] ∧ literal.all Char.isDigit ∧
      literal.foldl (fun n c => n * 10 + (c.toNat - 48)) 0 ≤ 255 then
    some (UInt8.ofNat (literal.foldl (fun n c => n * 10 + (c.toNat - 48)) 0))
  else none

/-- A value stored into an element of a `[]byte` that holds `cur`: a number
that fits, or `null`, which leaves the element as it is. -/
def storeByte (cur : UInt8) : Value → Option UInt8
  | .number literal => parseUint8 literal
  | .null => some cur
  | _ => none

/-- The elements of an array stored one by one into a `[]byte` whose backing
array holds `backing` (zero beyond its end). -/
def storeElements : List UInt8 → List Value → Option (List UInt8)
  | _, [] => some []
  | backing, e :: es =>
    match storeByte (backing.headD 0) e, storeElements backing.tail es with
    | some b, some bs => some (b :: bs)
    | _, _ => none

/-- A value stored into the field `Content`, which holds `old` in a backing
array that holds `spare` after it: a string is decoded from base64 into a new
array, `null` makes the field nil, an empty array makes it empty, any other
array is stored into the elements of the slice, which is cut or grown to the
length of the array. The new slice and what its backing array holds after
it. -/
def storeContent (old : Option (List UInt8)) (spare : List UInt8) :
    Value → Option (Option (List UInt8) × List UInt8)
  | .string s => (b64Decode s).map (fun bytes => (some bytes, []))
  | .null => some (none, [])
  | .array [] => some (some [], [])
  | .array (e :: es) =>
    (storeElements (old.getD [] ++ spare) (e :: es)).map
      (fun bytes => (some bytes, (old.getD [] ++ spare).drop bytes.length))
  | _ => none

/-- A record while `Unmarshal` fills it: the fields, and what the backing
array of `Content` holds after the end of the slice. -/
structure Filling where
  fields : FileInfo
  spare : List UInt8

/-- Store one member of an object into the record, as `Unmarshal` does for a
`FileInfo`; a member with an unknown key is skipped. `none` is the error
that `Unmarshal` returns in the end. -/
def assign (v : Filling) (key : Str) (val : Value) : Option Filling :=
  if keyMatches key "RelativePath" then
    (storeString v.fields.RelativePath val).map
      (fun s => { v with fields := { v.fields with RelativePath := s } })
  else if keyMatches key "Content" then
    (storeContent v.fields.Content v.spare val).map
      (fun r => { fields := { v.fields with Content := r.1 }, spare := r.2 })
  else if keyMatches key "ClientIP" then
    (storeString v.fields.ClientIP val).map
      (fun s => { v with fields := { v.fields with ClientIP := s } })
  else if keyMatches key "Username" then
    (storeString v.fields.Username val).map
      (fun s => { v with fields := { v.fields with Username := s } })
  else some v

/-- Store the members in order. -/
def assignAll (v : Filling) : List (Str × Value) → Option Filling
  | [] => some v
  | (key, val) :: rest =>
    match assign v key val with
    | none => none
    | some v1 => assignAll v1 rest

/-- Go `Unmarshal` of a value into a zero `FileInfo`: an object fills the
fields, `null` leaves the record as it is, a value of another kind is an
`UnmarshalTypeError`. -/
def unmarshal : Value → Option FileInfo
  | .object members => (assignAll ⟨⟨[], none, [], []⟩, []⟩ members).map (fun v => v.fields)
  | .null => some ⟨[], none, [], []⟩
  | _ => none

/-- What `Decoder.Decode` reports. -/
inductive DecodeResult where
  /-- The error `io.EOF`: the stream holds no further value. -/
  | eof
  /-- Any other error. -/
  | error
  /-- A record, and the input that remains buffered. -/
  | ok (v : FileInfo) (rest : Str)
deriving DecidableEq, Repr

/-- Go `json.NewDecoder(r).Decode(&fileInfo)` for a fresh (zero) `fileInfo`, on
the input that remains in the stream: `io.EOF` when only white space is
left; otherwise the next value is delimited (a syntax error or the end of
the input inside it is an error) and then stored into the record. -/
def Decode (input : Str) : DecodeResult :=
  match skipSpace input with
  | [] => .eof
  | c :: rest =>
    match parseValue (2 * (c :: rest).length) 0 (c :: rest) with
    | none => .error
    | some (v, rest1) =>
      match unmarshal v with
      | none => .error
      | some fileInfo => .ok fileInfo rest1

/-- The elements of an array stored into a fresh `[]string`: a string is
taken, `null` leaves the empty string. -/
def storeStrings : List Value → Option (List Str)
  | [] => some []
  | e :: es =>
    match storeString [] e, storeStrings es with
    | some x, some xs => some (x :: xs)
    | _, _ => none

/-- Go `json.NewDecoder(r).Decode(&patterns)` for `var patterns []string`, on
the input received: the list read, `null` giving the nil list; `none` is the
error (`io.EOF` on an empty stream included). -/
def DecodeStrings (input : Str) : Option (List Str) :=
  match skipSpace input with
  | [] => none
  | c :: rest =>
    match parseValue (2 * (c :: rest).length) 0 (c :: rest) with
    | some (.array elems, _) => storeStrings elems
    | some (.null, _) => some []
    | _ => none

end json

/-- A record of well-formed strings as it is held in memory. -/
def FileInfo.raw (v : FileInfo) : json.RawFileInfo :=
  ⟨utf8.bytes v.RelativePath, v.Content, utf8.bytes v.ClientIP, utf8.bytes v.Username⟩

/-- The record with every string made well-formed: each byte that begins no
well-formed sequence replaced by U+FFFD. -/
def json.RawFileInfo.text (v : json.RawFileInfo) : FileInfo :=
  ⟨utf8.runes v.RelativePath.length v.RelativePath, v.Content,
    utf8.runes v.ClientIP.length v.ClientIP, utf8.runes v.Username.length v.Username⟩


/-! ## Agent (`client.go`) -/

/-- Go `Config` (`client.go` lines 26-32). -/
structure Config where
  ServerIP : Str
  SearchPath : Str
  FilterExts : Bool
  MatchFiles : Bool
  MatchFolders : Bool
deriving DecidableEq, Repr

/-- Go `isValidExtension(path)` (`client.go` lines 145-148). -/
def isValidExtension (lower : Char → Char) (path : Str) : Bool :=
  let ext := strings.ToLower lower (filepath.Ext path)
  ext == str ".cpp" || ext == str ".py" || ext == str ".c"

/-- The loop of `containsPattern` over the remaining patterns, `pathLower`
being the lower-cased name. -/
def containsPatternLoop (lower : Char → Char) (pathLower : Str) : List Str → Bool
  | [] => false
  | pattern :: rest =>
    if strings.Contains pathLower (strings.ToLower lower pattern) then true
    else containsPatternLoop lower pathLower rest

/-- Go `containsPattern(path, patterns)` (`client.go` lines 151-159). -/
def containsPattern (lower : Char → Char) (path : Str) (patterns : List Str) : Bool :=
  containsPatternLoop lower (strings.ToLower lower path) patterns

/-- The connection as the agent sees it: the records encoded onto it so far,
and how many more `Encode` calls succeed (`none`: all of them). -/
structure Conn where
  sent : List FileInfo
  room : Option Nat
deriving DecidableEq, Repr

/-- Go `json.NewEncoder(conn).Encode(fileInfo)`; `none` is the error. -/
def Conn.Encode (conn : Conn) (fileInfo : FileInfo) : Option Conn :=
  match conn.room with
  | none => some { conn with sent := conn.sent ++ [fileInfo] }
  | some 0 => none
  | some (k + 1) => some { sent := conn.sent ++ [fileInfo], room := some k }

/-- The walk function of the first pass of `searchAndSendFiles` (lines
168-178); the state is the set `matchedFolders`. -/
def firstPass (lower : Char → Char) (patterns : List Str) : WalkFunc (List Str) :=
  fun path info err matchedFolders =>
    if err then (none, matchedFolders)
    else
      match info with
      | none => (some WalkError.panic, matchedFolders)
      | some info =>
        if !info.IsDir then (none, matchedFolders)
        else if containsPattern lower (filepath.Base path) patterns then
          (none, matchedFolders ++ [path])
        else (none, matchedFolders)

/-- The walk function of the second pass of `searchAndSendFiles` (lines
182-268); the state is the connection. `os.ReadFile` yields the content that
the entry holds. -/
def secondPass (lower : Char → Char) (config : Config) (rootPath : Str) (patterns : List Str)
    (matchedFolders : List Str) (hostname localIP : Str) : WalkFunc Conn :=
  fun path info err conn =>
    if err then (none, conn)
    else if (utf8.bytes rootPath).length > (utf8.bytes path).length then
      (some WalkError.panic, conn)
    else
      let level := strings.Count ((utf8.bytes path).drop (utf8.bytes rootPath).length)
        filepath.SeparatorByte
      if level > 5 then (some WalkError.SkipDir, conn)
      else
        -- Check if this path is inside a matched folder
        let inMatchedFolder := config.MatchFolders &&
          matchedFolders.any (fun folderPath => strings.HasPrefix path folderPath)
        match info with
        | none => (some WalkError.panic, conn)
        | some info =>
          if info.IsDir then
            -- Handle folders
            if config.MatchFolders && containsPattern lower (filepath.Base path) patterns then
              match filepath.Rel rootPath path with
              | none => (some WalkError.rel, conn)
              | some relPath =>
                match conn.Encode ⟨relPath, none, localIP, hostname⟩ with
                | none => (some WalkError.sendingFolder, conn)
                | some conn1 => (none, conn1)
            else (none, conn)
          else
            -- Handle files
            let shouldSendFile := config.MatchFiles &&
              containsPattern lower (filepath.Base path) patterns
            let shouldSendFile :=
              if config.MatchFolders then shouldSendFile || inMatchedFolder else shouldSendFile
            if shouldSendFile then
              if config.FilterExts && !isValidExtension lower path then (none, conn)
              else
                match filepath.Rel rootPath path with
                | none => (some WalkError.rel, conn)
                | some relPath =>
                  match (match info with
                    | .file _ content => content
                    | .dir _ _ _ => none) with
                  | none => (none, conn)
                  | some content =>
                    match conn.Encode ⟨relPath, some content, localIP, hostname⟩ with
                    | none => (some WalkError.sendingFile, conn)
                    | some conn1 => (none, conn1)
            else (none, conn)

/-- The set `matchedFolders` after the first pass of `searchAndSendFiles`. -/
def matchedFoldersOf (lower : Char → Char) (config : Config) (rootPath : Str)
    (root : Option Entry) (patterns : List Str) : List Str :=
  if config.MatchFolders then
    (filepath.Walk (firstPass lower patterns) rootPath root []).2
  else []

/-- Go `searchAndSendFiles(rootPath, patterns, conn, hostname)` (`client.go`
lines 161-275) on the directory tree `root` found at `rootPath` (`none` when
the path does not exist), with `config` the result of `parseArgs()` and
`localIP` the result of `getLocalIP()`: the error returned (or the panic) and
the connection afterwards. -/
def searchAndSendFiles (lower : Char → Char) (config : Config) (root : Option Entry)
    (localIP : Str) (rootPath : Str) (patterns : List Str) (conn : Conn) (hostname : Str) :
    Option WalkError × Conn :=
  filepath.Walk
    (secondPass lower config rootPath patterns
      (matchedFoldersOf lower config rootPath root patterns) hostname localIP)
    rootPath root conn


/-! ## Collector: one connection (`server.go`, `handleClient`) -/

/-- How `handleClient` leaves a connection. -/
inductive SessionEnd where
  /-- Sending the patterns failed: `return` at line 75. -/
  | patternsNotSent
  /-- The decoder reported `io.EOF`: `break` at line 84. -/
  | closedClean
  /-- The decoder reported another error: `return` at line 88. -/
  | closedError
deriving DecidableEq, Repr

/-- One call of `saveFile` made by `handleClient`: the record, the instant
`time.Now()` reported in it, and the error it returned. -/
structure SaveCall where
  fileInfo : FileInfo
  now : Time
  err : Option SaveError
deriving DecidableEq, Repr

/-- What `handleClient` did: how it ended, its calls of `saveFile` in order,
and the file system afterwards. -/
structure Handled where
  ending : SessionEnd
  saves : List SaveCall
  fs : FS
deriving DecidableEq, Repr

/-- What `decoder.Decode(&fileInfo)` reports at its successive calls on one
connection, up to the first report that is not a record: `io.EOF`, another
error, or a record followed by the later reports. -/
inductive Incoming where
  | eof
  | error
  | record (fileInfo : FileInfo) (next : Incoming)
deriving DecidableEq, Repr

/-- The receive loop of `handleClient` (lines 80-97) on the reports of the
decoder; `clock k` is the instant of the `k`-th call of `saveFile` on this
connection, `calls` the calls made so far. An error of `saveFile` is logged
and the loop goes on (`continue`). -/
def receiveLoop (wd : Str) (clock : Nat → Time) : Incoming → FS → List SaveCall → Handled
  | .eof, fs, calls => ⟨SessionEnd.closedClean, calls, fs⟩
  | .error, fs, calls => ⟨SessionEnd.closedError, calls, fs⟩
  | .record fileInfo next, fs, calls =>
    receiveLoop wd clock next
      (saveFile wd (clock calls.length) fs fileInfo).2
      (calls ++ [⟨fileInfo, clock calls.length,
        (saveFile wd (clock calls.length) fs fileInfo).1⟩])

/-- What the decoder of a connection reports, call after call, on the input
that the peer sends until the connection ends. The first argument bounds the
number of calls; `none` means it was too small. -/
def json.incoming : Nat → Str → Option Incoming
  | 0, _ => none
  | fuel + 1, input =>
    match json.Decode input with
    | .eof => some Incoming.eof
    | .error => some Incoming.error
    | .ok fileInfo rest => (json.incoming fuel rest).map (Incoming.record fileInfo)

/-- Go `handleClient(conn, patterns, wg)` (`server.go` lines 64-98) in working
directory `wd`: `patternsSent` tells whether `encoder.Encode(patterns)`
succeeds, `input` is what the peer sends until the connection ends. Every
record read consumes input, so `input.length + 1` calls of the decoder
suffice. -/
def handleClient (wd : Str) (clock : Nat → Time) (patternsSent : Bool) (input : Str) (fs : FS) :
    Option Handled :=
  if !patternsSent then some ⟨SessionEnd.patternsNotSent, [], fs⟩
  else (json.incoming (input.length + 1) input).map (fun inc => receiveLoop wd clock inc fs [])

/-- The reports of a decoder that reads the records `rs` and then reports
`next`. -/
def Incoming.after : List FileInfo → Incoming → Incoming
  | [], next => next
  | r :: rs, next => .record r (Incoming.after rs next)

/-- The records that the decoder reports, in order. -/
def Incoming.records : Incoming → List FileInfo
  | .eof => []
  | .error => []
  | .record fileInfo next => fileInfo :: next.records

/-- How `handleClient` ends on these reports: cleanly on `io.EOF`, with an
error on another error. -/
def Incoming.ending : Incoming → SessionEnd
  | .eof => SessionEnd.closedClean
  | .error => SessionEnd.closedError
  | .record _ next => next.ending

/-- The calls of `saveFile` for the records `rs` in order, starting with the
`k`-th call of the connection on the file system `fs`, and the file system
after them. -/
def saveAll (wd : Str) (clock : Nat → Time) : Nat → FS → List FileInfo → List SaveCall × FS
  | _, fs, [] => ([], fs)
  | k, fs, r :: rs =>
    (⟨r, clock k, (saveFile wd (clock k) fs r).1⟩ ::
        (saveAll wd clock (k + 1) (saveFile wd (clock k) fs r).2 rs).1,
      (saveAll wd clock (k + 1) (saveFile wd (clock k) fs r).2 rs).2)

/-- The bytes on the wire for the records `rs`, each written by `Encode`. -/
def encodeAll (rs : List FileInfo) : Str := rs.flatMap json.Encode

/-! ## Agent: one session (`client.go`, `main`, lines 110-135) -/

/-- Go `getPathPatternsFromServer(conn)` (`client.go` lines 296-306) on the
input received from the collector; `none` is the error. -/
def getPathPatternsFromServer (fromServer : Str) : Option (List Str) :=
  json.DecodeStrings fromServer

/-- How the function literal of `main` that serves one connection returns. -/
inductive AgentEnd where
  /-- The patterns could not be read: `return` at line 116. -/
  | patternsError
  /-- The home directory is unknown: `return` at line 126. -/
  | homeDirError
  /-- The discovery pass ran and returned this error (or panicked). -/
  | searched (err : Option WalkError)
deriving DecidableEq, Repr

/-- The function literal of `main` (`client.go` lines 110-135) for one
connection: `fromServer` is the input received, `homeDir` the result of
`os.UserHomeDir()`, `tree searchPath` the directory tree found at the search
path. The end reached and the connection afterwards. -/
def agentSession (lower : Char → Char) (config : Config) (tree : Str → Option Entry)
    (homeDir : Option Str) (localIP hostname : Str) (fromServer : Str) (conn : Conn) :
    AgentEnd × Conn :=
  match getPathPatternsFromServer fromServer with
  | none => (AgentEnd.patternsError, conn)
  | some patterns =>
    match (if config.SearchPath = [] then
        homeDir.map (fun h => filepath.Join [h, str "Documents"])
      else some config.SearchPath) with
    | none => (AgentEnd.homeDirError, conn)
    | some searchPath =>
      match searchAndSendFiles lower config (tree searchPath) localIP searchPath patterns conn
          hostname with
      | (err, conn1) => (AgentEnd.searched err, conn1)


/-! ## Notions used to state what the discovery pass emits -/

/-- What the walk function of the second pass decides for one entry before it
touches the connection: to return `err` without sending, or to encode
`record` and return `onError` if that fails and nil otherwise. -/
inductive Step where
  | done (err : Option WalkError)
  | send (record : FileInfo) (onError : WalkError)
deriving DecidableEq, Repr

/-- Carry a decision out on the connection. -/
def Step.run : Step → Conn → Option WalkError × Conn
  | .done err, conn => (err, conn)
  | .send record onError, conn =>
    match conn.Encode record with
    | none => (some onError, conn)
    | some conn1 => (none, conn1)

/-- The decision of the walk function of the second pass of
`searchAndSendFiles` (lines 182-268) for one entry; `secondPass` is this
decision carried out on the connection. -/
def secondPassStep (lower : Char → Char) (config : Config) (rootPath : Str) (patterns : List Str)
    (matchedFolders : List Str) (hostname localIP : Str) (path : Str) (info : Option Entry)
    (err : Bool) : Step :=
  if err then .done none
  else if (utf8.bytes rootPath).length > (utf8.bytes path).length then
    .done (some WalkError.panic)
  else
    let level := strings.Count ((utf8.bytes path).drop (utf8.bytes rootPath).length)
        filepath.SeparatorByte
    if level > 5 then .done (some WalkError.SkipDir)
    else
      let inMatchedFolder := config.MatchFolders &&
        matchedFolders.any (fun folderPath => strings.HasPrefix path folderPath)
      match info with
      | none => .done (some WalkError.panic)
      | some info =>
        if info.IsDir then
          if config.MatchFolders && containsPattern lower (filepath.Base path) patterns then
            match filepath.Rel rootPath path with
            | none => .done (some WalkError.rel)
            | some relPath => .send ⟨relPath, none, localIP, hostname⟩ WalkError.sendingFolder
          else .done none
        else
          let shouldSendFile := config.MatchFiles &&
            containsPattern lower (filepath.Base path) patterns
          let shouldSendFile :=
            if config.MatchFolders then shouldSendFile || inMatchedFolder else shouldSendFile
          if shouldSendFile then
            if config.FilterExts && !isValidExtension lower path then .done none
            else
              match filepath.Rel rootPath path with
              | none => .done (some WalkError.rel)
              | some relPath =>
                match (match info with
                  | .file _ content => content
                  | .dir _ _ _ => none) with
                | none => .done none
                | some content =>
                  .send ⟨relPath, some content, localIP, hostname⟩ WalkError.sendingFile
          else .done none

/-- The walk function that notes what `fn` sends at each entry, paired with
the path of the entry, `fn` being run on a connection that never fails. -/
def recordSends (fn : WalkFunc Conn) : WalkFunc (List (Str × FileInfo)) :=
  fun path info err log =>
    ((fn path info err ⟨[], none⟩).1,
      log ++ (fn path info err ⟨[], none⟩).2.sent.map (fun r => (path, r)))

/-- The records that the second pass of `searchAndSendFiles` emits on the tree
`root` when no `Encode` fails, each with the path of the entry it was made
for, in the order of the walk. -/
def emitted (lower : Char → Char) (config : Config) (root : Option Entry) (localIP : Str)
    (rootPath : Str) (patterns : List Str) (hostname : Str) : List (Str × FileInfo) :=
  (filepath.Walk
    (recordSends (secondPass lower config rootPath patterns
      (matchedFoldersOf lower config rootPath root patterns) hostname localIP))
    rootPath root []).2

/-- What the extension filter lets through: a folder marker (nil content), or
a file whose path has one of the extensions `.cpp`, `.py`, `.c`. -/
def passesFilter (lower : Char → Char) (pr : Str × FileInfo) : Bool :=
  pr.2.Content.isNone || isValidExtension lower pr.1

/-- The connection with room `b` accepts at least as many records as the one
with room `a`. -/
def roomLe : Option Nat → Option Nat → Prop
  | none, none => True
  | some a, some b => a ≤ b
  | _, _ => False

/-- The walk goes on after this result: nil, or `filepath.SkipDir`. -/
def soft (err : Option WalkError) : Prop := err = none ∨ err = some WalkError.SkipDir

/-- How the run without the extension filter (connection `cOff`), the run with
it (connection `cOn`) and the list `log` of what was emitted stand to each
other in the middle of a walk that started on a connection holding `base`. -/
def filterInv (lower : Char → Char) (base : List FileInfo) (cOff cOn : Conn)
    (log : List (Str × FileInfo)) : Prop :=
  cOff.sent = base ++ log.map Prod.snd ∧
    cOn.sent = base ++ (log.filter (passesFilter lower)).map Prod.snd ∧
    roomLe cOff.room cOn.room


/-! ## Agent: connecting (`client.go`, `connectWithRetry`) -/

/-- The loop of `connectWithRetry` (lines 281-292) with `retryCount` as
argument: `dial k` is the outcome of the call of `net.Dial` made when
`retryCount` is `k` (`none` is an error). The result is what is returned
(`none` for the error "failed to connect after 100 attempts") and the number
of calls of `net.Dial` made. The first argument bounds the number of turns;
`none` means it was too small. -/
def connectLoop {γ : Type} (dial : Nat → Option γ) (maxRetries : Nat) :
    Nat → Nat → Option (Option γ × Nat)
  | 0, _ => none
  | fuel + 1, retryCount =>
    if retryCount < maxRetries then
      match dial retryCount with
      | some conn => some (some conn, retryCount + 1)
      | none => connectLoop dial maxRetries fuel (retryCount + 1)
    else some (none, retryCount)

/-- Go `connectWithRetry(serverIP)` (`client.go` lines 277-294), the waiting
between attempts left out; `maxRetries` is 100, and 101 turns suffice. -/
def connectWithRetry {γ : Type} (dial : Nat → Option γ) : Option (Option γ × Nat) :=
  connectLoop dial 100 101 0

/-! ## The extension test of the older agent -/

/-- Go `strings.HasSuffix(s, suffix)`. -/
def strings.HasSuffix (s suffix : Str) : Bool :=
  s.length ≥ suffix.length && s.drop (s.length - suffix.length) == suffix

/-- The extension test of the older agent
(`client-1_4FIXED-LOOPINGINF-WITH DYNA ARG.go` lines 113-115): the lower-cased
path ends with `.py`, `.cpp` or `.c`. -/
def hasSourceSuffix (lower : Char → Char) (path : Str) : Bool :=
  strings.HasSuffix (strings.ToLower lower path) (str ".py") ||
    strings.HasSuffix (strings.ToLower lower path) (str ".cpp") ||
    strings.HasSuffix (strings.ToLower lower path) (str ".c")

/-! ## Notions used to state the order and the extent of a discovery pass -/

/-- What a decision returns when the connection does not fail. -/
def Step.result : Step → Option WalkError
  | .done err => err
  | .send _ _ => none

/-- The record a decision sends, if any. -/
def Step.record : Step → Option FileInfo
  | .done _ => none
  | .send record _ => some record

/-- The walk function that notes the calls of `fn`: path, info and error
flag, `fn` being run on a connection that never fails. -/
def recordVisits (fn : WalkFunc Conn) : WalkFunc (List (Str × Option Entry × Bool)) :=
  fun path info err log => ((fn path info err ⟨[], none⟩).1, log ++ [(path, info, err)])

/-- The calls of the walk function that the second pass of
`searchAndSendFiles` makes on the tree `root` when no `Encode` fails, in
order. -/
def visited (lower : Char → Char) (config : Config) (root : Option Entry) (localIP : Str)
    (rootPath : Str) (patterns : List Str) (hostname : Str) : List (Str × Option Entry × Bool) :=
  (filepath.Walk
    (recordVisits (secondPass lower config rootPath patterns
      (matchedFoldersOf lower config rootPath root patterns) hostname localIP))
    rootPath root []).2

/-- The record that the second pass makes at one call of its walk function,
with the path of the call. -/
def recordAt (lower : Char → Char) (config : Config) (rootPath : Str) (patterns : List Str)
    (matchedFolders : List Str) (hostname localIP : Str) (v : Str × Option Entry × Bool) :
    Option (Str × FileInfo) :=
  (secondPassStep lower config rootPath patterns matchedFolders hostname localIP
    v.1 v.2.1 v.2.2).record.map (fun r => (v.1, r))

namespace filepath

mutual

/-- The calls that `walk` makes on a tree when the walk function always
returns nil: the entry itself, then, for a directory that can be listed, its
entries in order, each with all that lies below it (depth-first
pre-order). -/
def preorder (path : Str) : Entry → List (Str × Option Entry × Bool)
  | .file n c => [(path, some (.file n c), false)]
  | .dir n listable children =>
    (path, some (.dir n listable children), !listable) ::
      (if listable then preorderNames path children else [])

/-- The pre-order of the entries of a directory. -/
def preorderNames (path : Str) : List Entry → List (Str × Option Entry × Bool)
  | [] => []
  | e :: rest => preorder (Join [path, e.name]) e ++ preorderNames path rest

end

/-- The pre-order of the tree at `root`; a root that does not exist is
handed to the walk function once, with an error. -/
def preorderRoot (root : Str) : Option Entry → List (Str × Option Entry × Bool)
  | none => [(root, none, true)]
  | some e => preorder root e

end filepath

/-- The place `a` comes before the place `b` in depth-first pre-order. A
place is the list of the positions, counted from 0, that lead from the root
down to an entry (the root has place `[]`); `a` comes before `b` when `b`
lies inside the folder at `a` (`a` is a proper prefix of `b`), or when, where
the two first differ, `a` holds the smaller position. -/
def placeBefore : List Nat → List Nat → Bool
  | [], [] => false
  | [], _ :: _ => true
  | _ :: _, [] => false
  | i :: a, j :: b => i < j || (i == j && placeBefore a b)

namespace filepath

mutual

/-- The pre-order of the tree with the place of every entry in front:
`preorder`, each call paired with the place of its entry. -/
def preorderAt (place : List Nat) (path : Str) : Entry → List (List Nat × Str × Option Entry × Bool)
  | .file n c => [(place, path, some (.file n c), false)]
  | .dir n listable children =>
    (place, path, some (.dir n listable children), !listable) ::
      (if listable then preorderNamesAt place 0 path children else [])

/-- The pre-order of the entries of the directory at `place`, from its `k`-th
entry on. -/
def preorderNamesAt (place : List Nat) (k : Nat) (path : Str) :
    List Entry → List (List Nat × Str × Option Entry × Bool)
  | [] => []
  | e :: rest =>
    preorderAt (place ++ [k]) (Join [path, e.name]) e ++ preorderNamesAt place (k + 1) path rest

end

/-- The pre-order of the tree at `root` with the place of every entry. -/
def preorderRootAt (root : Str) : Option Entry → List (List Nat × Str × Option Entry × Bool)
  | none => [([], root, none, true)]
  | some e => preorderAt [] root e

end filepath

mutual

/-- The tree in which reading fails for every file whose path satisfies
`bad`; `path` is the path of the entry. -/
def Entry.blind (bad : Str → Bool) (path : Str) : Entry → Entry
  | .file n c => .file n (if bad path then none else c)
  | .dir n listable children => .dir n listable (Entry.blindNames bad path children)

/-- The entries of the directory at `path`, reading failing as in `blind`. -/
def Entry.blindNames (bad : Str → Bool) (path : Str) : List Entry → List Entry
  | [] => []
  | e :: rest =>
    Entry.blind bad (filepath.Join [path, e.name]) e :: Entry.blindNames bad path rest

end

/-- A record that does not come from a file whose path satisfies `bad`: a
folder marker, or a file record made at another path. -/
def notBlinded (bad : Str → Bool) (pr : Str × FileInfo) : Bool :=
  pr.2.Content.isNone || !bad pr.1

/-- How a pass (connection `c1`), a second pass that leaves out the records
not satisfying `keep` (connection `c2`) and the list `log` of what the first
emitted stand to each other in the middle of a walk that started on a
connection holding `base`. -/
def keepInv (keep : Str × FileInfo → Bool) (base : List FileInfo) (c1 c2 : Conn)
    (log : List (Str × FileInfo)) : Prop :=
  c1.sent = base ++ log.map Prod.snd ∧
    c2.sent = base ++ (log.filter keep).map Prod.snd ∧
    roomLe c1.room c2.room

/-! # Theorems -/

/-! ## Facts about `strings` -/

theorem strings.hasPrefix_iff (s p : Str) : strings.HasPrefix s p = true ↔ p <+: s := by
  induction p generalizing s with
  | nil => simp [strings.HasPrefix]
  | cons d p ih =>
    cases s with
    | nil => simp [strings.HasPrefix]
    | cons c s =>
      simp only [strings.HasPrefix, Bool.and_eq_true, beq_iff_eq, ih, List.cons_prefix_cons]
      constructor
      · rintro ⟨h1, h2⟩; exact ⟨h1.symm, h2⟩
      · rintro ⟨h1, h2⟩; exact ⟨h1.symm, h2⟩

theorem strings.contains_iff (s sub : Str) : strings.Contains s sub = true ↔ sub <:+: s := by
  induction s with
  | nil =>
    simp only [strings.Contains, strings.hasPrefix_iff]
    constructor
    · intro h; exact h.isInfix
    · intro h
      have := List.eq_nil_of_infix_nil h
      subst this; exact List.prefix_refl _
  | cons c s ih =>
    simp only [strings.Contains, Bool.or_eq_true, strings.hasPrefix_iff, ih]
    rw [List.infix_cons_iff]

theorem containsPatternLoop_iff (lower : Char → Char) (pl : Str) (P : List Str) :
    containsPatternLoop lower pl P = true ↔ ∃ p ∈ P, strings.ToLower lower p <:+: pl := by
  induction P with
  | nil => simp [containsPatternLoop]
  | cons p P ih =>
    simp only [containsPatternLoop, List.mem_cons, exists_eq_or_imp]
    rw [← strings.contains_iff, ← ih]
    cases strings.Contains pl (strings.ToLower lower p) <;> simp

/-! ## C1 -/

/-- C1. `containsPattern` is a total Boolean function; it returns true exactly
when the lower-cased form of some pattern of the list occurs as a contiguous
substring of the lower-cased name, and it returns false for the empty pattern
list. -/
theorem containsPattern_iff_exists_infix (lower : Char → Char) (N : Str) (P : List Str) :
    (containsPattern lower N P = true ↔
        ∃ p ∈ P, ∃ pre post : Str,
          strings.ToLower lower N = pre ++ strings.ToLower lower p ++ post) ∧
      containsPattern lower N [] = false := by
  refine ⟨?_, rfl⟩
  unfold containsPattern
  rw [containsPatternLoop_iff]
  constructor
  · rintro ⟨p, hp, pre, post, h⟩
    exact ⟨p, hp, pre, post, h.symm⟩
  · rintro ⟨p, hp, pre, post, h⟩
    exact ⟨p, hp, pre, post, h.symm⟩

/-! ## Facts about `strings.ReplaceAll` for one-character arguments -/

theorem strings.hasPrefix_singleton (c : Char) (s : Str) (o : Char) :
    strings.HasPrefix (c :: s) [o] = (c == o) := by
  cases s <;> simp [strings.HasPrefix]

theorem strings.replaceScan_singleton (o : Char) (new : Str) (n : Nat) (s : Str)
    (h : s.length ≤ n) :
    strings.replaceScan [o] new n s = s.flatMap (fun c => if c = o then new else [c]) := by
  induction n generalizing s with
  | zero =>
    have : s = [] := List.length_eq_zero.1 (Nat.le_zero.1 h)
    subst this; rfl
  | succ n ih =>
    cases s with
    | nil => rfl
    | cons c s =>
      have hs : s.length ≤ n := by simpa using h
      simp only [strings.replaceScan, strings.hasPrefix_singleton, List.length_singleton,
        List.drop_succ_cons, List.drop_zero, List.flatMap_cons, beq_iff_eq, ih s hs]
      by_cases hc : c = o <;> simp [hc]

theorem strings.replaceAll_singleton (s : Str) (o : Char) (new : Str) :
    strings.ReplaceAll s [o] new = s.flatMap (fun c => if c = o then new else [c]) := by
  unfold strings.ReplaceAll
  rw [if_neg (by simp)]
  exact strings.replaceScan_singleton o new _ s (le_refl _)

theorem strings.replaceAll_char (s : Str) (o n : Char) :
    strings.ReplaceAll s [o] [n] = s.map (fun c => if c = o then n else c) := by
  rw [strings.replaceAll_singleton]
  induction s with
  | nil => rfl
  | cons c s ih =>
    simp only [List.flatMap_cons, List.map_cons, ih]
    by_cases hc : c = o <;> simp [hc]

theorem strings.replaceAll_same_char (s : Str) (o : Char) :
    strings.ReplaceAll s [o] [o] = s := by
  rw [strings.replaceAll_char]
  conv_rhs => rw [← List.map_id s]
  apply List.map_congr_left
  intro c _
  by_cases hc : c = o <;> simp [hc]

theorem strings.not_mem_replaceAll_char (s : Str) (o n x : Char) (hx : x ∉ s) (hn : x ≠ n) :
    x ∉ strings.ReplaceAll s [o] [n] := by
  rw [strings.replaceAll_char]
  intro hmem
  obtain ⟨c, hc, hcx⟩ := List.mem_map.1 hmem
  by_cases hco : c = o
  · rw [if_pos hco] at hcx; exact hn hcx.symm
  · rw [if_neg hco] at hcx; exact hx (hcx ▸ hc)

theorem strings.hasPrefix_append_left (p a b : Str) :
    strings.HasPrefix (p ++ a) (p ++ b) = strings.HasPrefix a b := by
  induction p with
  | nil => rfl
  | cons c p ih => simp [strings.HasPrefix, ih]

/-! ## Facts about path elements -/

namespace filepath

theorem elements_ne_nil (s : Str) : elements s ≠ [] := by
  cases s with
  | nil => simp [elements]
  | cons c s =>
    simp only [elements]
    split
    · simp
    · cases elements s <;> simp [consHead]

theorem elements_cons (c : Char) (s : Str) :
    elements (c :: s) = if c = Separator then [] :: elements s else consHead c (elements s) := rfl

theorem consHead_append (c : Char) (l m : List Str) (h : l ≠ []) :
    consHead c (l ++ m) = consHead c l ++ m := by
  cases l with
  | nil => exact absurd rfl h
  | cons x l => rfl

theorem elements_append_sep (a b : Str) :
    elements (a ++ Separator :: b) = elements a ++ elements b := by
  induction a with
  | nil => simp [elements]
  | cons c a ih =>
    rw [List.cons_append, elements_cons, elements_cons, ih]
    split
    · rfl
    · exact consHead_append c _ _ (elements_ne_nil a)

theorem elements_of_not_mem (a : Str) (h : Separator ∉ a) : elements a = [a] := by
  induction a with
  | nil => rfl
  | cons c a ih =>
    have hc : c ≠ Separator := fun e => h (e ▸ List.mem_cons_self _ _)
    have ha : Separator ∉ a := fun m => h (List.mem_cons_of_mem _ m)
    simp [elements, hc, ih ha, consHead]

theorem intercalate_cons_cons (sep x y : Str) (l : List Str) :
    sep.intercalate (x :: y :: l) = x ++ sep ++ sep.intercalate (y :: l) := by
  simp [List.intercalate, List.intersperse]

theorem intercalate_singleton (sep x : Str) : sep.intercalate [x] = x := by
  simp [List.intercalate, List.intersperse]

theorem elements_intercalate (l : List Str) (hl : l ≠ []) (h : ∀ e ∈ l, Separator ∉ e) :
    elements ([Separator].intercalate l) = l := by
  induction l with
  | nil => exact absurd rfl hl
  | cons x l ih =>
    cases l with
    | nil =>
      rw [intercalate_singleton]
      exact elements_of_not_mem x (h x (List.mem_cons_self _ _))
    | cons y l =>
      rw [intercalate_cons_cons]
      have : x ++ [Separator] ++ [Separator].intercalate (y :: l)
          = x ++ Separator :: [Separator].intercalate (y :: l) := by simp
      rw [this, elements_append_sep, elements_of_not_mem x (h x (List.mem_cons_self _ _)),
        ih (by simp) (fun e he => h e (List.mem_cons_of_mem _ he))]
      rfl

theorem not_mem_of_mem_elements (s : Str) : ∀ e ∈ elements s, Separator ∉ e := by
  induction s with
  | nil => simp [elements]
  | cons c s ih =>
    intro e he
    simp only [elements] at he
    split at he
    · rcases List.mem_cons.1 he with rfl | h
      · simp
      · exact ih e h
    · rename_i hc
      cases hes : elements s with
      | nil => exact absurd hes (elements_ne_nil s)
      | cons x l =>
        rw [hes] at he ih
        simp only [consHead, List.mem_cons] at he
        rcases he with rfl | h
        · intro hm
          rcases List.mem_cons.1 hm with e1 | e2
          · exact hc e1.symm
          · exact ih x (List.mem_cons_self _ _) e2
        · exact ih e (List.mem_cons_of_mem _ h)

theorem intercalate_elements (s : Str) : [Separator].intercalate (elements s) = s := by
  induction s with
  | nil => rfl
  | cons c s ih =>
    simp only [elements]
    split
    · rename_i hc
      cases hes : elements s with
      | nil => exact absurd hes (elements_ne_nil s)
      | cons x l =>
        rw [hes] at ih
        rw [intercalate_cons_cons, ih, hc]; rfl
    · cases hes : elements s with
      | nil => exact absurd hes (elements_ne_nil s)
      | cons x l =>
        rw [hes] at ih
        cases l with
        | nil =>
          rw [intercalate_singleton] at ih
          simp [consHead, intercalate_singleton, ih]
        | cons y l =>
          rw [intercalate_cons_cons] at ih
          simp only [consHead]
          rw [intercalate_cons_cons, ← ih]; simp

end filepath
/-! ## Facts about `filepath.Clean` and `filepath.Join` -/

namespace filepath

theorem cleanStep_name (r : Bool) (b : CleanBuf) (e : Str) (h : IsName e) :
    cleanStep r b e = ⟨b.dotdot, b.out ++ [e]⟩ := by
  unfold cleanStep
  rw [if_neg h.1, if_neg h.2.1, if_neg h.2.2]

theorem foldl_cleanStep_names (r : Bool) (b : CleanBuf) (l : List Str)
    (h : ∀ e ∈ l, IsName e) :
    l.foldl (cleanStep r) b = ⟨b.dotdot, b.out ++ l⟩ := by
  induction l generalizing b with
  | nil => simp
  | cons e l ih =>
    rw [List.foldl_cons, cleanStep_name r b e (h e (List.mem_cons_self _ _)),
      ih _ (fun x hx => h x (List.mem_cons_of_mem _ hx))]
    simp

/-- Elements that `Clean` drops (empty, `.`) or keeps (names). -/
theorem foldl_cleanStep_inert (r : Bool) (b : CleanBuf) (l : List Str)
    (h : ∀ e ∈ l, e = [] ∨ e = ['.'] ∨ IsName e) :
    l.foldl (cleanStep r) b =
      ⟨b.dotdot, b.out ++ l.filter (fun e => e != [] && e != ['.'])⟩ := by
  induction l generalizing b with
  | nil => simp
  | cons e l ih =>
    rw [List.foldl_cons, ih _ (fun x hx => h x (List.mem_cons_of_mem _ hx))]
    rcases h e (List.mem_cons_self _ _) with he | he | he
    · subst he; simp [cleanStep]
    · subst he; simp [cleanStep]
    · rw [cleanStep_name r b e he]
      have h1 : (e != []) = true := by simpa using he.1
      have h2 : (e != ['.']) = true := by simpa using he.2.1
      simp [List.filter_cons, h1, h2]

theorem cleanStep_out_names (r : Bool) (b : CleanBuf) (e : Str)
    (hb : ∀ x ∈ b.out, IsName x) : ∀ x ∈ (cleanStep r b e).out, IsName x := by
  unfold cleanStep
  split
  · exact hb
  · split
    · exact hb
    · split
      · split
        · intro x hx
          exact hb x (List.mem_of_mem_dropLast hx)
        · split <;> exact hb
      · rename_i h1 h2 h3
        intro x hx
        rcases List.mem_append.1 hx with h | h
        · exact hb x h
        · rw [List.mem_singleton.1 h]; exact ⟨h1, h2, h3⟩

theorem foldl_cleanStep_out_names (r : Bool) (b : CleanBuf) (l : List Str)
    (hb : ∀ x ∈ b.out, IsName x) : ∀ x ∈ (l.foldl (cleanStep r) b).out, IsName x := by
  induction l generalizing b with
  | nil => exact hb
  | cons e l ih => exact ih _ (cleanStep_out_names r b e hb)

theorem cleanStep_rooted_dotdot (b : CleanBuf) (e : Str) (hb : b.dotdot = 0) :
    (cleanStep true b e).dotdot = 0 := by
  unfold cleanStep
  repeat' split
  all_goals first | exact hb | simp_all

theorem foldl_cleanStep_rooted_dotdot (b : CleanBuf) (l : List Str) (hb : b.dotdot = 0) :
    (l.foldl (cleanStep true) b).dotdot = 0 := by
  induction l generalizing b with
  | nil => exact hb
  | cons e l ih => exact ih _ (cleanStep_rooted_dotdot b e hb)

theorem clean_of_ne_nil (p : Str) (h : p ≠ []) :
    Clean p = cleanString (p.head? == some Separator)
      ((elements p).foldl (cleanStep (p.head? == some Separator)) ⟨0, []⟩) := by
  unfold Clean
  rw [if_neg h]

theorem clean_append_sep (a b : Str) (ha : a ≠ []) :
    Clean (a ++ Separator :: b) = cleanString (a.head? == some Separator)
      ((elements b).foldl (cleanStep (a.head? == some Separator))
        ((elements a).foldl (cleanStep (a.head? == some Separator)) ⟨0, []⟩)) := by
  rw [clean_of_ne_nil _ (by simp [ha]), elements_append_sep, List.foldl_append]
  cases a with
  | nil => exact absurd rfl ha
  | cons c a => rfl

theorem intercalate_append (sep : Str) (xs ns : List Str) (hns : ns ≠ []) :
    sep.intercalate (xs ++ ns) = xs.flatMap (fun x => x ++ sep) ++ sep.intercalate ns := by
  induction xs with
  | nil => simp
  | cons x xs ih =>
    cases hl : xs ++ ns with
    | nil => simp [hns] at hl
    | cons y l =>
      rw [List.cons_append, hl, intercalate_cons_cons, ← hl, ih]
      simp

theorem isName_of_mem (e : Str) (c : Char) (hc : c ∈ e) (hdot : c ≠ '.') : IsName e := by
  refine ⟨?_, ?_, ?_⟩
  · rintro rfl; simp at hc
  · rintro rfl; simp at hc; exact hdot hc
  · rintro rfl; simp at hc; exact hdot hc

end filepath
/-! ## Facts about the timestamp and the client directory name -/

theorem time.digitChar_isDigit (d : Nat) (h : d < 10) : (Nat.digitChar d).isDigit = true := by
  interval_cases d <;> decide

theorem time.isDigit_of_mem_digitsRev (fuel n : Nat) :
    ∀ c ∈ time.digitsRev fuel n, c.isDigit = true := by
  induction fuel generalizing n with
  | zero => simp [time.digitsRev]
  | succ fuel ih =>
    intro c hc
    unfold time.digitsRev at hc
    split at hc
    · simp at hc
    · rcases List.mem_cons.1 hc with rfl | h
      · exact time.digitChar_isDigit _ (Nat.mod_lt _ (by decide))
      · exact ih _ c h

theorem time.isDigit_of_mem_appendInt (x w : Nat) :
    ∀ c ∈ time.appendInt x w, c.isDigit = true := by
  intro c hc
  unfold time.appendInt at hc
  rcases List.mem_append.1 hc with h | h
  · rw [(List.mem_replicate.1 h).2]; decide
  · split at h
    · rw [List.mem_singleton.1 h]; decide
    · exact time.isDigit_of_mem_digitsRev _ _ c (List.mem_reverse.1 h)

theorem time.format_eq (t : Time) :
    time.Format_2006_01_02___15_04 t =
      time.appendInt t.year 4 ++ '_' :: (time.appendInt t.month 2 ++ '_' ::
        (time.appendInt t.day 2 ++ '_' :: '_' :: '_' ::
          (time.appendInt t.hour 2 ++ '_' :: time.appendInt t.minute 2))) := by
  simp [time.Format_2006_01_02___15_04, str]

theorem time.mem_format (t : Time) :
    ∀ c ∈ time.Format_2006_01_02___15_04 t, c.isDigit = true ∨ c = '_' := by
  intro c hc
  rw [time.format_eq] at hc
  simp only [List.mem_append, List.mem_cons] at hc
  have key := fun x w => time.isDigit_of_mem_appendInt x w c
  rcases hc with h | h | h | h | h | h | h | h | h | h | h <;>
    first
    | exact Or.inl (key _ _ h)
    | exact Or.inr h

theorem time.separator_not_mem_format (t : Time) :
    filepath.Separator ∉ time.Format_2006_01_02___15_04 t := by
  intro h
  rcases time.mem_format t _ h with h1 | h1
  · revert h1; decide
  · revert h1; decide

theorem clientDirName_eq (fi : FileInfo) (now : Time) :
    clientDirName fi now =
      strings.ReplaceAll fi.Username [' '] ['_'] ++ '_' ::
        (strings.ReplaceAll fi.ClientIP ['.'] ['_'] ++ '_' ::
          time.Format_2006_01_02___15_04 now) := by
  simp [clientDirName, str]

theorem separator_not_mem_clientDirName (fi : FileInfo) (now : Time)
    (hU : filepath.Separator ∉ fi.Username) (hI : filepath.Separator ∉ fi.ClientIP) :
    filepath.Separator ∉ clientDirName fi now := by
  rw [clientDirName_eq]
  have h1 := strings.not_mem_replaceAll_char fi.Username ' ' '_' _ hU (by decide)
  have h2 := strings.not_mem_replaceAll_char fi.ClientIP '.' '_' _ hI (by decide)
  have h3 := time.separator_not_mem_format now
  intro h
  simp only [List.mem_append, List.mem_cons] at h
  rcases h with h | h | h | h | h
  · exact h1 h
  · revert h; decide
  · exact h2 h
  · revert h; decide
  · exact h3 h

theorem isName_clientDirName (fi : FileInfo) (now : Time) :
    filepath.IsName (clientDirName fi now) := by
  apply filepath.isName_of_mem _ '_'
  · rw [clientDirName_eq]; simp
  · decide
/-! ## Facts about `fullPath`, `filepath.Abs` and the security check -/

theorem BASE_DIR_eq : BASE_DIR = ['r','e','c','e','i','v','e','d','_','f','i','l','e','s'] := by
  decide

theorem elements_BASE_DIR : filepath.elements BASE_DIR = [BASE_DIR] := by decide

theorem isName_BASE_DIR : filepath.IsName BASE_DIR := by
  unfold filepath.IsName; decide

theorem filepath.join_cons (e : Str) (rest : List Str) (h : e ≠ []) :
    filepath.Join (e :: rest) = filepath.Clean ([filepath.Separator].intercalate (e :: rest)) := by
  have h2 : (e == []) = false := by simpa using h
  unfold filepath.Join
  rw [List.dropWhile_cons, h2]
  rfl

theorem filepath.join_nil_cons (rest : List Str) :
    filepath.Join ([] :: rest) = filepath.Join rest := by
  unfold filepath.Join
  rw [List.dropWhile_cons]
  rfl

theorem fullPath_eq (fi : FileInfo) (now : Time) :
    fullPath fi now = filepath.Clean (BASE_DIR ++ filepath.Separator ::
      (clientDirName fi now ++ filepath.Separator :: filepath.Clean fi.RelativePath)) := by
  have h1 : str "/" = [filepath.Separator] := rfl
  simp only [fullPath, h1, strings.replaceAll_same_char]
  rw [filepath.join_cons _ _ isName_BASE_DIR.1, filepath.intercalate_cons_cons,
    filepath.intercalate_cons_cons, filepath.intercalate_singleton]
  simp

theorem clientRoot_eq (fi : FileInfo) (now : Time) :
    clientRoot fi now =
      filepath.Clean (BASE_DIR ++ filepath.Separator :: clientDirName fi now) := by
  unfold clientRoot
  rw [filepath.join_cons _ _ isName_BASE_DIR.1, filepath.intercalate_cons_cons,
    filepath.intercalate_singleton]
  simp

theorem filepath.head_intercalate_names (ns : List Str) (hne : ns ≠ [])
    (h : ∀ e ∈ ns, filepath.IsName e ∧ filepath.Separator ∉ e) :
    ∃ c rest, [filepath.Separator].intercalate ns = c :: rest ∧ c ≠ filepath.Separator := by
  cases ns with
  | nil => exact absurd rfl hne
  | cons n ns =>
    obtain ⟨hn, hs⟩ := h n (List.mem_cons_self _ _)
    cases n with
    | nil => exact absurd rfl hn.1
    | cons c n =>
      have hc : c ≠ filepath.Separator := fun e => hs (e ▸ List.mem_cons_self _ _)
      cases ns with
      | nil => exact ⟨c, n, by rw [filepath.intercalate_singleton], hc⟩
      | cons m ns =>
        exact ⟨c, _, by rw [filepath.intercalate_cons_cons]; rfl, hc⟩

theorem filepath.clean_intercalate_names (ns : List Str) (hne : ns ≠ [])
    (h : ∀ e ∈ ns, filepath.IsName e ∧ filepath.Separator ∉ e) :
    filepath.Clean ([filepath.Separator].intercalate ns) = [filepath.Separator].intercalate ns := by
  obtain ⟨c, rest, hcr, hc⟩ := filepath.head_intercalate_names ns hne h
  have hx : [filepath.Separator].intercalate ns ≠ [] := by rw [hcr]; simp
  rw [filepath.clean_of_ne_nil _ hx,
    filepath.elements_intercalate ns hne (fun e he => (h e he).2)]
  have hr : (([filepath.Separator].intercalate ns).head? == some filepath.Separator) = false := by
    rw [hcr]; simpa using hc
  rw [hr, filepath.foldl_cleanStep_names _ _ _ (fun e he => (h e he).1)]
  simp [filepath.cleanString, hne]

/-- For a fixed working directory, `Abs` puts one and the same string in front
of every relative path made of names only. -/
theorem filepath.abs_names (wd : Str) :
    ∃ P : Str, ∀ ns : List Str, ns ≠ [] →
      (∀ e ∈ ns, filepath.IsName e ∧ filepath.Separator ∉ e) →
      filepath.Abs wd ([filepath.Separator].intercalate ns)
        = P ++ [filepath.Separator].intercalate ns := by
  by_cases hwd : wd = []
  · refine ⟨[], fun ns hne h => ?_⟩
    obtain ⟨c, rest, hcr, hc⟩ := filepath.head_intercalate_names ns hne h
    have habs : filepath.IsAbs ([filepath.Separator].intercalate ns) = false := by
      rw [hcr]; simp [filepath.IsAbs, strings.HasPrefix, hc]
    have hx : (([filepath.Separator].intercalate ns) == []) = false := by rw [hcr]; rfl
    subst hwd
    have hx2 : [filepath.Separator].intercalate ns ≠ [] := by rw [hcr]; simp
    unfold filepath.Abs
    rw [habs]
    simp only [Bool.false_eq_true, if_false]
    rw [filepath.join_nil_cons, filepath.join_cons _ _ hx2, filepath.intercalate_singleton]
    exact filepath.clean_intercalate_names ns hne h
  · let r : Bool := wd.head? == some filepath.Separator
    let S := (filepath.elements wd).foldl (filepath.cleanStep r) ⟨0, []⟩
    refine ⟨(if r then [filepath.Separator] else []) ++
      (List.replicate S.dotdot ['.', '.'] ++ S.out).flatMap (fun x => x ++ [filepath.Separator]),
      fun ns hne h => ?_⟩
    obtain ⟨c, rest, hcr, hc⟩ := filepath.head_intercalate_names ns hne h
    have habs : filepath.IsAbs ([filepath.Separator].intercalate ns) = false := by
      rw [hcr]; simp [filepath.IsAbs, strings.HasPrefix, hc]
    unfold filepath.Abs
    rw [habs]
    simp only [Bool.false_eq_true, if_false]
    rw [filepath.join_cons _ _ hwd, filepath.intercalate_cons_cons, filepath.intercalate_singleton]
    have e1 : wd ++ [filepath.Separator] ++ [filepath.Separator].intercalate ns
        = wd ++ filepath.Separator :: [filepath.Separator].intercalate ns := by simp
    rw [e1, filepath.clean_append_sep _ _ hwd,
      filepath.elements_intercalate ns hne (fun e he => (h e he).2),
      filepath.foldl_cleanStep_names _ _ _ (fun e he => (h e he).1)]
    show filepath.cleanString r ⟨S.dotdot, S.out ++ ns⟩ = _
    have hall : List.replicate S.dotdot ['.', '.'] ++ (S.out ++ ns) ≠ [] := by simp [hne]
    unfold filepath.cleanString
    simp only [hall, if_false]
    rw [← List.append_assoc, filepath.intercalate_append _ _ _ hne]
    cases r <;> simp

/-- When the destination is a relative path made of names only, the security
check compares it with `BASE_DIR` itself. -/
theorem securityCheck_of_names (wd : Str) (fi : FileInfo) (now : Time) (ns : List Str)
    (hne : ns ≠ []) (h : ∀ e ∈ ns, filepath.IsName e ∧ filepath.Separator ∉ e)
    (hfull : fullPath fi now = [filepath.Separator].intercalate ns) :
    securityCheck wd fi now = strings.HasPrefix (fullPath fi now) BASE_DIR := by
  obtain ⟨P, hP⟩ := filepath.abs_names wd
  have hb := hP [BASE_DIR] (by simp) (by
    intro e he
    rw [List.mem_singleton.1 he]
    exact ⟨isName_BASE_DIR, by decide⟩)
  rw [filepath.intercalate_singleton] at hb
  unfold securityCheck
  simp only
  rw [hfull, hP ns hne h, hb, strings.hasPrefix_append_left]
/-! ## C2: the security check accepts a sibling of the base root -/

set_option maxRecDepth 100000 in
/-- C2 (evaluation at the failing input). With working directory `/srv`, the
record with relative path `../../received_files_evil/x` passes the security
check, `saveFile` returns nil and writes the file
`/srv/received_files_evil/x`, which is not a descendant of the base root
`/srv/received_files`. -/
theorem saveFile_writes_beside_base_root :
    saveFile (str "/srv") ⟨2024, 1, 2, 3, 4, 5, 0⟩ ⟨[], []⟩
        ⟨str "../../received_files_evil/x", some [104, 105], str "10.0.0.7", str "pc"⟩
      = (none, ⟨[str "/srv", str "/srv/received_files_evil"],
                [(str "/srv/received_files_evil/x", [104, 105])]⟩) ∧
    filepath.Abs (str "/srv") BASE_DIR = str "/srv/received_files" ∧
    filepath.Abs (str "/srv") (fullPath
        ⟨str "../../received_files_evil/x", some [104, 105], str "10.0.0.7", str "pc"⟩
        ⟨2024, 1, 2, 3, 4, 5, 0⟩) = str "/srv/received_files_evil/x" ∧
    ¬ isDescendant (str "/srv/received_files") (str "/srv/received_files_evil/x") := by
  decide

/-! ## C3: `../../etc/passwd` -/

set_option maxRecDepth 100000 in
/-- C3 (evaluation at the failing input). For the host identity `a/b` the
record with relative path `../../etc/passwd` is not rejected: the client
directory name `a/b_10_0_0_7_2024_01_02___03_04` keeps the separator of the
host identity and spans two path elements, the two `..` of the relative path
remove just these, and `saveFile` returns nil and writes
`/srv/received_files/etc/passwd`. -/
theorem saveFile_etc_passwd_accepted_for_host_with_separator :
    saveFile (str "/srv") ⟨2024, 1, 2, 3, 4, 5, 0⟩ ⟨[], []⟩
        ⟨str "../../etc/passwd", some [104, 105], str "10.0.0.7", str "a/b"⟩
      = (none, ⟨[str "/srv", str "/srv/received_files", str "/srv/received_files/etc"],
                [(str "/srv/received_files/etc/passwd", [104, 105])]⟩) := by
  decide

theorem fullPath_etc_passwd (now : Time) (content : Option (List UInt8)) (ip host : Str)
    (hU : filepath.Separator ∉ host) (hI : filepath.Separator ∉ ip) :
    fullPath ⟨str "../../etc/passwd", content, ip, host⟩ now = str "etc/passwd" := by
  have hsep := separator_not_mem_clientDirName ⟨str "../../etc/passwd", content, ip, host⟩ now hU hI
  have hname := isName_clientDirName ⟨str "../../etc/passwd", content, ip, host⟩ now
  have hc : filepath.Clean (str "../../etc/passwd") = str "../../etc/passwd" := by decide
  have hr : (BASE_DIR.head? == some filepath.Separator) = false := by decide
  have he : filepath.elements (str "../../etc/passwd")
      = [['.', '.'], ['.', '.'], ['e', 't', 'c'], ['p', 'a', 's', 's', 'w', 'd']] := by decide
  have hb : (filepath.elements BASE_DIR).foldl (filepath.cleanStep false) ⟨0, []⟩
      = ⟨0, [BASE_DIR]⟩ := by decide
  rw [fullPath_eq]
  simp only [hc]
  rw [filepath.clean_append_sep _ _ isName_BASE_DIR.1, hr, filepath.elements_append_sep,
    filepath.elements_of_not_mem _ hsep, he, hb, List.singleton_append, List.foldl_cons,
    filepath.cleanStep_name _ _ _ hname]
  simp [filepath.cleanStep, filepath.cleanString, str, List.intercalate, List.intersperse,
    filepath.Separator]

/-- Where neither the host identity nor the origin address holds a path
separator, `saveFile` applied to the record with relative path
`../../etc/passwd` returns the invalid-path error and leaves the file system
as it was, for every content, time, working directory and file system. -/
theorem saveFile_rejects_etc_passwd (wd : Str) (now : Time) (fs : FS)
    (content : Option (List UInt8)) (ip host : Str)
    (hU : filepath.Separator ∉ host) (hI : filepath.Separator ∉ ip) :
    saveFile wd now fs ⟨str "../../etc/passwd", content, ip, host⟩
      = (some SaveError.invalidPath, fs) := by
  have hfull := fullPath_etc_passwd now content ip host hU hI
  have hns : str "etc/passwd"
      = [filepath.Separator].intercalate [['e', 't', 'c'], ['p', 'a', 's', 's', 'w', 'd']] := by
    decide
  have hchk := securityCheck_of_names wd ⟨str "../../etc/passwd", content, ip, host⟩ now
    [['e', 't', 'c'], ['p', 'a', 's', 's', 'w', 'd']] (by simp)
    (by
      intro e he
      simp only [List.mem_cons, List.mem_singleton, List.not_mem_nil, or_false] at he
      rcases he with rfl | rfl <;> exact ⟨by unfold filepath.IsName; decide, by decide⟩)
    (hfull.trans hns)
  have hfalse : strings.HasPrefix (str "etc/passwd") BASE_DIR = false := by decide
  rw [hfull, hfalse] at hchk
  unfold saveFile
  rw [hchk]
  rw [if_pos (by decide)]

/-! ## C5: a rejected record leaves the file system untouched -/

theorem saveFile_of_check_false (wd : Str) (now : Time) (fs : FS) (fi : FileInfo)
    (h : securityCheck wd fi now = false) :
    saveFile wd now fs fi = (some SaveError.invalidPath, fs) := by
  unfold saveFile
  rw [h]
  rw [if_pos (by decide)]

theorem saveFile_of_check_true (wd : Str) (now : Time) (fs : FS) (fi : FileInfo)
    (h : securityCheck wd fi now = true) :
    saveFile wd now fs fi =
      match os.MkdirAll wd fs (filepath.Dir (fullPath fi now)) with
      | none => (some SaveError.creatingDirectory, fs)
      | some fs1 =>
        match fi.Content with
        | none => (none, fs1)
        | some content =>
          match os.WriteFile wd fs1 (fullPath fi now) content with
          | none => (some SaveError.writingFile, fs1)
          | some fs2 => (none, fs2) := by
  unfold saveFile
  rw [h]
  rw [if_neg (by decide)]

theorem saveFile_error_of_check_true (wd : Str) (now : Time) (fs : FS) (fi : FileInfo)
    (h : securityCheck wd fi now = true) :
    (saveFile wd now fs fi).1 ≠ some SaveError.invalidPath := by
  rw [saveFile_of_check_true wd now fs fi h]
  generalize os.MkdirAll wd fs (filepath.Dir (fullPath fi now)) = r1
  cases r1 with
  | none => intro h2; cases h2
  | some fs1 =>
    cases fi.Content with
    | none => intro h2; cases h2
    | some content =>
      show (match os.WriteFile wd fs1 (fullPath fi now) content with
        | none => (some SaveError.writingFile, fs1)
        | some fs2 => (none, fs2)).1 ≠ _
      generalize os.WriteFile wd fs1 (fullPath fi now) content = r2
      cases r2 <;> (intro h2; cases h2)

/-- C5. Whenever `saveFile` returns the invalid-path error, the file system
after the call is the file system before it: the check precedes
`os.MkdirAll` and `os.WriteFile`. -/
theorem saveFile_invalidPath_unchanged (wd : Str) (now : Time) (fs : FS) (fi : FileInfo)
    (h : (saveFile wd now fs fi).1 = some SaveError.invalidPath) :
    (saveFile wd now fs fi).2 = fs := by
  cases hchk : securityCheck wd fi now with
  | true => exact absurd h (saveFile_error_of_check_true wd now fs fi hchk)
  | false => rw [saveFile_of_check_false wd now fs fi hchk]

set_option maxRecDepth 100000 in
/-- Witness for `saveFile_invalidPath_unchanged` (C5). -/
theorem saveFile_invalidPath_unchanged_witness :
    (saveFile (str "/srv") ⟨2024, 1, 2, 3, 4, 5, 0⟩ ⟨[str "/srv"], []⟩
        ⟨str "../../../x", some [1], str "10.0.0.7", str "pc"⟩).1 = some SaveError.invalidPath ∧
    (saveFile (str "/srv") ⟨2024, 1, 2, 3, 4, 5, 0⟩ ⟨[str "/srv"], []⟩
        ⟨str "../../../x", some [1], str "10.0.0.7", str "pc"⟩).2 = ⟨[str "/srv"], []⟩ :=
  ⟨by decide, saveFile_invalidPath_unchanged _ _ _ _ (by decide)⟩
/-! ## C4: the destination and the client-scoped root -/

namespace filepath

theorem cleanStep_out_mem (r : Bool) (b : CleanBuf) (e : Str) :
    ∀ x ∈ (cleanStep r b e).out, x ∈ b.out ∨ x = e := by
  intro x hx
  unfold cleanStep at hx
  split at hx
  · exact Or.inl hx
  · split at hx
    · exact Or.inl hx
    · split at hx
      · split at hx
        · exact Or.inl (List.mem_of_mem_dropLast hx)
        · split at hx <;> exact Or.inl hx
      · rcases List.mem_append.1 hx with h | h
        · exact Or.inl h
        · exact Or.inr (List.mem_singleton.1 h)

theorem foldl_cleanStep_out_mem (r : Bool) (b : CleanBuf) (l : List Str) :
    ∀ x ∈ (l.foldl (cleanStep r) b).out, x ∈ b.out ∨ x ∈ l := by
  induction l generalizing b with
  | nil => intro x hx; exact Or.inl hx
  | cons e l ih =>
    intro x hx
    rcases ih _ x hx with h | h
    · rcases cleanStep_out_mem r b e x h with h2 | h2
      · exact Or.inl h2
      · exact Or.inr (h2 ▸ List.mem_cons_self _ _)
    · exact Or.inr (List.mem_cons_of_mem _ h)

/-- The buffer of `Clean` holds names without separator, whatever was read. -/
theorem foldl_cleanStep_out_wf (r : Bool) (b : CleanBuf) (s : Str)
    (hb : ∀ x ∈ b.out, IsName x ∧ Separator ∉ x) :
    ∀ x ∈ ((elements s).foldl (cleanStep r) b).out, IsName x ∧ Separator ∉ x := by
  intro x hx
  refine ⟨foldl_cleanStep_out_names r b _ (fun y hy => (hb y hy).1) x hx, ?_⟩
  rcases foldl_cleanStep_out_mem r b _ x hx with h | h
  · exact (hb x h).2
  · exact not_mem_of_mem_elements s x h

theorem elements_append_of_not_mem (a : Str) :
    ∃ init l, elements a = init ++ [l] ∧
      ∀ z : Str, Separator ∉ z → elements (a ++ z) = init ++ [l ++ z] := by
  induction a with
  | nil => exact ⟨[], [], rfl, fun z hz => by simpa using elements_of_not_mem z hz⟩
  | cons c a ih =>
    obtain ⟨init, l, h1, h2⟩ := ih
    by_cases hc : c = Separator
    · refine ⟨[] :: init, l, ?_, fun z hz => ?_⟩
      · rw [elements_cons, if_pos hc, h1]; rfl
      · rw [List.cons_append, elements_cons, if_pos hc, h2 z hz]; rfl
    · cases init with
      | nil =>
        refine ⟨[], c :: l, ?_, fun z hz => ?_⟩
        · rw [elements_cons, if_neg hc, h1]; rfl
        · rw [List.cons_append, elements_cons, if_neg hc, h2 z hz]; rfl
      | cons x rest =>
        refine ⟨(c :: x) :: rest, l, ?_, fun z hz => ?_⟩
        · rw [elements_cons, if_neg hc, h1]; rfl
        · rw [List.cons_append, elements_cons, if_neg hc, h2 z hz]; rfl

theorem elements_cleanString (b : CleanBuf) (hne : b.out ≠ [])
    (hb : ∀ x ∈ b.out, IsName x ∧ Separator ∉ x) :
    elements (cleanString false b) = List.replicate b.dotdot ['.', '.'] ++ b.out := by
  have hall : List.replicate b.dotdot ['.', '.'] ++ b.out ≠ [] := by simp [hne]
  unfold cleanString
  simp only [Bool.false_eq_true, if_false, hall]
  apply elements_intercalate _ hall
  intro e he
  rcases List.mem_append.1 he with h | h
  · rw [(List.mem_replicate.1 h).2]; decide
  · exact (hb e h).2

end filepath

theorem pathComponents_cleanString (b : filepath.CleanBuf) (hne : b.out ≠ [])
    (hb : ∀ x ∈ b.out, filepath.IsName x ∧ filepath.Separator ∉ x) :
    pathComponents (filepath.cleanString false b)
      = List.replicate b.dotdot ['.', '.'] ++ b.out := by
  unfold pathComponents
  rw [filepath.elements_cleanString b hne hb]
  apply List.filter_eq_self.2
  intro e he
  rcases List.mem_append.1 he with h | h
  · rw [(List.mem_replicate.1 h).2]; decide
  · simpa using (hb e h).1.1

/-- The elements of a cleaned path that does not start with `..` are empty,
`.`, or names. -/
theorem filepath.elements_clean_no_dotdot (p : Str)
    (h : (filepath.elements (filepath.Clean p)).head? ≠ some ['.', '.']) :
    ∀ e ∈ filepath.elements (filepath.Clean p), e = [] ∨ e = ['.'] ∨ filepath.IsName e := by
  by_cases hp : p = []
  · subst hp
    intro e he
    have : filepath.elements (filepath.Clean []) = [['.']] := by decide
    rw [this] at he
    exact Or.inr (Or.inl (List.mem_singleton.1 he))
  · rw [filepath.clean_of_ne_nil p hp] at h ⊢
    generalize hr : (p.head? == some filepath.Separator) = r at h ⊢
    have hwf := filepath.foldl_cleanStep_out_wf r ⟨0, []⟩ p (by simp)
    generalize hS : (filepath.elements p).foldl (filepath.cleanStep r) ⟨0, []⟩ = S at h hwf ⊢
    cases r with
    | true =>
      have hd : S.dotdot = 0 := by
        rw [← hS]; exact filepath.foldl_cleanStep_rooted_dotdot _ _ rfl
      intro e he
      unfold filepath.cleanString at he
      simp only [if_true, hd, List.replicate_zero, List.nil_append] at he
      rw [filepath.elements_cons, if_pos rfl] at he
      rcases List.mem_cons.1 he with h1 | h1
      · exact Or.inl h1
      · by_cases hout : S.out = []
        · rw [hout] at h1
          have : e = [] := by simpa [List.intercalate, filepath.elements] using h1
          exact Or.inl this
        · rw [filepath.elements_intercalate _ hout (fun x hx => (hwf x hx).2)] at h1
          exact Or.inr (Or.inr (hwf e h1).1)
    | false =>
      by_cases hall : List.replicate S.dotdot ['.', '.'] ++ S.out = []
      · intro e he
        unfold filepath.cleanString at he
        simp only [Bool.false_eq_true, if_false, hall, if_true] at he
        have h2 : filepath.elements ['.'] = [['.']] := by decide
        rw [h2] at he
        exact Or.inr (Or.inl (List.mem_singleton.1 he))
      · have hel : filepath.elements (filepath.cleanString false S)
            = List.replicate S.dotdot ['.', '.'] ++ S.out := by
          unfold filepath.cleanString
          simp only [Bool.false_eq_true, if_false, hall]
          apply filepath.elements_intercalate _ hall
          intro e he
          rcases List.mem_append.1 he with h1 | h1
          · rw [(List.mem_replicate.1 h1).2]; decide
          · exact (hwf e h1).2
        rw [hel] at h ⊢
        have hd : S.dotdot = 0 := by
          cases hdd : S.dotdot with
          | zero => rfl
          | succ n => rw [hdd] at h; simp [List.replicate_succ] at h
        rw [hd]
        intro e he
        simp only [List.replicate_zero, List.nil_append] at he
        exact Or.inr (Or.inr (hwf e he).1)

/-- The buffer of `Clean` after `BASE_DIR` and the client directory name
holds at least one element. -/
theorem clientRoot_buf (fi : FileInfo) (now : Time) :
    ((filepath.elements (clientDirName fi now)).foldl (filepath.cleanStep false)
        ⟨0, [BASE_DIR]⟩).out ≠ [] := by
  have hcd : clientDirName fi now =
      (strings.ReplaceAll fi.Username [' '] ['_'] ++ '_' ::
        strings.ReplaceAll fi.ClientIP ['.'] ['_']) ++
        ('_' :: time.Format_2006_01_02___15_04 now) := by
    rw [clientDirName_eq]; simp
  have hz : filepath.Separator ∉ ('_' :: time.Format_2006_01_02___15_04 now) := by
    intro hm
    rcases List.mem_cons.1 hm with h | h
    · revert h; decide
    · exact time.separator_not_mem_format now h
  obtain ⟨init, l, _, h2⟩ := filepath.elements_append_of_not_mem
    (strings.ReplaceAll fi.Username [' '] ['_'] ++ '_' ::
        strings.ReplaceAll fi.ClientIP ['.'] ['_'])
  rw [hcd, h2 _ hz, List.foldl_append, List.foldl_cons, List.foldl_nil,
    filepath.cleanStep_name _ _ _
      (filepath.isName_of_mem _ '_' (by simp) (by decide))]
  simp

set_option maxRecDepth 100000 in
/-- C4 (counterexample). The record with relative path `../other/x` is
accepted (`saveFile` returns nil) and its destination
`received_files/other/x` is not inside the client-scoped root
`received_files/pc_10_0_0_7_2024_01_02___03_04`. -/
theorem saveFile_accepts_path_outside_clientRoot :
    (saveFile (str "/srv") ⟨2024, 1, 2, 3, 4, 5, 0⟩ ⟨[], []⟩
        ⟨str "../other/x", some [104, 105], str "10.0.0.7", str "pc"⟩).1 = none ∧
    fullPath ⟨str "../other/x", some [104, 105], str "10.0.0.7", str "pc"⟩
        ⟨2024, 1, 2, 3, 4, 5, 0⟩ = str "received_files/other/x" ∧
    clientRoot ⟨str "../other/x", some [104, 105], str "10.0.0.7", str "pc"⟩
        ⟨2024, 1, 2, 3, 4, 5, 0⟩ = str "received_files/pc_10_0_0_7_2024_01_02___03_04" ∧
    ¬ (pathComponents (clientRoot ⟨str "../other/x", some [104, 105], str "10.0.0.7", str "pc"⟩
          ⟨2024, 1, 2, 3, 4, 5, 0⟩) <+:
        pathComponents (fullPath ⟨str "../other/x", some [104, 105], str "10.0.0.7", str "pc"⟩
          ⟨2024, 1, 2, 3, 4, 5, 0⟩)) := by
  decide

/-- C4 (amended). For every record whose cleaned relative path does not begin
with a `..` element, whatever the host identity, the origin address and the
time, the destination computed by `saveFile` is the client-scoped root
`<base>/<client directory name>` or lies inside it: the components of the
client-scoped root are a prefix of the components of the destination. -/
theorem fullPath_inside_clientRoot (fi : FileInfo) (now : Time)
    (h : (filepath.elements (filepath.Clean fi.RelativePath)).head? ≠ some ['.', '.']) :
    pathComponents (clientRoot fi now) <+: pathComponents (fullPath fi now) := by
  have hr : (BASE_DIR.head? == some filepath.Separator) = false := by decide
  have hb : (filepath.elements BASE_DIR).foldl (filepath.cleanStep false) ⟨0, []⟩
      = ⟨0, [BASE_DIR]⟩ := by decide
  have hS0 : ∀ x ∈ (⟨0, [BASE_DIR]⟩ : filepath.CleanBuf).out,
      filepath.IsName x ∧ filepath.Separator ∉ x := by
    intro x hx
    rw [List.mem_singleton.1 hx]
    exact ⟨isName_BASE_DIR, by decide⟩
  have hwf := filepath.foldl_cleanStep_out_wf false ⟨0, [BASE_DIR]⟩ (clientDirName fi now) hS0
  have hne := clientRoot_buf fi now
  rw [clientRoot_eq, fullPath_eq, filepath.clean_append_sep _ _ isName_BASE_DIR.1,
    filepath.clean_append_sep _ _ isName_BASE_DIR.1, hr, hb, filepath.elements_append_sep,
    List.foldl_append]
  generalize (filepath.elements (clientDirName fi now)).foldl (filepath.cleanStep false)
    ⟨0, [BASE_DIR]⟩ = S at hwf hne ⊢
  rw [filepath.foldl_cleanStep_inert false S _ (filepath.elements_clean_no_dotdot _ h)]
  have hwf2 : ∀ x ∈ S.out ++ (filepath.elements (filepath.Clean fi.RelativePath)).filter
      (fun e => e != [] && e != ['.']), filepath.IsName x ∧ filepath.Separator ∉ x := by
    intro x hx
    rcases List.mem_append.1 hx with h1 | h1
    · exact hwf x h1
    · have hm := (List.mem_filter.1 h1).1
      have hf := (List.mem_filter.1 h1).2
      refine ⟨?_, filepath.not_mem_of_mem_elements _ x hm⟩
      rcases filepath.elements_clean_no_dotdot _ h x hm with h2 | h2 | h2
      · subst h2; simp at hf
      · subst h2; simp at hf
      · exact h2
  rw [pathComponents_cleanString S hne hwf,
    pathComponents_cleanString ⟨S.dotdot, _⟩ (by simp [hne]) hwf2]
  show List.replicate S.dotdot ['.', '.'] ++ S.out <+:
    List.replicate S.dotdot ['.', '.'] ++ (S.out ++ _)
  rw [← List.append_assoc]
  exact List.prefix_append _ _

/-- Witness for `fullPath_inside_clientRoot` (C4). -/
theorem fullPath_inside_clientRoot_witness :
    pathComponents (clientRoot ⟨str "a/../b/c.txt", some [1], str "10.0.0.7", str "LAB PC"⟩
        ⟨2024, 1, 2, 3, 4, 5, 0⟩) <+:
      pathComponents (fullPath ⟨str "a/../b/c.txt", some [1], str "10.0.0.7", str "LAB PC"⟩
        ⟨2024, 1, 2, 3, 4, 5, 0⟩) :=
  fullPath_inside_clientRoot _ _ (by decide)
/-! ## C10: the timestamp has minute granularity -/

theorem time.digitChar_value (d : Nat) (h : d < 10) : (Nat.digitChar d).toNat - 48 = d := by
  interval_cases d <;> rfl

theorem time.digitsRev_value (fuel n : Nat) (h : n ≤ fuel) :
    (time.digitsRev fuel n).foldr (fun c acc => 10 * acc + (c.toNat - 48)) 0 = n := by
  induction fuel generalizing n with
  | zero =>
    have : n = 0 := Nat.le_zero.1 h
    subst this; rfl
  | succ fuel ih =>
    unfold time.digitsRev
    split
    · rename_i h0; rw [h0]; rfl
    · rename_i h0
      rw [List.foldr_cons, ih (n / 10) (by omega),
        time.digitChar_value _ (Nat.mod_lt _ (by decide))]
      omega

theorem time.foldl_zeros (k : Nat) (l : List Char) :
    (List.replicate k '0' ++ l).foldl (fun acc c => 10 * acc + (c.toNat - 48)) 0
      = l.foldl (fun acc c => 10 * acc + (c.toNat - 48)) 0 := by
  induction k with
  | zero => rfl
  | succ k ih =>
    rw [List.replicate_succ, List.cons_append, List.foldl_cons]
    exact ih

/-- The decimal value of the digits that `appendInt` writes is the number. -/
theorem time.appendInt_value (x w : Nat) :
    (time.appendInt x w).foldl (fun acc c => 10 * acc + (c.toNat - 48)) 0 = x := by
  unfold time.appendInt
  simp only
  rw [time.foldl_zeros]
  split
  · rename_i h0; rw [h0]; rfl
  · rw [List.foldl_reverse]
    exact time.digitsRev_value x x (le_refl _)

theorem time.appendInt_inj (x y w v : Nat) (h : time.appendInt x w = time.appendInt y v) :
    x = y := by
  rw [← time.appendInt_value x w, h, time.appendInt_value]

theorem time.underscore_not_mem_appendInt (x w : Nat) : '_' ∉ time.appendInt x w := by
  intro h
  have := time.isDigit_of_mem_appendInt x w _ h
  revert this; decide

theorem split_at_first {α : Type} (c : α) (a1 r1 a2 r2 : List α) (h1 : c ∉ a1)
    (h2 : c ∉ a2) (h : a1 ++ c :: r1 = a2 ++ c :: r2) : a1 = a2 ∧ r1 = r2 := by
  induction a1 generalizing a2 with
  | nil =>
    cases a2 with
    | nil => simpa using h
    | cons d a2 =>
      simp only [List.nil_append, List.cons_append, List.cons.injEq] at h
      exact absurd (h.1 ▸ List.mem_cons_self _ _) h2
  | cons d a1 ih =>
    cases a2 with
    | nil =>
      simp only [List.nil_append, List.cons_append, List.cons.injEq] at h
      exact absurd (h.1 ▸ List.mem_cons_self _ _) h1
    | cons e a2 =>
      simp only [List.cons_append, List.cons.injEq] at h
      obtain ⟨h3, h4⟩ := ih a2 (fun m => h1 (List.mem_cons_of_mem _ m))
        (fun m => h2 (List.mem_cons_of_mem _ m)) h.2
      exact ⟨by rw [h.1, h3], h4⟩

/-- The formatted timestamp determines the calendar minute, and nothing else. -/
theorem time.format_eq_iff (t1 t2 : Time) :
    time.Format_2006_01_02___15_04 t1 = time.Format_2006_01_02___15_04 t2 ↔
      sameMinute t1 t2 := by
  constructor
  · intro h
    rw [time.format_eq, time.format_eq] at h
    have nu := time.underscore_not_mem_appendInt
    obtain ⟨hy, h⟩ := split_at_first _ _ _ _ _ (nu _ _) (nu _ _) h
    obtain ⟨hm, h⟩ := split_at_first _ _ _ _ _ (nu _ _) (nu _ _) h
    obtain ⟨hd, h⟩ := split_at_first _ _ _ _ _ (nu _ _) (nu _ _) h
    simp only [List.cons.injEq, true_and] at h
    obtain ⟨hh, h⟩ := split_at_first _ _ _ _ _ (nu _ _) (nu _ _) h
    exact ⟨time.appendInt_inj _ _ _ _ hy, time.appendInt_inj _ _ _ _ hm,
      time.appendInt_inj _ _ _ _ hd, time.appendInt_inj _ _ _ _ hh,
      time.appendInt_inj _ _ _ _ h⟩
  · rintro ⟨h1, h2, h3, h4, h5⟩
    unfold time.Format_2006_01_02___15_04
    rw [h1, h2, h3, h4, h5]

/-- The client-scoped root ends with the client directory name's last
element, which ends with the timestamp. -/
theorem clientRoot_shape (ip host : Str) :
    ∃ P : Str, ∀ (rel : Str) (c : Option (List UInt8)) (t : Time),
      clientRoot ⟨rel, c, ip, host⟩ t = P ++ '_' :: time.Format_2006_01_02___15_04 t := by
  obtain ⟨init, l, _, h2⟩ := filepath.elements_append_of_not_mem
    (strings.ReplaceAll host [' '] ['_'] ++ '_' :: strings.ReplaceAll ip ['.'] ['_'])
  let S := init.foldl (filepath.cleanStep false) ⟨0, [BASE_DIR]⟩
  refine ⟨(List.replicate S.dotdot ['.', '.'] ++ S.out).flatMap
    (fun x => x ++ [filepath.Separator]) ++ l, fun rel c t => ?_⟩
  have hr : (BASE_DIR.head? == some filepath.Separator) = false := by decide
  have hb : (filepath.elements BASE_DIR).foldl (filepath.cleanStep false) ⟨0, []⟩
      = ⟨0, [BASE_DIR]⟩ := by decide
  have hcd : clientDirName ⟨rel, c, ip, host⟩ t =
      (strings.ReplaceAll host [' '] ['_'] ++ '_' :: strings.ReplaceAll ip ['.'] ['_']) ++
        ('_' :: time.Format_2006_01_02___15_04 t) := by
    rw [clientDirName_eq]; simp
  have hz : filepath.Separator ∉ ('_' :: time.Format_2006_01_02___15_04 t) := by
    intro hm
    rcases List.mem_cons.1 hm with h | h
    · revert h; decide
    · exact time.separator_not_mem_format t h
  rw [clientRoot_eq, filepath.clean_append_sep _ _ isName_BASE_DIR.1, hr, hb, hcd, h2 _ hz,
    List.foldl_append, List.foldl_cons, List.foldl_nil,
    filepath.cleanStep_name _ _ _ (filepath.isName_of_mem _ '_' (by simp) (by decide))]
  show filepath.cleanString false ⟨S.dotdot, S.out ++ [l ++ '_' :: _]⟩ = _
  unfold filepath.cleanString
  have hall : List.replicate S.dotdot ['.', '.'] ++ (S.out ++ [l ++ '_' ::
      time.Format_2006_01_02___15_04 t]) ≠ [] := by simp
  simp only [Bool.false_eq_true, if_false, hall]
  rw [← List.append_assoc, filepath.intercalate_append _ _ _ (by simp),
    filepath.intercalate_singleton]
  simp

set_option maxRecDepth 100000 in
/-- C7 (evaluation at the failing input). Folder matching on, file matching
and extension filter off, patterns `["Struktur Data"]`, search root
`./Struktur Data 1` holding the readable file `main.cpp`. The root directory
matches (its marker record `.` is sent), yet `main.cpp`, which lies under it,
is not sent: the first pass stores the root under the key
`./Struktur Data 1`, the walk hands the file over as
`Struktur Data 1/main.cpp`, and the prefix test fails. With the search root
written `Struktur Data 1` the same tree yields the file. A second input: with
the search root written `kuliah/../tugas` and the matching sub-directory
`SD 1` holding `main.cpp`, the walk hands the sub-directory over as
`tugas/SD 1`, shorter than the root string, the depth computation
`path[len(rootPath):]` panics, and nothing is sent. -/
theorem searchAndSendFiles_misses_file_under_matched_root :
    containsPattern strings.asciiLower (filepath.Base (str "./Struktur Data 1"))
      [str "Struktur Data"] = true ∧
    searchAndSendFiles strings.asciiLower ⟨[], str "./Struktur Data 1", false, false, true⟩
        (some (.dir (str "Struktur Data 1") true [.file (str "main.cpp") (some [105])]))
        (str "10.0.0.7") (str "./Struktur Data 1") [str "Struktur Data"] ⟨[], none⟩ (str "pc")
      = (none, ⟨[⟨str ".", none, str "10.0.0.7", str "pc"⟩], none⟩) ∧
    searchAndSendFiles strings.asciiLower ⟨[], str "Struktur Data 1", false, false, true⟩
        (some (.dir (str "Struktur Data 1") true [.file (str "main.cpp") (some [105])]))
        (str "10.0.0.7") (str "Struktur Data 1") [str "Struktur Data"] ⟨[], none⟩ (str "pc")
      = (none, ⟨[⟨str ".", none, str "10.0.0.7", str "pc"⟩,
                 ⟨str "main.cpp", some [105], str "10.0.0.7", str "pc"⟩], none⟩) ∧
    searchAndSendFiles strings.asciiLower ⟨[], str "kuliah/../tugas", false, false, true⟩
        (some (.dir (str "tugas") true
          [.dir (str "SD 1") true [.file (str "main.cpp") (some [105])]]))
        (str "10.0.0.7") (str "kuliah/../tugas") [str "sd"] ⟨[], none⟩ (str "pc")
      = (some WalkError.panic, ⟨[], none⟩) := by
  decide

set_option maxRecDepth 100000 in
/-- C8 (evaluation at the failing input). File and folder matching on,
extension filter off, patterns `["tugas"]`, search root `./Tugas` holding the
sub-directory `bab1` with the readable file `notes.txt`. The file is a
descendant of the root directory, whose base name `Tugas` matches, so
condition (b) holds; it is not sent, because the walk hands it over as
`Tugas/bab1/notes.txt`, which does not have the stored key `./Tugas` as a
string prefix. -/
theorem searchAndSendFiles_iff_fails_under_matched_root :
    containsPattern strings.asciiLower (filepath.Base (str "./Tugas")) [str "tugas"] = true ∧
    containsPattern strings.asciiLower (str "notes.txt") [str "tugas"] = false ∧
    searchAndSendFiles strings.asciiLower ⟨[], str "./Tugas", false, true, true⟩
        (some (.dir (str "Tugas") true
          [.dir (str "bab1") true [.file (str "notes.txt") (some [105])]]))
        (str "10.0.0.7") (str "./Tugas") [str "tugas"] ⟨[], none⟩ (str "pc")
      = (none, ⟨[⟨str ".", none, str "10.0.0.7", str "pc"⟩], none⟩) := by
  decide

set_option maxRecDepth 100000 in
/-- C9 (evaluation at the failing input). File matching on, patterns `["hw"]`,
and the file `a/b/c/d/e/hw.txt`, six levels below the search root. With the
search root `docs` the file is not sent. With the search root `.` (and
likewise `/` or `docs/`) the walk hands the file over as `a/b/c/d/e/hw.txt`,
the code counts 5 separators after `len(rootPath)`, and the file is sent: a
record of depth 6. -/
theorem searchAndSendFiles_sends_depth_six :
    (searchAndSendFiles strings.asciiLower ⟨[], str "docs", false, true, false⟩
        (some (.dir (str "docs") true [.dir (str "a") true [.dir (str "b") true
          [.dir (str "c") true [.dir (str "d") true [.dir (str "e") true
            [.file (str "hw.txt") (some [105])]]]]]]))
        (str "10.0.0.7") (str "docs") [str "hw"] ⟨[], none⟩ (str "pc")).2.sent = [] ∧
    (searchAndSendFiles strings.asciiLower ⟨[], str ".", false, true, false⟩
        (some (.dir (str "docs") true [.dir (str "a") true [.dir (str "b") true
          [.dir (str "c") true [.dir (str "d") true [.dir (str "e") true
            [.file (str "hw.txt") (some [105])]]]]]]))
        (str "10.0.0.7") (str ".") [str "hw"] ⟨[], none⟩ (str "pc")).2.sent
      = [⟨str "a/b/c/d/e/hw.txt", some [105], str "10.0.0.7", str "pc"⟩] ∧
    (searchAndSendFiles strings.asciiLower ⟨[], str "docs/", false, true, false⟩
        (some (.dir (str "docs") true [.dir (str "a") true [.dir (str "b") true
          [.dir (str "c") true [.dir (str "d") true [.dir (str "e") true
            [.file (str "hw.txt") (some [105])]]]]]]))
        (str "10.0.0.7") (str "docs/") [str "hw"] ⟨[], none⟩ (str "pc")).2.sent
      = [⟨str "a/b/c/d/e/hw.txt", some [105], str "10.0.0.7", str "pc"⟩] ∧
    pathComponents (str "a/b/c/d/e/hw.txt") = [str "a", str "b", str "c", str "d", str "e",
      str "hw.txt"] := by
  decide
/-! ## C6: decoding an encoded record -/

namespace json

theorem hexVal_hex (n : Nat) (h : n < 16) : hexVal (hex n) = some n := by
  interval_cases n <;> decide

theorem decodeEscape_of_lt (rr : Nat) (next : Option Nat) (h : rr < 0xd800) :
    decodeEscape rr next = (Char.ofNat rr, false) := by
  unfold decodeEscape
  rw [if_neg (by omega)]

theorem getu4_00 (k : Nat) (h : k < 256) :
    getu4 '0' '0' (hex (k / 16)) (hex (k % 16)) = some k := by
  have h0 : hexVal '0' = some 0 := by decide
  unfold getu4
  rw [h0, hexVal_hex _ (by omega), hexVal_hex _ (by omega)]
  simp only [Option.some.injEq]
  omega

theorem unquoteStep_escape_u (a b c d : Char) (tail : Str) (rr : Nat)
    (hg : getu4 a b c d = some rr) (hrr : rr < 0xd800) :
    unquoteStep '\\' ('u' :: a :: b :: c :: d :: tail) = some (Char.ofNat rr, tail) := by
  have e : unquoteEscape 'u' (a :: b :: c :: d :: tail)
      = unquoteEscapeU (a :: b :: c :: d :: tail) := by
    unfold unquoteEscape
    rw [if_neg (by decide), if_neg (by decide), if_neg (by decide), if_neg (by decide),
      if_neg (by decide), if_neg (by decide), if_pos rfl]
  show unquoteEscape 'u' (a :: b :: c :: d :: tail) = _
  rw [e]
  show (match getu4 a b c d with
    | none => none
    | some rr => some ((decodeEscape rr (peekU4 tail)).1,
        if (decodeEscape rr (peekU4 tail)).2 then tail.drop 6 else tail)) = _
  rw [hg]
  simp only [decodeEscape_of_lt _ _ hrr, Bool.false_eq_true, if_false]

/-- Reading back what `appendChar` wrote gives the character. -/
theorem unquoteStep_appendChar (c : Char) (tail : Str) :
    ∃ x rest, appendChar c ++ tail = x :: rest ∧ x ≠ '"' ∧
      unquoteStep x rest = some (c, tail) := by
  have e1 : ('\\' : Char) ≠ '"' := by decide
  unfold appendChar
  by_cases h1 : c = '\\' ∨ c = '"'
  · rw [if_pos h1]
    refine ⟨'\\', c :: tail, rfl, e1, ?_⟩
    rcases h1 with h | h <;> (subst h; rfl)
  rw [if_neg h1]
  have hq : c ≠ '"' := fun h => h1 (Or.inr h)
  have hb : c ≠ '\\' := fun h => h1 (Or.inl h)
  by_cases h2 : c = '\x08'
  · subst h2; rw [if_pos rfl]; exact ⟨'\\', 'b' :: tail, rfl, e1, rfl⟩
  rw [if_neg h2]
  by_cases h3 : c = '\x0c'
  · subst h3; rw [if_pos rfl]; exact ⟨'\\', 'f' :: tail, rfl, e1, rfl⟩
  rw [if_neg h3]
  by_cases h4 : c = '\n'
  · subst h4; rw [if_pos rfl]; exact ⟨'\\', 'n' :: tail, rfl, e1, rfl⟩
  rw [if_neg h4]
  by_cases h5 : c = '\r'
  · subst h5; rw [if_pos rfl]; exact ⟨'\\', 'r' :: tail, rfl, e1, rfl⟩
  rw [if_neg h5]
  by_cases h6 : c = '\t'
  · subst h6; rw [if_pos rfl]; exact ⟨'\\', 't' :: tail, rfl, e1, rfl⟩
  rw [if_neg h6]
  by_cases h7 : c.toNat < 32 ∨ c = '<' ∨ c = '>' ∨ c = '&'
  · rw [if_pos h7]
    have hlt : c.toNat < 256 := by
      rcases h7 with h | h | h | h
      · omega
      · subst h; decide
      · subst h; decide
      · subst h; decide
    refine ⟨'\\', _, rfl, e1, ?_⟩
    show unquoteStep '\\' ('u' :: '0' :: '0' :: hex (c.toNat / 16) :: hex (c.toNat % 16) :: tail)
      = _
    rw [unquoteStep_escape_u _ _ _ _ tail c.toNat (getu4_00 _ hlt) (by omega),
      Char.ofNat_toNat]
  rw [if_neg h7]
  by_cases h8 : c = '\u2028' ∨ c = '\u2029'
  · rw [if_pos h8]
    refine ⟨'\\', _, rfl, e1, ?_⟩
    rcases h8 with h | h
    · subst h
      exact unquoteStep_escape_u _ _ _ _ tail 0x2028 (by decide) (by decide)
    · subst h
      exact unquoteStep_escape_u _ _ _ _ tail 0x2029 (by decide) (by decide)
  rw [if_neg h8]
  have h32 : ¬ c.toNat < 32 := fun h => h7 (Or.inl h)
  refine ⟨c, tail, rfl, hq, ?_⟩
  unfold unquoteStep
  rw [if_neg hb, if_neg h32]

theorem appendChar_ne_nil (c : Char) : appendChar c ≠ [] := by
  obtain ⟨x, rest, h, _, _⟩ := unquoteStep_appendChar c []
  intro h2
  rw [h2] at h
  simp at h

/-- Reading back the body of a string literal, for any fuel not below its
length. -/
theorem unquoteLoop_flatMap (s tail : Str) (n : Nat)
    (hn : (s.flatMap appendChar).length < n) :
    unquoteLoop n (s.flatMap appendChar ++ '"' :: tail) = some (s, tail) := by
  induction s generalizing n with
  | nil =>
    cases n with
    | zero => simp at hn
    | succ n => simp [unquoteLoop]
  | cons c s ih =>
    cases n with
    | zero => simp at hn
    | succ n =>
      obtain ⟨x, rest, h1, h2, h3⟩ := unquoteStep_appendChar c
        (s.flatMap appendChar ++ '"' :: tail)
      have hlen : 0 < (appendChar c).length :=
        List.length_pos.2 (appendChar_ne_nil c)
      rw [List.flatMap_cons, List.append_assoc, h1]
      rw [unquoteLoop, if_neg h2, h3]
      simp only
      rw [ih n (by simp only [List.flatMap_cons, List.length_append] at hn; omega)]
      rfl

/-- Reading back a string literal written by `appendString`. -/
theorem unquoteLoop_appendString (s tail : Str) :
    ∃ body, appendString s ++ tail = '"' :: body ∧
      unquoteLoop body.length body = some (s, tail) := by
  refine ⟨s.flatMap appendChar ++ '"' :: tail, by simp [appendString], ?_⟩
  apply unquoteLoop_flatMap
  simp

end json
namespace json

theorem b64Index_b64Char (i : Nat) (h : i < 64) : b64Index (b64Char i) = some i := by
  interval_cases i <;> decide

/-- A character that `base64.StdEncoding` writes: it is no new-line, and a
JSON string holds it unescaped. -/
theorem b64Char_plain (i : Nat) (h : i < 64) :
    b64Char i ≠ '=' ∧ (b64Char i != '\r' && b64Char i != '\n') = true ∧
      appendChar (b64Char i) = [b64Char i] := by
  interval_cases i <;> decide

theorem pad_plain : (('=' : Char) != '\r' && ('=' : Char) != '\n') = true ∧
    appendChar '=' = ['='] := by decide

theorem mem_b64Encode : ∀ (bs : List UInt8) (x : Char), x ∈ b64Encode bs →
    (x != '\r' && x != '\n') = true ∧ appendChar x = [x]
  | [], x, h => by simp [b64Encode] at h
  | [a], x, h => by
    have ha := UInt8.toNat_lt a
    simp only [b64Encode, List.mem_cons, List.mem_singleton, List.not_mem_nil, or_false] at h
    rcases h with h | h | h | h
    · rw [h]; exact (b64Char_plain _ (by omega)).2
    · rw [h]; exact (b64Char_plain _ (by omega)).2
    · rw [h]; exact pad_plain
    · rw [h]; exact pad_plain
  | [a, b], x, h => by
    have ha := UInt8.toNat_lt a
    have hb := UInt8.toNat_lt b
    simp only [b64Encode, List.mem_cons, List.mem_singleton, List.not_mem_nil, or_false] at h
    rcases h with h | h | h | h
    · rw [h]; exact (b64Char_plain _ (by omega)).2
    · rw [h]; exact (b64Char_plain _ (by omega)).2
    · rw [h]; exact (b64Char_plain _ (by omega)).2
    · rw [h]; exact pad_plain
  | a :: b :: c :: rest, x, h => by
    have ha := UInt8.toNat_lt a
    have hb := UInt8.toNat_lt b
    have hc := UInt8.toNat_lt c
    simp only [b64Encode, List.mem_cons] at h
    rcases h with h | h | h | h | h
    · rw [h]; exact (b64Char_plain _ (by omega)).2
    · rw [h]; exact (b64Char_plain _ (by omega)).2
    · rw [h]; exact (b64Char_plain _ (by omega)).2
    · rw [h]; exact (b64Char_plain _ (by omega)).2
    · exact mem_b64Encode rest x h

theorem byte_of_toNat (a : UInt8) (n : Nat) (h : n = a.toNat) : UInt8.ofNat n = a := by
  subst h
  apply UInt8.ext
  exact UInt8.toNat_ofNat_of_lt (UInt8.toNat_lt a)

theorem b64DecodeQuanta_encode : ∀ bs : List UInt8, b64DecodeQuanta (b64Encode bs) = some bs
  | [] => rfl
  | [a] => by
    have ha := UInt8.toNat_lt a
    simp only [b64Encode, b64DecodeQuanta, b64Index_b64Char _ (show a.toNat / 4 < 64 by omega),
      b64Index_b64Char _ (show a.toNat % 4 * 16 < 64 by omega), and_self, if_true]
    rw [byte_of_toNat a _ (by omega)]
  | [a, b] => by
    have ha := UInt8.toNat_lt a
    have hb := UInt8.toNat_lt b
    have h3 := (b64Char_plain (b.toNat % 16 * 4) (by omega)).1
    simp only [b64Encode, b64DecodeQuanta, b64Index_b64Char _ (show a.toNat / 4 < 64 by omega),
      b64Index_b64Char _ (show a.toNat % 4 * 16 + b.toNat / 16 < 64 by omega),
      b64Index_b64Char _ (show b.toNat % 16 * 4 < 64 by omega), h3, false_and, if_false,
      and_self, if_true]
    rw [byte_of_toNat a _ (by omega), byte_of_toNat b _ (by omega)]
  | a :: b :: c :: rest => by
    have ha := UInt8.toNat_lt a
    have hb := UInt8.toNat_lt b
    have hc := UInt8.toNat_lt c
    have h3 := (b64Char_plain (b.toNat % 16 * 4 + c.toNat / 64) (by omega)).1
    have h4 := (b64Char_plain (c.toNat % 64) (by omega)).1
    simp only [b64Encode, b64DecodeQuanta, b64Index_b64Char _ (show a.toNat / 4 < 64 by omega),
      b64Index_b64Char _ (show a.toNat % 4 * 16 + b.toNat / 16 < 64 by omega),
      b64Index_b64Char _ (show b.toNat % 16 * 4 + c.toNat / 64 < 64 by omega),
      b64Index_b64Char _ (show c.toNat % 64 < 64 by omega), h3, h4, false_and, if_false,
      b64DecodeQuanta_encode rest]
    rw [byte_of_toNat a _ (by omega), byte_of_toNat b _ (by omega),
      byte_of_toNat c _ (by omega)]

/-- Base64 decoding inverts base64 encoding. -/
theorem b64Decode_encode (bs : List UInt8) : b64Decode (b64Encode bs) = some bs := by
  unfold b64Decode
  rw [List.filter_eq_self.2 (fun x hx => (mem_b64Encode bs x hx).1)]
  exact b64DecodeQuanta_encode bs

theorem flatMap_appendChar_b64 (bs : List UInt8) :
    (b64Encode bs).flatMap appendChar = b64Encode bs := by
  have h := fun x hx => (mem_b64Encode bs x hx).2
  generalize b64Encode bs = l at h
  induction l with
  | nil => rfl
  | cons x l ih =>
    rw [List.flatMap_cons, h x (List.mem_cons_self _ _),
      ih (fun y hy => h y (List.mem_cons_of_mem _ hy))]
    rfl

end json
namespace json

theorem skipSpace_quote (s : Str) : skipSpace ('"' :: s) = '"' :: s := rfl

theorem skipSpace_colon (s : Str) : skipSpace (':' :: s) = ':' :: s := rfl

theorem skipSpace_comma (s : Str) : skipSpace (',' :: s) = ',' :: s := rfl

theorem skipSpace_close (s : Str) : skipSpace ('\x7d' :: s) = '\x7d' :: s := rfl

theorem skipSpace_open (s : Str) : skipSpace ('\x7b' :: s) = '\x7b' :: s := rfl

theorem skipSpace_n (s : Str) : skipSpace ('n' :: s) = 'n' :: s := rfl

/-- Reading a string literal as a value. -/
theorem parseValue_quote (fuel depth : Nat) (body : Str) :
    parseValue (fuel + 1) depth ('"' :: body) =
      (unquoteLoop body.length body).map (fun r => (Value.string r.1, r.2)) := by
  rw [parseValue, skipSpace_quote]
  dsimp only
  rw [if_pos rfl]

theorem parseValue_appendString (fuel depth : Nat) (s tail : Str) :
    parseValue (fuel + 1) depth (appendString s ++ tail) = some (Value.string s, tail) := by
  obtain ⟨body, h1, h2⟩ := unquoteLoop_appendString s tail
  rw [h1, parseValue_quote, h2]
  rfl

theorem parseValue_bytes (fuel depth : Nat) (bs : List UInt8) (tail : Str) :
    parseValue (fuel + 1) depth ('"' :: (b64Encode bs ++ ['"']) ++ tail)
      = some (Value.string (b64Encode bs), tail) := by
  have h := parseValue_appendString fuel depth (b64Encode bs) tail
  unfold appendString at h
  rw [flatMap_appendChar_b64] at h
  exact h

theorem parseValue_null (fuel depth : Nat) (tail : Str) :
    parseValue (fuel + 1) depth (str "null" ++ tail) = some (Value.null, tail) := by
  show parseValue (fuel + 1) depth ('n' :: 'u' :: 'l' :: 'l' :: tail) = _
  rw [parseValue, skipSpace_n]
  dsimp only
  rw [if_neg (by decide), if_neg (by decide), if_neg (by decide), if_neg (by decide),
    if_neg (by decide), if_pos rfl]
  simp [expect, str, strings.HasPrefix]

/-- The text `Marshal` writes for `Content`, and the value the decoder reads
from it. -/
theorem parseValue_content (fuel depth : Nat) (content : Option (List UInt8)) (tail : Str) :
    parseValue (fuel + 1) depth ((match content with
        | none => str "null"
        | some bytes => '"' :: (b64Encode bytes ++ ['"'])) ++ tail)
      = some ((match content with
        | none => Value.null
        | some bytes => Value.string (b64Encode bytes)), tail) := by
  cases content with
  | none => exact parseValue_null fuel depth tail
  | some bytes => exact parseValue_bytes fuel depth bytes tail

/-- Reading a member `"key":value` that a comma follows. -/
theorem parseMembers_comma (n depth : Nat) (key V more : Str) (v : Value)
    (hk : key.flatMap appendChar = key)
    (hv : parseValue n depth (V ++ ',' :: more) = some (v, ',' :: more)) :
    parseMembers (n + 1) depth ('"' :: (key ++ '"' :: ':' :: (V ++ ',' :: more)))
      = (parseMembers n depth more).map (fun r => ((key, v) :: r.1, r.2)) := by
  have hu : unquoteLoop (key ++ '"' :: ':' :: (V ++ ',' :: more)).length
      (key ++ '"' :: ':' :: (V ++ ',' :: more)) = some (key, ':' :: (V ++ ',' :: more)) := by
    have := unquoteLoop_flatMap key (':' :: (V ++ ',' :: more))
      (key ++ '"' :: ':' :: (V ++ ',' :: more)).length (by rw [hk]; simp)
    rw [hk] at this
    exact this
  rw [parseMembers, skipSpace_quote]
  simp only [hu, skipSpace_colon, hv, skipSpace_comma]

/-- Reading the last member `"key":value` of an object. -/
theorem parseMembers_close (n depth : Nat) (key V more : Str) (v : Value)
    (hk : key.flatMap appendChar = key)
    (hv : parseValue n depth (V ++ '\x7d' :: more) = some (v, '\x7d' :: more)) :
    parseMembers (n + 1) depth ('"' :: (key ++ '"' :: ':' :: (V ++ '\x7d' :: more)))
      = some ([(key, v)], more) := by
  have hu : unquoteLoop (key ++ '"' :: ':' :: (V ++ '\x7d' :: more)).length
      (key ++ '"' :: ':' :: (V ++ '\x7d' :: more)) = some (key, ':' :: (V ++ '\x7d' :: more)) := by
    have := unquoteLoop_flatMap key (':' :: (V ++ '\x7d' :: more))
      (key ++ '"' :: ':' :: (V ++ '\x7d' :: more)).length (by rw [hk]; simp)
    rw [hk] at this
    exact this
  rw [parseMembers, skipSpace_quote]
  simp only [hu, skipSpace_colon, hv, skipSpace_close]

/-- The object that `Marshal` writes, read as a value: its four members. -/
theorem parseValue_object (fuel : Nat) (k1 k2 k3 k4 V1 V2 V3 V4 tail : Str)
    (v1 v2 v3 v4 : Value)
    (hk1 : k1.flatMap appendChar = k1) (hk2 : k2.flatMap appendChar = k2)
    (hk3 : k3.flatMap appendChar = k3) (hk4 : k4.flatMap appendChar = k4)
    (h1 : ∀ more, parseValue (fuel + 3) 1 (V1 ++ more) = some (v1, more))
    (h2 : ∀ more, parseValue (fuel + 2) 1 (V2 ++ more) = some (v2, more))
    (h3 : ∀ more, parseValue (fuel + 1) 1 (V3 ++ more) = some (v3, more))
    (h4 : ∀ more, parseValue fuel 1 (V4 ++ more) = some (v4, more)) :
    parseValue (fuel + 5) 0 ('\x7b' :: '"' :: (k1 ++ '"' :: ':' :: (V1 ++ ',' :: '"' ::
      (k2 ++ '"' :: ':' :: (V2 ++ ',' :: '"' :: (k3 ++ '"' :: ':' :: (V3 ++ ',' :: '"' ::
        (k4 ++ '"' :: ':' :: (V4 ++ '\x7d' :: tail)))))))))
      = some (Value.object [(k1, v1), (k2, v2), (k3, v3), (k4, v4)], tail) := by
  rw [parseValue, skipSpace_open]
  dsimp only
  rw [if_neg (by decide), if_pos rfl, if_neg (by decide), skipSpace_quote]
  rw [parseMembers_comma _ _ _ _ _ _ hk1 (h1 _), parseMembers_comma _ _ _ _ _ _ hk2 (h2 _),
    parseMembers_comma _ _ _ _ _ _ hk3 (h3 _), parseMembers_close _ _ _ _ _ _ hk4 (h4 _)]
  rfl

theorem marshal_eq (v : FileInfo) (tail : Str) :
    Marshal v ++ tail = '\x7b' :: '"' :: (str "RelativePath" ++ '"' :: ':' ::
      (appendString v.RelativePath ++ ',' :: '"' :: (str "Content" ++ '"' :: ':' ::
        ((match v.Content with
          | none => str "null"
          | some bytes => '"' :: (b64Encode bytes ++ ['"'])) ++ ',' :: '"' ::
            (str "ClientIP" ++ '"' :: ':' :: (appendString v.ClientIP ++ ',' :: '"' ::
              (str "Username" ++ '"' :: ':' ::
                (appendString v.Username ++ '\x7d' :: tail)))))))) := by
  simp [Marshal, str]

theorem assignAll_members (v : FileInfo) :
    (assignAll ⟨⟨[], none, [], []⟩, []⟩
      [(str "RelativePath", Value.string v.RelativePath),
       (str "Content", (match v.Content with
          | none => Value.null
          | some bytes => Value.string (b64Encode bytes))),
       (str "ClientIP", Value.string v.ClientIP),
       (str "Username", Value.string v.Username)]).map (fun f => f.fields) = some v := by
  have k1 : keyMatches (str "RelativePath") "RelativePath" = true := by decide
  have k2 : keyMatches (str "Content") "RelativePath" = false := by decide
  have k3 : keyMatches (str "Content") "Content" = true := by decide
  have k4 : keyMatches (str "ClientIP") "RelativePath" = false := by decide
  have k5 : keyMatches (str "ClientIP") "Content" = false := by decide
  have k6 : keyMatches (str "ClientIP") "ClientIP" = true := by decide
  have k7 : keyMatches (str "Username") "RelativePath" = false := by decide
  have k8 : keyMatches (str "Username") "Content" = false := by decide
  have k9 : keyMatches (str "Username") "ClientIP" = false := by decide
  have k10 : keyMatches (str "Username") "Username" = true := by decide
  cases v with
  | mk rel content ip user =>
    cases content with
    | none =>
      simp [assignAll, assign, storeString, storeContent, k1, k2, k3, k4, k5, k6, k7, k8, k9,
        k10]
    | some bytes =>
      simp [assignAll, assign, storeString, storeContent, k1, k2, k3, k4, k5, k6, k7, k8, k9,
        k10, b64Decode_encode]

theorem unmarshal_members (v : FileInfo) :
    unmarshal (Value.object
      [(str "RelativePath", Value.string v.RelativePath),
       (str "Content", (match v.Content with
          | none => Value.null
          | some bytes => Value.string (b64Encode bytes))),
       (str "ClientIP", Value.string v.ClientIP),
       (str "Username", Value.string v.Username)]) = some v := by
  rw [unmarshal]
  exact assignAll_members v

/-- What the decoder reads from the text of an object with the four members
that `Marshal` writes, in its order. -/
theorem decode_members (r : FileInfo) (V1 V3 V4 rest : Str)
    (h1 : ∀ fuel more, parseValue (fuel + 1) 1 (V1 ++ more)
      = some (Value.string r.RelativePath, more))
    (h3 : ∀ fuel more, parseValue (fuel + 1) 1 (V3 ++ more)
      = some (Value.string r.ClientIP, more))
    (h4 : ∀ fuel more, parseValue (fuel + 1) 1 (V4 ++ more)
      = some (Value.string r.Username, more)) :
    Decode ('\x7b' :: '"' :: (str "RelativePath" ++ '"' :: ':' :: (V1 ++ ',' :: '"' ::
      (str "Content" ++ '"' :: ':' :: ((match r.Content with
          | none => str "null"
          | some bytes => '"' :: (b64Encode bytes ++ ['"'])) ++ ',' :: '"' ::
        (str "ClientIP" ++ '"' :: ':' :: (V3 ++ ',' :: '"' ::
          (str "Username" ++ '"' :: ':' :: (V4 ++ '\x7d' :: rest))))))))) =
      DecodeResult.ok r rest := by
  have hk1 : (str "RelativePath").flatMap appendChar = str "RelativePath" := by decide
  have hk2 : (str "Content").flatMap appendChar = str "Content" := by decide
  have hk3 : (str "ClientIP").flatMap appendChar = str "ClientIP" := by decide
  have hk4 : (str "Username").flatMap appendChar = str "Username" := by decide
  unfold Decode
  rw [skipSpace_open]
  dsimp only
  generalize hbody : ('\x7b' :: '"' :: (str "RelativePath" ++ '"' :: ':' :: _) : Str) = body
  obtain ⟨k, hk⟩ : ∃ k, 2 * body.length = k + 1 + 5 := by
    refine ⟨2 * body.length - 6, ?_⟩
    have : 6 ≤ body.length := by
      rw [← hbody]
      simp only [List.length_cons, List.length_append]
      omega
    omega
  rw [hk, ← hbody]
  rw [parseValue_object (k + 1) _ _ _ _ _ _ _ _ _ _ _ _ _ hk1 hk2 hk3 hk4 (h1 _)
    (fun more => parseValue_content _ 1 r.Content more) (h3 _) (h4 _)]
  dsimp only
  rw [unmarshal_members]

end json

/-- Decoding what `Encode` writes for `r` gives `r` back and leaves the
new-line that ends the record, followed by the rest of the stream. -/
theorem json.decode_encode_append (r : FileInfo) (rest : Str) :
    json.Decode (json.Encode r ++ rest) = json.DecodeResult.ok r ('\n' :: rest) := by
  have hE : json.Encode r ++ rest = json.Marshal r ++ '\n' :: rest := by
    simp [json.Encode]
  rw [hE, json.marshal_eq]
  exact json.decode_members r _ _ _ _ (fun fuel more => json.parseValue_appendString _ _ _ _)
    (fun fuel more => json.parseValue_appendString _ _ _ _)
    (fun fuel more => json.parseValue_appendString _ _ _ _)
/-! ## A string and its bytes: decoding what was encoded -/

namespace utf8

theorem toNat_ofNat (n : Nat) (h : n < 256) : (UInt8.ofNat n).toNat = n :=
  UInt8.toNat_ofNat_of_lt h

theorem char_range (c : Char) : c.toNat < 0xD800 ∨ (0xE000 ≤ c.toNat ∧ c.toNat < 0x110000) := by
  have h := c.valid
  unfold UInt32.isValidChar Nat.isValidChar at h
  have e : c.toNat = c.val.toNat := rfl
  rw [e]
  omega

theorem first_two (b : Nat) (h1 : 0xC2 ≤ b) (h2 : b ≤ 0xDF) : first b = some (2, 0x80, 0xBF) := by
  unfold first
  rw [if_pos ⟨h1, h2⟩]

theorem first_E0 : first 0xE0 = some (3, 0xA0, 0xBF) := by decide

theorem first_ED : first 0xED = some (3, 0x80, 0x9F) := by decide

theorem first_three (b : Nat) (h1 : 0xE1 ≤ b) (h2 : b ≤ 0xEF) (h3 : b ≠ 0xED) :
    first b = some (3, 0x80, 0xBF) := by
  unfold first
  rw [if_neg (by omega), if_neg (by omega), if_neg h3, if_pos ⟨h1, h2⟩]

theorem first_F0 : first 0xF0 = some (4, 0x90, 0xBF) := by decide

theorem first_F4 : first 0xF4 = some (4, 0x80, 0x8F) := by decide

theorem first_four (b : Nat) (h1 : 0xF1 ≤ b) (h2 : b ≤ 0xF3) :
    first b = some (4, 0x80, 0xBF) := by
  unfold first
  rw [if_neg (by omega), if_neg (by omega), if_neg (by omega), if_neg (by omega),
    if_neg (by omega), if_pos ⟨h1, h2⟩]

/-- A sequence of two bytes that is well formed. -/
theorem decodeRune_two (b0 b1 : Nat) (rest : List UInt8) (h1 : 0xC2 ≤ b0) (h2 : b0 ≤ 0xDF)
    (h3 : 0x80 ≤ b1) (h4 : b1 ≤ 0xBF) :
    DecodeRune (UInt8.ofNat b0 :: UInt8.ofNat b1 :: rest) =
      (some (Char.ofNat (b0 % 32 * 64 + b1 % 64)), 2) := by
  unfold DecodeRune
  dsimp only
  rw [toNat_ofNat b0 (by omega), if_neg (by omega), first_two b0 h1 h2]
  dsimp only
  rw [toNat_ofNat b1 (by omega), if_neg (by omega)]

/-- A sequence of three bytes that is well formed. -/
theorem decodeRune_three (b0 b1 b2 lo hi : Nat) (rest : List UInt8)
    (hf : first b0 = some (3, lo, hi)) (h0 : 0x80 ≤ b0) (h0' : b0 < 256)
    (h1 : lo ≤ b1) (h2 : b1 ≤ hi) (h2' : b1 < 256) (h3 : 0x80 ≤ b2) (h4 : b2 ≤ 0xBF) :
    DecodeRune (UInt8.ofNat b0 :: UInt8.ofNat b1 :: UInt8.ofNat b2 :: rest) =
      (some (Char.ofNat (b0 % 16 * 4096 + b1 % 64 * 64 + b2 % 64)), 3) := by
  unfold DecodeRune
  dsimp only
  rw [toNat_ofNat b0 h0', if_neg (by omega), hf]
  dsimp only
  rw [toNat_ofNat b1 h2', toNat_ofNat b2 (by omega), if_neg (by omega)]
  have hc : isCont b2 = true := by
    unfold isCont
    simp only [Bool.and_eq_true, decide_eq_true_eq]
    omega
  rw [hc]
  rfl

/-- A sequence of four bytes that is well formed. -/
theorem decodeRune_four (b0 b1 b2 b3 lo hi : Nat) (rest : List UInt8)
    (hf : first b0 = some (4, lo, hi)) (h0 : 0x80 ≤ b0) (h0' : b0 < 256)
    (h1 : lo ≤ b1) (h2 : b1 ≤ hi) (h2' : b1 < 256) (h3 : 0x80 ≤ b2) (h4 : b2 ≤ 0xBF)
    (h5 : 0x80 ≤ b3) (h6 : b3 ≤ 0xBF) :
    DecodeRune (UInt8.ofNat b0 :: UInt8.ofNat b1 :: UInt8.ofNat b2 :: UInt8.ofNat b3 :: rest) =
      (some (Char.ofNat (b0 % 8 * 262144 + b1 % 64 * 4096 + b2 % 64 * 64 + b3 % 64)), 4) := by
  unfold DecodeRune
  dsimp only
  rw [toNat_ofNat b0 h0', if_neg (by omega), hf]
  dsimp only
  rw [toNat_ofNat b1 h2', toNat_ofNat b2 (by omega), toNat_ofNat b3 (by omega),
    if_neg (by omega)]
  have hc : isCont b2 = true := by
    unfold isCont
    simp only [Bool.and_eq_true, decide_eq_true_eq]
    omega
  have hd : isCont b3 = true := by
    unfold isCont
    simp only [Bool.and_eq_true, decide_eq_true_eq]
    omega
  rw [hc, hd]
  rfl

/-- Decoding the bytes written for a character gives the character and the
number of its bytes. -/
theorem decodeRune_appendRune (c : Char) (rest : List UInt8) :
    DecodeRune (AppendRune c ++ rest) = (some c, (AppendRune c).length) := by
  have hr := char_range c
  unfold AppendRune
  by_cases h1 : c.toNat < 0x80
  · rw [if_pos h1]
    show DecodeRune (UInt8.ofNat c.toNat :: rest) = _
    unfold DecodeRune
    dsimp only
    rw [toNat_ofNat _ (by omega), if_pos h1, Char.ofNat_toNat]
    rfl
  rw [if_neg h1]
  by_cases h2 : c.toNat < 0x800
  · rw [if_pos h2]
    show DecodeRune (UInt8.ofNat _ :: UInt8.ofNat _ :: rest) = _
    rw [decodeRune_two _ _ rest (by omega) (by omega) (by omega) (by omega)]
    have e : (0xC0 + c.toNat / 64) % 32 * 64 + (0x80 + c.toNat % 64) % 64 = c.toNat := by omega
    rw [e, Char.ofNat_toNat]
    rfl
  rw [if_neg h2]
  by_cases h3 : c.toNat < 0x10000
  · rw [if_pos h3]
    show DecodeRune (UInt8.ofNat _ :: UInt8.ofNat _ :: UInt8.ofNat _ :: rest) = _
    have e : (0xE0 + c.toNat / 4096) % 16 * 4096 + (0x80 + c.toNat / 64 % 64) % 64 * 64 +
        (0x80 + c.toNat % 64) % 64 = c.toNat := by omega
    by_cases hE0 : c.toNat / 4096 = 0
    · have hf : first (0xE0 + c.toNat / 4096) = some (3, 0xA0, 0xBF) := by
        rw [hE0]; exact first_E0
      rw [decodeRune_three _ _ _ _ _ rest hf (by omega) (by omega) (by omega) (by omega)
        (by omega) (by omega) (by omega), e, Char.ofNat_toNat]
      rfl
    by_cases hED : c.toNat / 4096 = 13
    · have hf : first (0xE0 + c.toNat / 4096) = some (3, 0x80, 0x9F) := by
        rw [hED]; exact first_ED
      rw [decodeRune_three _ _ _ _ _ rest hf (by omega) (by omega) (by omega) (by omega)
        (by omega) (by omega) (by omega), e, Char.ofNat_toNat]
      rfl
    · have hf : first (0xE0 + c.toNat / 4096) = some (3, 0x80, 0xBF) :=
        first_three _ (by omega) (by omega) (by omega)
      rw [decodeRune_three _ _ _ _ _ rest hf (by omega) (by omega) (by omega) (by omega)
        (by omega) (by omega) (by omega), e, Char.ofNat_toNat]
      rfl
  rw [if_neg h3]
  show DecodeRune (UInt8.ofNat _ :: UInt8.ofNat _ :: UInt8.ofNat _ :: UInt8.ofNat _ :: rest) = _
  have e : (0xF0 + c.toNat / 262144) % 8 * 262144 + (0x80 + c.toNat / 4096 % 64) % 64 * 4096 +
      (0x80 + c.toNat / 64 % 64) % 64 * 64 + (0x80 + c.toNat % 64) % 64 = c.toNat := by omega
  by_cases hF0 : c.toNat / 262144 = 0
  · have hf : first (0xF0 + c.toNat / 262144) = some (4, 0x90, 0xBF) := by
      rw [hF0]; exact first_F0
    rw [decodeRune_four _ _ _ _ _ _ rest hf (by omega) (by omega) (by omega) (by omega)
      (by omega) (by omega) (by omega) (by omega) (by omega), e, Char.ofNat_toNat]
    rfl
  by_cases hF4 : c.toNat / 262144 = 4
  · have hf : first (0xF0 + c.toNat / 262144) = some (4, 0x80, 0x8F) := by
      rw [hF4]; exact first_F4
    rw [decodeRune_four _ _ _ _ _ _ rest hf (by omega) (by omega) (by omega) (by omega)
      (by omega) (by omega) (by omega) (by omega) (by omega), e, Char.ofNat_toNat]
    rfl
  · have hf : first (0xF0 + c.toNat / 262144) = some (4, 0x80, 0xBF) :=
      first_four _ (by omega) (by omega)
    rw [decodeRune_four _ _ _ _ _ _ rest hf (by omega) (by omega) (by omega) (by omega)
      (by omega) (by omega) (by omega) (by omega) (by omega), e, Char.ofNat_toNat]
    rfl

theorem appendRune_length_pos (c : Char) : 0 < (AppendRune c).length := by
  unfold AppendRune
  split_ifs <;> simp

theorem appendRune_ne_nil (c : Char) : AppendRune c ≠ [] :=
  List.length_pos.1 (appendRune_length_pos c)

theorem bytes_cons (c : Char) (s : Str) : bytes (c :: s) = AppendRune c ++ bytes s := by
  simp [bytes]

theorem bytes_append (s t : Str) : bytes (s ++ t) = bytes s ++ bytes t := by
  simp [bytes]

/-- The characters read from the bytes of a string are the string. -/
theorem runes_bytes : ∀ (s : Str) (n : Nat), (bytes s).length ≤ n → runes n (bytes s) = s
  | [], n, _ => by
    cases n <;> rfl
  | c :: s, n, h => by
    rw [bytes_cons] at h ⊢
    have hp := appendRune_length_pos c
    rw [List.length_append] at h
    cases n with
    | zero => omega
    | succ n =>
      obtain ⟨b, t, hb⟩ := List.exists_cons_of_ne_nil (appendRune_ne_nil c)
      have hd := decodeRune_appendRune c (bytes s)
      have e : AppendRune c ++ bytes s = b :: (t ++ bytes s) := by rw [hb]; rfl
      rw [e] at hd ⊢
      rw [runes, hd]
      dsimp only
      rw [← e, List.drop_left, runes_bytes s n (by omega)]

end utf8
/-! ## C6: a record held in memory, encoded and decoded -/

namespace utf8

theorem decodeRune_size_pos (b : UInt8) (rest : List UInt8) :
    1 ≤ (DecodeRune (b :: rest)).2 := by
  unfold DecodeRune
  dsimp only
  split_ifs
  · exact Nat.le_refl _
  · split <;> (try split_ifs) <;> simp

end utf8

namespace json

theorem decodeEscape_of_ge (rr : Nat) (next : Option Nat) (h : 0xe000 ≤ rr) :
    decodeEscape rr next = (Char.ofNat rr, false) := by
  unfold decodeEscape
  rw [if_neg (by omega)]

/-- Reading back the escape written for a byte that begins no well-formed
sequence. -/
theorem unquoteStep_replacement (tail : Str) :
    unquoteStep '\\' ('u' :: 'f' :: 'f' :: 'f' :: 'd' :: tail) = some ('\ufffd', tail) := by
  have e : unquoteEscape 'u' ('f' :: 'f' :: 'f' :: 'd' :: tail)
      = unquoteEscapeU ('f' :: 'f' :: 'f' :: 'd' :: tail) := by
    unfold unquoteEscape
    rw [if_neg (by decide), if_neg (by decide), if_neg (by decide), if_neg (by decide),
      if_neg (by decide), if_neg (by decide), if_pos rfl]
  show unquoteEscape 'u' ('f' :: 'f' :: 'f' :: 'd' :: tail) = _
  rw [e]
  have hg : getu4 'f' 'f' 'f' 'd' = some 0xfffd := by decide
  show (match getu4 'f' 'f' 'f' 'd' with
    | none => none
    | some rr => some ((decodeEscape rr (peekU4 tail)).1,
        if (decodeEscape rr (peekU4 tail)).2 then tail.drop 6 else tail)) = _
  rw [hg]
  simp only [decodeEscape_of_ge _ _ (show 0xe000 ≤ 0xfffd by decide), Bool.false_eq_true,
    if_false]

/-- Reading back the body of a string literal written from bytes: the
characters of the bytes, with U+FFFD for each byte that begins no well-formed
sequence. -/
theorem unquoteLoop_appendBytes : ∀ (n : Nat) (g : List UInt8) (tail : Str) (m : Nat),
    g.length ≤ n → (appendBytes n g).length < m →
    unquoteLoop m (appendBytes n g ++ '"' :: tail) = some (utf8.runes n g, tail)
  | 0, g, tail, m, hg, hm => by
    have : g = [] := List.length_eq_zero.1 (Nat.le_zero.1 hg)
    subst this
    cases m with
    | zero => simp at hm
    | succ m => simp [appendBytes, utf8.runes, unquoteLoop]
  | n + 1, [], tail, m, _, hm => by
    cases m with
    | zero => simp at hm
    | succ m => simp [appendBytes, utf8.runes, unquoteLoop]
  | n + 1, b :: rest, tail, m, hg, hm => by
    have hsz := utf8.decodeRune_size_pos b rest
    rw [appendBytes] at hm ⊢
    rw [utf8.runes]
    rcases hd : utf8.DecodeRune (b :: rest) with ⟨x, size⟩
    rw [hd] at hsz hm
    dsimp only at hsz
    simp only [List.length_cons] at hg
    cases x with
    | some c =>
      dsimp only at hm ⊢
      cases m with
      | zero => simp at hm
      | succ m =>
        obtain ⟨y, r1, h1, h2, h3⟩ := unquoteStep_appendChar c
          (appendBytes n ((b :: rest).drop size) ++ '"' :: tail)
        have hlen : 0 < (appendChar c).length := List.length_pos.2 (appendChar_ne_nil c)
        rw [List.append_assoc, h1, unquoteLoop, if_neg h2, h3]
        simp only
        rw [unquoteLoop_appendBytes n ((b :: rest).drop size) tail m
          (by simp only [List.length_drop, List.length_cons]; omega)
          (by simp only [List.length_append] at hm; omega)]
        rfl
    | none =>
      dsimp only at hm ⊢
      cases m with
      | zero => simp at hm
      | succ m =>
        show unquoteLoop (m + 1) ('\\' :: 'u' :: 'f' :: 'f' :: 'f' :: 'd' ::
          (appendBytes n rest ++ '"' :: tail)) = _
        rw [unquoteLoop, if_neg (by decide), unquoteStep_replacement]
        simp only
        rw [unquoteLoop_appendBytes n rest tail m (by omega)
          (by simp only [List.length_append, str] at hm
              have : ("\\ufffd".toList).length = 6 := by decide
              omega)]
        rfl

/-- Reading a string literal written from bytes as a value. -/
theorem parseValue_appendStringRaw (fuel depth : Nat) (g : List UInt8) (tail : Str) :
    parseValue (fuel + 1) depth (appendStringRaw g ++ tail) =
      some (Value.string (utf8.runes g.length g), tail) := by
  have e : appendStringRaw g ++ tail = '"' :: (appendBytes g.length g ++ '"' :: tail) := by
    simp [appendStringRaw]
  rw [e, parseValue_quote,
    unquoteLoop_appendBytes g.length g tail _ (Nat.le_refl _) (by simp)]
  rfl

theorem marshalRaw_eq (v : RawFileInfo) (tail : Str) :
    MarshalRaw v ++ tail = '\x7b' :: '"' :: (str "RelativePath" ++ '"' :: ':' ::
      (appendStringRaw v.RelativePath ++ ',' :: '"' :: (str "Content" ++ '"' :: ':' ::
        ((match v.Content with
          | none => str "null"
          | some bytes => '"' :: (b64Encode bytes ++ ['"'])) ++ ',' :: '"' ::
            (str "ClientIP" ++ '"' :: ':' :: (appendStringRaw v.ClientIP ++ ',' :: '"' ::
              (str "Username" ++ '"' :: ':' ::
                (appendStringRaw v.Username ++ '\x7d' :: tail)))))))) := by
  simp [MarshalRaw, str]

/-- Decoding what `Encode` writes for a record held in memory gives the
record with its strings made well-formed. -/
theorem decode_encodeRaw (g : RawFileInfo) (rest : Str) :
    Decode (EncodeRaw g ++ rest) = DecodeResult.ok g.text ('\n' :: rest) := by
  have hE : EncodeRaw g ++ rest = MarshalRaw g ++ '\n' :: rest := by
    simp [EncodeRaw]
  rw [hE, marshalRaw_eq]
  exact decode_members g.text _ _ _ _ (fun fuel more => parseValue_appendStringRaw _ _ _ _)
    (fun fuel more => parseValue_appendStringRaw _ _ _ _)
    (fun fuel more => parseValue_appendStringRaw _ _ _ _)

/-- Written from the bytes of well-formed text, a string literal is the one
written from the text. -/
theorem appendBytes_bytes : ∀ (s : Str) (n : Nat), (utf8.bytes s).length ≤ n →
    appendBytes n (utf8.bytes s) = s.flatMap appendChar
  | [], n, _ => by
    cases n <;> rfl
  | c :: s, n, h => by
    rw [utf8.bytes_cons] at h ⊢
    have hp := utf8.appendRune_length_pos c
    rw [List.length_append] at h
    cases n with
    | zero => omega
    | succ n =>
      obtain ⟨b, t, hb⟩ := List.exists_cons_of_ne_nil (utf8.appendRune_ne_nil c)
      have hd := utf8.decodeRune_appendRune c (utf8.bytes s)
      have e : utf8.AppendRune c ++ utf8.bytes s = b :: (t ++ utf8.bytes s) := by rw [hb]; rfl
      rw [e] at hd ⊢
      rw [appendBytes, hd]
      dsimp only
      rw [← e, List.drop_left, appendBytes_bytes s n (by omega), List.flatMap_cons]

theorem appendStringRaw_bytes (s : Str) : appendStringRaw (utf8.bytes s) = appendString s := by
  unfold appendStringRaw appendString
  rw [appendBytes_bytes s _ (Nat.le_refl _)]

/-- For a record of well-formed strings the two encoders write the same. -/
theorem encodeRaw_raw (r : FileInfo) : EncodeRaw r.raw = Encode r := by
  unfold EncodeRaw Encode MarshalRaw Marshal FileInfo.raw
  simp only [appendStringRaw_bytes]

end json

theorem FileInfo.raw_text (r : FileInfo) : r.raw.text = r := by
  unfold FileInfo.raw json.RawFileInfo.text
  simp only [utf8.runes_bytes _ _ (Nat.le_refl _)]

set_option maxRecDepth 100000 in
/-- C6 (counterexample). The agent holds a record whose relative path is the
file name `café.txt` in Latin-1: the byte `0xE9` begins no well-formed UTF-8
sequence. `Encode` writes the escape for U+FFFD in its place, and the record
decoded on the collector has another relative path (the bytes `EF BF BD`
instead of `E9`). -/
theorem encoded_record_with_malformed_name_comes_back_changed :
    json.Decode (json.EncodeRaw ⟨[0x63, 0x61, 0x66, 0xE9, 0x2E, 0x74, 0x78, 0x74], some [1],
        utf8.bytes (str "10.0.0.7"), utf8.bytes (str "pc")⟩) =
      json.DecodeResult.ok ⟨str "caf\ufffd.txt", some [1], str "10.0.0.7", str "pc"⟩ ['\n'] ∧
    (⟨str "caf\ufffd.txt", some [1], str "10.0.0.7", str "pc"⟩ : FileInfo).raw ≠
      ⟨[0x63, 0x61, 0x66, 0xE9, 0x2E, 0x74, 0x78, 0x74], some [1],
        utf8.bytes (str "10.0.0.7"), utf8.bytes (str "pc")⟩ := by
  constructor
  · have h := json.decode_encodeRaw ⟨[0x63, 0x61, 0x66, 0xE9, 0x2E, 0x74, 0x78, 0x74], some [1],
      utf8.bytes (str "10.0.0.7"), utf8.bytes (str "pc")⟩ []
    rw [List.append_nil] at h
    rw [h]
    decide
  · decide

/-- C6 (amended). For every record that the agent holds, whatever follows it
in the stream, decoding what `Encode` writes for it succeeds and yields the
content as it was (a nil `Content` comes back nil, an empty one comes back
empty) and the three strings with every byte that begins no well-formed UTF-8
sequence replaced by U+FFFD; so a record whose strings are well-formed UTF-8
comes back equal in all four fields. -/
theorem decode_encode (g : json.RawFileInfo) (r : FileInfo) (rest : Str) :
    json.Decode (json.EncodeRaw g ++ rest) = json.DecodeResult.ok g.text ('\n' :: rest) ∧
    g.text.Content = g.Content ∧
    json.Decode (json.EncodeRaw r.raw ++ rest) = json.DecodeResult.ok r ('\n' :: rest) ∧
    r.raw.text = r := by
  refine ⟨json.decode_encodeRaw g rest, rfl, ?_, FileInfo.raw_text r⟩
  rw [json.decode_encodeRaw, FileInfo.raw_text]

/-! ## The decoder consumes input -/

namespace json

theorem skipSpace_length_le (s : Str) : (skipSpace s).length ≤ s.length :=
  (List.dropWhile_sublist _).length_le

theorem length_lt_of_skipSpace_cons {s rest : Str} {c : Char} (h : skipSpace s = c :: rest) :
    rest.length < s.length := by
  have := skipSpace_length_le s
  rw [h] at this
  simp only [List.length_cons] at this
  omega

theorem skipSpace_newline (s : Str) : skipSpace ('\n' :: s) = skipSpace s := by
  unfold skipSpace
  rw [List.dropWhile_cons]
  rfl

theorem unquoteEscapeU_length {s rest : Str} {x : Char} (h : unquoteEscapeU s = some (x, rest)) :
    rest.length ≤ s.length := by
  match s, h with
  | a :: b :: c :: d :: r, h =>
    unfold unquoteEscapeU at h
    dsimp only at h
    cases hg : getu4 a b c d with
    | none => rw [hg] at h; exact absurd h (by simp)
    | some rr =>
      rw [hg] at h
      simp only [Option.some.injEq, Prod.mk.injEq] at h
      rw [← h.2]
      split
      · simp only [List.length_drop, List.length_cons]; omega
      · simp only [List.length_cons]; omega
  | [], h => simp [unquoteEscapeU] at h
  | [_], h => simp [unquoteEscapeU] at h
  | [_, _], h => simp [unquoteEscapeU] at h
  | [_, _, _], h => simp [unquoteEscapeU] at h

theorem unquoteEscape_length {e : Char} {s rest : Str} {x : Char}
    (h : unquoteEscape e s = some (x, rest)) : rest.length ≤ s.length := by
  unfold unquoteEscape at h
  split_ifs at h
  all_goals first
    | (simp only [Option.some.injEq, Prod.mk.injEq] at h; rw [← h.2])
    | exact unquoteEscapeU_length h

theorem unquoteStep_length {c : Char} {s rest : Str} {x : Char}
    (h : unquoteStep c s = some (x, rest)) : rest.length ≤ s.length := by
  unfold unquoteStep at h
  by_cases hc : c = '\\'
  · rw [if_pos hc] at h
    cases s with
    | nil => exact absurd h (by simp)
    | cons e r =>
      have := unquoteEscape_length h
      simp only [List.length_cons]
      omega
  · rw [if_neg hc] at h
    by_cases h32 : c.toNat < 32
    · rw [if_pos h32] at h
      exact absurd h (by simp)
    · rw [if_neg h32] at h
      simp only [Option.some.injEq, Prod.mk.injEq] at h
      rw [← h.2]

theorem unquoteLoop_length : ∀ (n : Nat) (s : Str) {x rest : Str},
    unquoteLoop n s = some (x, rest) → rest.length < s.length
  | 0, _, _, _, h => by simp [unquoteLoop] at h
  | _ + 1, [], _, _, h => by simp [unquoteLoop] at h
  | n + 1, c :: r, x, rest, h => by
    unfold unquoteLoop at h
    split_ifs at h
    · simp only [Option.some.injEq, Prod.mk.injEq] at h
      rw [← h.2]
      simp
    · cases hs : unquoteStep c r with
      | none => rw [hs] at h; exact absurd h (by simp)
      | some p =>
        obtain ⟨y, r1⟩ := p
        rw [hs] at h
        dsimp only at h
        cases hl : unquoteLoop n r1 with
        | none => rw [hl] at h; exact absurd h (by simp)
        | some q =>
          rw [hl] at h
          simp only [Option.map_some', Option.some.injEq, Prod.mk.injEq] at h
          have h1 := unquoteLoop_length n r1 hl
          have h2 := unquoteStep_length hs
          rw [← h.2]
          simp only [List.length_cons]
          omega

theorem expect_length {lit s rest : Str} (h : expect lit s = some rest) :
    rest.length ≤ s.length := by
  unfold expect at h
  split_ifs at h
  simp only [Option.some.injEq] at h
  rw [← h, List.length_drop]
  omega

theorem dropWhile_length_le (p : Char → Bool) (s : Str) : (s.dropWhile p).length ≤ s.length :=
  (List.dropWhile_sublist _).length_le

theorem scanInteger_length {s x rest : Str} (h : scanInteger s = some (x, rest)) :
    rest.length < s.length := by
  cases s with
  | nil => simp [scanInteger] at h
  | cons c r =>
    unfold scanInteger at h
    dsimp only at h
    split_ifs at h
    · simp only [Option.some.injEq, Prod.mk.injEq] at h
      rw [← h.2]
      simp
    · simp only [Option.some.injEq, Prod.mk.injEq] at h
      rw [← h.2]
      have := dropWhile_length_le Char.isDigit r
      simp only [List.length_cons]
      omega

theorem scanFraction_length {s x rest : Str} (h : scanFraction s = some (x, rest)) :
    rest.length ≤ s.length := by
  unfold scanFraction at h
  split at h
  · rename_i r
    split_ifs at h
    simp only [Option.some.injEq, Prod.mk.injEq] at h
    rw [← h.2]
    have := dropWhile_length_le Char.isDigit r
    simp only [List.length_cons]
    omega
  · simp only [Option.some.injEq, Prod.mk.injEq] at h
    rw [← h.2]

theorem scanExponentDigits_length {s x rest : Str} (h : scanExponentDigits s = some (x, rest)) :
    rest.length ≤ s.length := by
  unfold scanExponentDigits at h
  split_ifs at h
  simp only [Option.some.injEq, Prod.mk.injEq] at h
  rw [← h.2]
  exact dropWhile_length_le _ _

theorem scanExponent_length {s x rest : Str} (h : scanExponent s = some (x, rest)) :
    rest.length ≤ s.length := by
  cases s with
  | nil =>
    simp only [scanExponent, Option.some.injEq, Prod.mk.injEq] at h
    rw [← h.2]
  | cons e r =>
    unfold scanExponent at h
    dsimp only at h
    by_cases he : e = 'e' ∨ e = 'E'
    · rw [if_pos he] at h
      cases r with
      | nil => exact absurd h (by simp)
      | cons c r1 =>
        dsimp only at h
        by_cases hc : c = '+' ∨ c = '-'
        · rw [if_pos hc] at h
          cases hd : scanExponentDigits r1 with
          | none => rw [hd] at h; exact absurd h (by simp)
          | some q =>
            rw [hd] at h
            simp only [Option.map_some', Option.some.injEq, Prod.mk.injEq] at h
            have := scanExponentDigits_length hd
            rw [← h.2]
            simp only [List.length_cons]
            omega
        · rw [if_neg hc] at h
          cases hd : scanExponentDigits (c :: r1) with
          | none => rw [hd] at h; exact absurd h (by simp)
          | some q =>
            rw [hd] at h
            simp only [Option.map_some', Option.some.injEq, Prod.mk.injEq] at h
            have := scanExponentDigits_length hd
            rw [← h.2]
            simp only [List.length_cons] at this ⊢
            omega
    · rw [if_neg he] at h
      simp only [Option.some.injEq, Prod.mk.injEq] at h
      rw [← h.2]

theorem dropMinus_length (s : Str) : (dropMinus s).length ≤ s.length := by
  unfold dropMinus
  split
  · simp
  · exact Nat.le_refl _

theorem scanNumber_length {s x rest : Str} (h : scanNumber s = some (x, rest)) :
    rest.length < s.length := by
  unfold scanNumber at h
  cases h1 : scanInteger (dropMinus s) with
  | none => rw [h1] at h; exact absurd h (by simp)
  | some q1 =>
    obtain ⟨x1, s1⟩ := q1
    rw [h1] at h
    dsimp only at h
    cases h2 : scanFraction s1 with
    | none => rw [h2] at h; exact absurd h (by simp)
    | some q2 =>
      obtain ⟨x2, s2⟩ := q2
      rw [h2] at h
      dsimp only at h
      cases h3 : scanExponent s2 with
      | none => rw [h3] at h; exact absurd h (by simp)
      | some q3 =>
        obtain ⟨x3, s3⟩ := q3
        rw [h3] at h
        simp only [Option.some.injEq, Prod.mk.injEq] at h
        have a1 := scanInteger_length h1
        have a2 := scanFraction_length h2
        have a3 := scanExponent_length h3
        have a0 := dropMinus_length s
        rw [← h.2]
        omega

mutual

theorem parseValue_length : ∀ (fuel depth : Nat) (s : Str) {v : Value} {rest : Str},
    parseValue fuel depth s = some (v, rest) → rest.length < s.length
  | 0, _, _, _, _, h => by simp [parseValue] at h
  | fuel + 1, depth, s, v, rest, h => by
    unfold parseValue at h
    split at h
    · exact absurd h (by simp)
    · rename_i c r hr
      have h0 := length_lt_of_skipSpace_cons hr
      by_cases c1 : c = '"'
      · rw [if_pos c1] at h
        cases hl : unquoteLoop r.length r with
        | none => rw [hl] at h; exact absurd h (by simp)
        | some q =>
          rw [hl] at h
          simp only [Option.map_some', Option.some.injEq, Prod.mk.injEq] at h
          have h1 := unquoteLoop_length _ _ hl
          rw [← h.2]
          omega
      rw [if_neg c1] at h
      by_cases c2 : c = '\x7b'
      · rw [if_pos c2] at h
        by_cases hd : depth ≥ maxNestingDepth
        · rw [if_pos hd] at h
          exact absurd h (by simp)
        rw [if_neg hd] at h
        split at h
        · rename_i r1 hr1
          have h1 := length_lt_of_skipSpace_cons hr1
          simp only [Option.some.injEq, Prod.mk.injEq] at h
          rw [← h.2]
          omega
        · cases hm : parseMembers fuel (depth + 1) r with
          | none => rw [hm] at h; exact absurd h (by simp)
          | some q =>
            rw [hm] at h
            simp only [Option.map_some', Option.some.injEq, Prod.mk.injEq] at h
            have h1 := parseMembers_length fuel (depth + 1) r hm
            rw [← h.2]
            omega
      rw [if_neg c2] at h
      by_cases c3 : c = '['
      · rw [if_pos c3] at h
        by_cases hd : depth ≥ maxNestingDepth
        · rw [if_pos hd] at h
          exact absurd h (by simp)
        rw [if_neg hd] at h
        split at h
        · rename_i r1 hr1
          have h1 := length_lt_of_skipSpace_cons hr1
          simp only [Option.some.injEq, Prod.mk.injEq] at h
          rw [← h.2]
          omega
        · cases hm : parseElements fuel (depth + 1) r with
          | none => rw [hm] at h; exact absurd h (by simp)
          | some q =>
            rw [hm] at h
            simp only [Option.map_some', Option.some.injEq, Prod.mk.injEq] at h
            have h1 := parseElements_length fuel (depth + 1) r hm
            rw [← h.2]
            omega
      rw [if_neg c3] at h
      by_cases c4 : c = 't'
      · rw [if_pos c4] at h
        cases he : expect (str "rue") r with
        | none => rw [he] at h; exact absurd h (by simp)
        | some q =>
          rw [he] at h
          simp only [Option.map_some', Option.some.injEq, Prod.mk.injEq] at h
          have h1 := expect_length he
          rw [← h.2]
          omega
      rw [if_neg c4] at h
      by_cases c5 : c = 'f'
      · rw [if_pos c5] at h
        cases he : expect (str "alse") r with
        | none => rw [he] at h; exact absurd h (by simp)
        | some q =>
          rw [he] at h
          simp only [Option.map_some', Option.some.injEq, Prod.mk.injEq] at h
          have h1 := expect_length he
          rw [← h.2]
          omega
      rw [if_neg c5] at h
      by_cases c6 : c = 'n'
      · rw [if_pos c6] at h
        cases he : expect (str "ull") r with
        | none => rw [he] at h; exact absurd h (by simp)
        | some q =>
          rw [he] at h
          simp only [Option.map_some', Option.some.injEq, Prod.mk.injEq] at h
          have h1 := expect_length he
          rw [← h.2]
          omega
      rw [if_neg c6] at h
      cases hn : scanNumber (c :: r) with
      | none => rw [hn] at h; exact absurd h (by simp)
      | some q =>
        rw [hn] at h
        simp only [Option.map_some', Option.some.injEq, Prod.mk.injEq] at h
        have h1 := scanNumber_length hn
        have h2 := skipSpace_length_le s
        rw [hr] at h2
        rw [← h.2]
        omega

theorem parseMembers_length : ∀ (fuel depth : Nat) (s : Str) {ms : List (Str × Value)}
    {rest : Str}, parseMembers fuel depth s = some (ms, rest) → rest.length < s.length
  | 0, _, _, _, _, h => by simp [parseMembers] at h
  | n + 1, depth, s, ms, rest, h => by
    unfold parseMembers at h
    split at h
    · rename_i r hr
      have h0 := length_lt_of_skipSpace_cons hr
      split at h
      · exact absurd h (by simp)
      · rename_i key rest1 hk
        have h1 := unquoteLoop_length _ _ hk
        split at h
        · rename_i rest2 h2
          have h2 := length_lt_of_skipSpace_cons h2
          split at h
          · exact absurd h (by simp)
          · rename_i v rest3 hv
            have h3 := parseValue_length n depth rest2 hv
            split at h
            · rename_i rest4 h4
              have h4 := length_lt_of_skipSpace_cons h4
              cases hm : parseMembers n depth rest4 with
              | none => rw [hm] at h; exact absurd h (by simp)
              | some q =>
                rw [hm] at h
                simp only [Option.map_some', Option.some.injEq, Prod.mk.injEq] at h
                have h5 := parseMembers_length n depth rest4 hm
                rw [← h.2]
                omega
            · rename_i rest4 h4
              have h4 := length_lt_of_skipSpace_cons h4
              simp only [Option.some.injEq, Prod.mk.injEq] at h
              rw [← h.2]
              omega
            · exact absurd h (by simp)
        · exact absurd h (by simp)
    · exact absurd h (by simp)

theorem parseElements_length : ∀ (fuel depth : Nat) (s : Str) {es : List Value}
    {rest : Str}, parseElements fuel depth s = some (es, rest) → rest.length < s.length
  | 0, _, _, _, _, h => by simp [parseElements] at h
  | n + 1, depth, s, es, rest, h => by
    unfold parseElements at h
    split at h
    · exact absurd h (by simp)
    · rename_i v rest1 hv
      have h1 := parseValue_length n depth s hv
      split at h
      · rename_i rest2 h2
        have h2 := length_lt_of_skipSpace_cons h2
        cases hm : parseElements n depth rest2 with
        | none => rw [hm] at h; exact absurd h (by simp)
        | some q =>
          rw [hm] at h
          simp only [Option.map_some', Option.some.injEq, Prod.mk.injEq] at h
          have h5 := parseElements_length n depth rest2 hm
          rw [← h.2]
          omega
      · rename_i rest2 h2
        have h2 := length_lt_of_skipSpace_cons h2
        simp only [Option.some.injEq, Prod.mk.injEq] at h
        rw [← h.2]
        omega
      · exact absurd h (by simp)

end

/-- A record that `Decode` returns was read from the input: what remains is
shorter. -/
theorem decode_length {s rest : Str} {v : FileInfo} (h : Decode s = .ok v rest) :
    rest.length < s.length := by
  unfold Decode at h
  split at h
  · exact absurd h (by simp)
  · rename_i c r hr
    have h0 := skipSpace_length_le s
    rw [hr] at h0
    split at h
    · exact absurd h (by simp)
    · rename_i val r1 hp
      have h1 := parseValue_length _ _ _ hp
      split at h
      · exact absurd h (by simp)
      · simp only [DecodeResult.ok.injEq] at h
        rw [← h.2]
        omega

theorem decode_newline (s : Str) : Decode ('\n' :: s) = Decode s := by
  unfold Decode
  rw [skipSpace_newline]

end json
/-! ## The bound on the nested calls of the parser is large enough -/

namespace json

theorem parseValue_zero (depth : Nat) (s : Str) : parseValue 0 depth s = none := by
  rw [parseValue]

theorem parseMembers_zero (depth : Nat) (s : Str) : parseMembers 0 depth s = none := by
  rw [parseMembers]

theorem parseElements_zero (depth : Nat) (s : Str) : parseElements 0 depth s = none := by
  rw [parseElements]

theorem parseValue_nil (fuel depth : Nat) : parseValue fuel depth [] = none := by
  cases fuel with
  | zero => exact parseValue_zero _ _
  | succ f => rw [parseValue]; rfl

theorem parseMembers_nil (fuel depth : Nat) : parseMembers fuel depth [] = none := by
  cases fuel with
  | zero => exact parseMembers_zero _ _
  | succ f => rw [parseMembers]; rfl

theorem parseElements_nil (fuel depth : Nat) : parseElements fuel depth [] = none := by
  cases fuel with
  | zero => exact parseElements_zero _ _
  | succ f => rw [parseElements, parseValue_nil]

/-- One more step changes nothing once the bound is the length of the
input. -/
theorem unquoteLoop_succ : ∀ (n : Nat) (s : Str), s.length ≤ n →
    unquoteLoop (n + 1) s = unquoteLoop n s
  | 0, s, h => by
    have : s = [] := List.length_eq_zero.1 (by omega)
    subst this
    rfl
  | n + 1, [], _ => rfl
  | n + 1, c :: rest, h => by
    rw [unquoteLoop, unquoteLoop]
    cases hs : unquoteStep c rest with
    | none => rfl
    | some q =>
      obtain ⟨x, rest1⟩ := q
      have h1 := unquoteStep_length hs
      simp only [List.length_cons] at h
      dsimp only
      rw [unquoteLoop_succ n rest1 (by omega)]

mutual

/-- One more nested call changes nothing once the bound is twice the length
of the input. -/
theorem parseValue_succ : ∀ (fuel depth : Nat) (s : Str), 2 * s.length ≤ fuel + 1 →
    parseValue (fuel + 1) depth s = parseValue fuel depth s
  | 0, depth, s, h => by
    have : s = [] := List.length_eq_zero.1 (by omega)
    subst this
    rw [parseValue_nil, parseValue_nil]
  | fuel + 1, depth, s, h => by
    rw [parseValue, parseValue]
    cases hs : skipSpace s with
    | nil => rfl
    | cons c r =>
      have h0 := length_lt_of_skipSpace_cons hs
      dsimp only
      rw [parseMembers_succ fuel (depth + 1) r (by omega),
        parseElements_succ fuel (depth + 1) r (by omega)]

theorem parseMembers_succ : ∀ (fuel depth : Nat) (s : Str), 2 * s.length ≤ fuel →
    parseMembers (fuel + 1) depth s = parseMembers fuel depth s
  | 0, depth, s, h => by
    have : s = [] := List.length_eq_zero.1 (by omega)
    subst this
    rw [parseMembers_nil, parseMembers_nil]
  | fuel + 1, depth, s, h => by
    rw [parseMembers, parseMembers]
    split
    · rename_i r hr
      have h0 := length_lt_of_skipSpace_cons hr
      cases hk : unquoteLoop r.length r with
      | none => rfl
      | some q =>
        obtain ⟨key, rest1⟩ := q
        have h1 := unquoteLoop_length _ _ hk
        dsimp only
        split
        · rename_i rest2 h2
          have h2 := length_lt_of_skipSpace_cons h2
          rw [parseValue_succ fuel depth rest2 (by omega)]
          cases hv : parseValue fuel depth rest2 with
          | none => rfl
          | some q =>
            obtain ⟨v, rest3⟩ := q
            have h3 := parseValue_length _ _ _ hv
            dsimp only
            split
            · rename_i rest4 h4
              have h4 := length_lt_of_skipSpace_cons h4
              rw [parseMembers_succ fuel depth rest4 (by omega)]
            · rfl
            · rfl
        · rfl
    · rfl

theorem parseElements_succ : ∀ (fuel depth : Nat) (s : Str), 2 * s.length ≤ fuel →
    parseElements (fuel + 1) depth s = parseElements fuel depth s
  | 0, depth, s, h => by
    have : s = [] := List.length_eq_zero.1 (by omega)
    subst this
    rw [parseElements_nil, parseElements_nil]
  | fuel + 1, depth, s, h => by
    rw [parseElements, parseElements, parseValue_succ fuel depth s (by omega)]
    cases hv : parseValue fuel depth s with
    | none => rfl
    | some q =>
      obtain ⟨v, rest⟩ := q
      have h1 := parseValue_length _ _ _ hv
      dsimp only
      split
      · rename_i rest1 h2
        have h2 := length_lt_of_skipSpace_cons h2
        rw [parseElements_succ fuel depth rest1 (by omega)]
      · rfl
      · rfl

end

/-- The parser gives the same result for every bound from twice the length of
the input on: the bound that `Decode` sets never cuts a value short. -/
theorem parseValue_fuel (depth : Nat) (s : Str) : ∀ k : Nat,
    parseValue (2 * s.length + k) depth s = parseValue (2 * s.length) depth s
  | 0 => rfl
  | k + 1 => by
    rw [← Nat.add_assoc, parseValue_succ _ _ _ (by omega), parseValue_fuel depth s k]

/-- One more step changes nothing once the bound is the number of bytes. -/
theorem appendBytes_succ : ∀ (n : Nat) (g : List UInt8), g.length ≤ n →
    appendBytes (n + 1) g = appendBytes n g
  | 0, g, h => by
    have : g = [] := List.length_eq_zero.1 (by omega)
    subst this
    rfl
  | n + 1, [], _ => rfl
  | n + 1, b :: rest, h => by
    have hsz := utf8.decodeRune_size_pos b rest
    simp only [List.length_cons] at h
    rw [appendBytes, appendBytes]
    rcases hd : utf8.DecodeRune (b :: rest) with ⟨x, size⟩
    rw [hd] at hsz
    dsimp only at hsz
    cases x with
    | some c =>
      dsimp only
      rw [appendBytes_succ n _ (by simp only [List.length_drop, List.length_cons]; omega)]
    | none =>
      dsimp only
      rw [appendBytes_succ n rest (by omega)]

end json

/-- One more step changes nothing once the bound is the number of bytes. -/
theorem utf8.runes_succ : ∀ (n : Nat) (g : List UInt8), g.length ≤ n →
    utf8.runes (n + 1) g = utf8.runes n g
  | 0, g, h => by
    have : g = [] := List.length_eq_zero.1 (by omega)
    subst this
    rfl
  | n + 1, [], _ => rfl
  | n + 1, b :: rest, h => by
    have hsz := utf8.decodeRune_size_pos b rest
    simp only [List.length_cons] at h
    rw [utf8.runes, utf8.runes]
    rcases hd : utf8.DecodeRune (b :: rest) with ⟨x, size⟩
    rw [hd] at hsz
    dsimp only at hsz
    cases x with
    | some c =>
      dsimp only
      rw [utf8.runes_succ n _ (by simp only [List.length_drop, List.length_cons]; omega)]
    | none =>
      dsimp only
      rw [utf8.runes_succ n rest (by omega)]
/-! ## The reports of the decoder -/

theorem json.incoming_newline (fuel : Nat) (s : Str) :
    json.incoming fuel ('\n' :: s) = json.incoming fuel s := by
  cases fuel with
  | zero => rfl
  | succ f =>
    unfold json.incoming
    rw [json.decode_newline]

/-- The decoder comes to an end on every input: each record read consumes
some of it. -/
theorem json.incoming_isSome : ∀ (fuel : Nat) (input : Str), input.length < fuel →
    ∃ inc, json.incoming fuel input = some inc
  | 0, _, h => absurd h (Nat.not_lt_zero _)
  | fuel + 1, input, h => by
    unfold json.incoming
    cases hd : json.Decode input with
    | eof => exact ⟨_, rfl⟩
    | error => exact ⟨_, rfl⟩
    | ok v rest =>
      have hl := json.decode_length hd
      obtain ⟨inc, h1⟩ := json.incoming_isSome fuel rest (by omega)
      exact ⟨Incoming.record v inc, by dsimp only; rw [h1]; rfl⟩

theorem json.encode_length_pos (r : FileInfo) : 0 < (json.Encode r).length := by
  simp [json.Encode]

theorem encodeAll_cons (r : FileInfo) (rs : List FileInfo) :
    encodeAll (r :: rs) = json.Encode r ++ encodeAll rs := by
  simp [encodeAll]

/-- What the decoder reports on a `tail` that does not begin with a
record. -/
theorem json.incoming_tail (tail : Str) (fuel : Nat)
    (htail : ∀ v rest, json.Decode tail ≠ json.DecodeResult.ok v rest) :
    json.incoming (fuel + 1) tail =
      some (if json.Decode tail = json.DecodeResult.eof then Incoming.eof else Incoming.error) := by
  unfold json.incoming
  cases hd : json.Decode tail with
  | eof => simp
  | error => simp
  | ok v rest => exact absurd hd (htail v rest)

/-- On the bytes of the records `rs` followed by a `tail` that does not start
with a record, the decoder reports the records `rs` in order and then what
it reports on `tail`. -/
theorem json.incoming_encodeAll (tail : Str)
    (htail : ∀ v rest, json.Decode tail ≠ json.DecodeResult.ok v rest) :
    ∀ (rs : List FileInfo) (fuel : Nat), (encodeAll rs ++ tail).length < fuel →
      json.incoming fuel (encodeAll rs ++ tail) =
        some (Incoming.after rs
          (if json.Decode tail = json.DecodeResult.eof then Incoming.eof else Incoming.error))
  | [], 0, h => absurd h (Nat.not_lt_zero _)
  | [], fuel + 1, _ => by
    show json.incoming (fuel + 1) tail = _
    rw [json.incoming_tail tail fuel htail]
    rfl
  | _ :: _, 0, h => absurd h (Nat.not_lt_zero _)
  | r :: rs, fuel + 1, h => by
    rw [encodeAll_cons, List.append_assoc] at h ⊢
    unfold json.incoming
    rw [json.decode_encode_append]
    dsimp only
    rw [json.incoming_newline]
    have hp := json.encode_length_pos r
    rw [List.length_append] at h
    rw [json.incoming_encodeAll tail htail rs fuel (by omega)]
    rfl

/-! ## The receive loop -/

/-- The loop calls `saveFile` for each record that the decoder reports, in
order, and ends as the last report says. -/
theorem receiveLoop_eq (wd : Str) (clock : Nat → Time) :
    ∀ (inc : Incoming) (fs : FS) (calls : List SaveCall),
      receiveLoop wd clock inc fs calls =
        ⟨inc.ending, calls ++ (saveAll wd clock calls.length fs inc.records).1,
          (saveAll wd clock calls.length fs inc.records).2⟩
  | .eof, fs, calls => by simp [receiveLoop, Incoming.ending, Incoming.records, saveAll]
  | .error, fs, calls => by simp [receiveLoop, Incoming.ending, Incoming.records, saveAll]
  | .record r next, fs, calls => by
    rw [receiveLoop, receiveLoop_eq wd clock next]
    simp [Incoming.ending, Incoming.records, saveAll]

theorem Incoming.records_after : ∀ (rs : List FileInfo) (next : Incoming),
    (Incoming.after rs next).records = rs ++ next.records
  | [], _ => rfl
  | r :: rs, next => by
    rw [Incoming.after, Incoming.records, Incoming.records_after rs next]
    rfl

theorem Incoming.ending_after : ∀ (rs : List FileInfo) (next : Incoming),
    (Incoming.after rs next).ending = next.ending
  | [], _ => rfl
  | r :: rs, next => by
    rw [Incoming.after, Incoming.ending, Incoming.ending_after rs next]

/-- Every sequence of reports is some records followed by `io.EOF` or by
another error. -/
theorem Incoming.eq_after : ∀ inc : Incoming, ∃ (rs : List FileInfo) (last : Incoming),
    (last = Incoming.eof ∨ last = Incoming.error) ∧ inc = Incoming.after rs last
  | .eof => ⟨[], .eof, Or.inl rfl, rfl⟩
  | .error => ⟨[], .error, Or.inr rfl, rfl⟩
  | .record r next => by
    obtain ⟨rs, last, hl, he⟩ := Incoming.eq_after next
    exact ⟨r :: rs, last, hl, by rw [he]; rfl⟩

theorem saveAll_fileInfo (wd : Str) (clock : Nat → Time) :
    ∀ (rs : List FileInfo) (k : Nat) (fs : FS),
      (saveAll wd clock k fs rs).1.map (fun c => c.fileInfo) = rs
  | [], _, _ => rfl
  | r :: rs, k, fs => by
    simp only [saveAll, List.map_cons, saveAll_fileInfo wd clock rs]

theorem saveAll_now (wd : Str) (clock : Nat → Time) :
    ∀ (rs : List FileInfo) (k : Nat) (fs : FS),
      (saveAll wd clock k fs rs).1.map (fun c => c.now) =
        (List.range rs.length).map (fun i => clock (k + i))
  | [], _, _ => rfl
  | r :: rs, k, fs => by
    simp only [saveAll, List.map_cons, saveAll_now wd clock rs, List.length_cons,
      List.range_succ_eq_map, List.map_map]
    simp [Function.comp_def, Nat.add_assoc, Nat.add_comm 1]

/-- On every input `handleClient` returns, by the clean end of the stream or
by a decode error. -/
theorem handleClient_isSome (wd : Str) (clock : Nat → Time) (input : Str) (fs : FS) :
    ∃ inc, json.incoming (input.length + 1) input = some inc ∧
      handleClient wd clock true input fs = some (receiveLoop wd clock inc fs []) := by
  obtain ⟨inc, h⟩ := json.incoming_isSome (input.length + 1) input (Nat.lt_succ_self _)
  refine ⟨inc, h, ?_⟩
  unfold handleClient
  rw [if_neg (by decide), h]
  rfl

theorem handleClient_encodeAll (wd : Str) (clock : Nat → Time) (rs : List FileInfo)
    (tail : Str) (fs : FS)
    (htail : ∀ v rest, json.Decode tail ≠ json.DecodeResult.ok v rest) :
    handleClient wd clock true (encodeAll rs ++ tail) fs =
      some ⟨if json.Decode tail = json.DecodeResult.eof then SessionEnd.closedClean
          else SessionEnd.closedError,
        (saveAll wd clock 0 fs rs).1, (saveAll wd clock 0 fs rs).2⟩ := by
  unfold handleClient
  rw [if_neg (by decide),
    json.incoming_encodeAll tail htail rs _ (Nat.lt_succ_self _)]
  simp only [Option.map_some', receiveLoop_eq, Incoming.records_after, Incoming.ending_after,
    List.nil_append, List.length_nil]
  by_cases he : json.Decode tail = json.DecodeResult.eof
  · simp [he, Incoming.records, Incoming.ending]
  · simp [he, Incoming.records, Incoming.ending]

/-! ## The file system under `MkdirAll` and `WriteFile` -/

namespace os

theorem addDirs_files : ∀ (ps : List Str) (fs : FS), (addDirs fs ps).files = fs.files
  | [], _ => rfl
  | p :: ps, fs => by
    unfold addDirs
    rw [addDirs_files ps]
    split <;> rfl

theorem isDir_addDirs_of_isDir (q : Str) :
    ∀ (ps : List Str) (fs : FS), isDir fs q = true → isDir (addDirs fs ps) q = true
  | [], _, h => h
  | p :: ps, fs, h => by
    unfold addDirs
    apply isDir_addDirs_of_isDir q ps
    split
    · exact h
    · unfold isDir at h ⊢
      simp only [Bool.or_eq_true, List.contains_eq_any_beq, List.any_eq_true, List.mem_append]
        at h ⊢
      rcases h with h | ⟨x, hx, hq⟩
      · exact Or.inl h
      · exact Or.inr ⟨x, Or.inl hx, hq⟩

theorem isDir_addDirs (q : Str) :
    ∀ (ps : List Str) (fs : FS), q ∈ ps → isDir (addDirs fs ps) q = true
  | [], _, h => absurd h (List.not_mem_nil _)
  | p :: ps, fs, h => by
    unfold addDirs
    rcases List.mem_cons.1 h with h | h
    · subst h
      apply isDir_addDirs_of_isDir
      split
      · assumption
      · unfold isDir
        simp
    · exact isDir_addDirs q ps _ h

theorem addDirs_of_isDir : ∀ (ps : List Str) (fs : FS),
    (∀ q ∈ ps, isDir fs q = true) → addDirs fs ps = fs
  | [], _, _ => rfl
  | p :: ps, fs, h => by
    unfold addDirs
    rw [if_pos (h p (List.mem_cons_self _ _))]
    exact addDirs_of_isDir ps fs (fun q hq => h q (List.mem_cons_of_mem _ hq))

theorem isDir_congr {fs fs1 : FS} (h : fs1.dirs = fs.dirs) (q : Str) :
    isDir fs1 q = isDir fs q := by
  unfold isDir
  rw [h]

theorem isFile_congr {fs fs1 : FS} (h : fs1.files = fs.files) (q : Str) :
    isFile fs1 q = isFile fs q := by
  unfold isFile
  rw [h]

theorem mkdirAll_eq_some {wd : Str} {fs fs1 : FS} {path : Str}
    (h : MkdirAll wd fs path = some fs1) :
    (ancestors (filepath.Abs wd path)).any (isFile fs) = false ∧
      fs1 = addDirs fs (ancestors (filepath.Abs wd path)) := by
  unfold MkdirAll at h
  dsimp only at h
  cases ha : (ancestors (filepath.Abs wd path)).any (isFile fs) with
  | true => rw [ha, if_pos rfl] at h; exact absurd h (by simp)
  | false =>
    rw [ha, if_neg (by decide)] at h
    exact ⟨rfl, (Option.some.inj h).symm⟩

theorem mkdirAll_of_any_false {wd : Str} {fs : FS} {path : Str}
    (h : (ancestors (filepath.Abs wd path)).any (isFile fs) = false) :
    MkdirAll wd fs path = some (addDirs fs (ancestors (filepath.Abs wd path))) := by
  unfold MkdirAll
  dsimp only
  rw [h, if_neg (by decide)]

/-- After a successful `MkdirAll`, a second one with the same path succeeds and
adds nothing. -/
theorem mkdirAll_again {wd : Str} {fs fs1 : FS} {path : Str}
    (h : MkdirAll wd fs path = some fs1) : MkdirAll wd fs1 path = some fs1 := by
  obtain ⟨h1, h2⟩ := mkdirAll_eq_some h
  have hf : fs1.files = fs.files := by rw [h2, addDirs_files]
  have h3 : (ancestors (filepath.Abs wd path)).any (isFile fs1) = false := by
    rw [← h1]
    congr 1
    funext q
    exact isFile_congr hf q
  rw [mkdirAll_of_any_false h3, addDirs_of_isDir]
  intro q hq
  rw [h2]
  exact isDir_addDirs q _ fs hq

theorem writeFile_eq_some {wd : Str} {fs fs2 : FS} {name : Str} {data : List UInt8}
    (h : WriteFile wd fs name data = some fs2) :
    isDir fs (filepath.Abs wd name) = false ∧
      isDir fs (filepath.Dir (filepath.Abs wd name)) = true ∧
      fs2 = { fs with files := setFile (filepath.Abs wd name) data fs.files } := by
  unfold WriteFile at h
  dsimp only at h
  cases h1 : isDir fs (filepath.Abs wd name) with
  | true => rw [h1] at h; exact absurd h (by simp)
  | false =>
    cases h2 : isDir fs (filepath.Dir (filepath.Abs wd name)) with
    | false => rw [h1, h2] at h; exact absurd h (by simp)
    | true =>
      rw [h1, h2, if_neg (by decide)] at h
      exact ⟨rfl, rfl, (Option.some.inj h).symm⟩

theorem writeFile_of_dirs {wd : Str} {fs : FS} {name : Str} (data : List UInt8)
    (h1 : isDir fs (filepath.Abs wd name) = false)
    (h2 : isDir fs (filepath.Dir (filepath.Abs wd name)) = true) :
    WriteFile wd fs name data =
      some { fs with files := setFile (filepath.Abs wd name) data fs.files } := by
  unfold WriteFile
  dsimp only
  rw [h1, h2, if_neg (by decide)]

theorem lookup_setFile (p : Str) (data : List UInt8) :
    ∀ l : List (Str × List UInt8), (setFile p data l).lookup p = some data
  | [] => by simp [setFile, List.lookup]
  | (q, d) :: rest => by
    unfold setFile
    by_cases hq : q = p
    · rw [if_pos hq]; simp [List.lookup]
    · rw [if_neg hq]
      have : (p == q) = false := by simpa using fun e => hq e.symm
      rw [List.lookup_cons, this]
      exact lookup_setFile p data rest

theorem lookup_setFile_ne (p : Str) (data : List UInt8) (q : Str) (hq : q ≠ p) :
    ∀ l : List (Str × List UInt8), (setFile p data l).lookup q = l.lookup q
  | [] => by
    have : (q == p) = false := by simpa using hq
    simp [setFile, List.lookup, this]
  | (x, d) :: rest => by
    unfold setFile
    by_cases hx : x = p
    · rw [if_pos hx]
      subst hx
      have : (q == x) = false := by simpa using hq
      simp [List.lookup, this]
    · rw [if_neg hx, List.lookup_cons, List.lookup_cons, lookup_setFile_ne p data q hq rest]

theorem setFile_setFile (p : Str) (d1 d2 : List UInt8) :
    ∀ l : List (Str × List UInt8), setFile p d2 (setFile p d1 l) = setFile p d2 l
  | [] => by simp [setFile]
  | (q, d) :: rest => by
    by_cases hq : q = p
    · simp [setFile, hq]
    · simp [setFile, hq, setFile_setFile p d1 d2 rest]

end os

/-! ## C16: the last write wins, and saving twice is saving once -/

theorem securityCheck_congr (wd : Str) (r1 r2 : FileInfo) (t1 t2 : Time)
    (h : fullPath r1 t1 = fullPath r2 t2) : securityCheck wd r1 t1 = securityCheck wd r2 t2 := by
  unfold securityCheck
  rw [h]

/-- What `saveFile` does depends on the record and the time only through the
destination path and the content. -/
theorem saveFile_congr (wd : Str) (fs : FS) (r1 r2 : FileInfo) (t1 t2 : Time)
    (h : fullPath r1 t1 = fullPath r2 t2) (hc : r1.Content = r2.Content) :
    saveFile wd t1 fs r1 = saveFile wd t2 fs r2 := by
  unfold saveFile
  rw [securityCheck_congr wd r1 r2 t1 t2 h, h, hc]

theorem saveFile_steps_of_ok (wd : Str) (now : Time) (fs : FS) (r : FileInfo) (c : List UInt8)
    (hc : r.Content = some c) (hok : (saveFile wd now fs r).1 = none) :
    ∃ fs1 fs2, securityCheck wd r now = true ∧
      os.MkdirAll wd fs (filepath.Dir (fullPath r now)) = some fs1 ∧
      os.WriteFile wd fs1 (fullPath r now) c = some fs2 ∧ saveFile wd now fs r = (none, fs2) := by
  rcases Bool.eq_false_or_eq_true (securityCheck wd r now) with hchk | hchk
  · rw [saveFile_of_check_true wd now fs r hchk] at hok
    rcases Option.eq_none_or_eq_some (os.MkdirAll wd fs (filepath.Dir (fullPath r now)))
      with hM | ⟨fs1, hM⟩
    · rw [hM] at hok; exact absurd hok (by simp)
    · rw [hM, hc] at hok
      dsimp only at hok
      rcases Option.eq_none_or_eq_some (os.WriteFile wd fs1 (fullPath r now) c)
        with hW | ⟨fs2, hW⟩
      · rw [hW] at hok; exact absurd hok (by simp)
      · refine ⟨fs1, fs2, hchk, hM, hW, ?_⟩
        rw [saveFile_of_check_true wd now fs r hchk, hM, hc]
        dsimp only
        rw [hW]
  · rw [saveFile_of_check_false wd now fs r hchk] at hok
    exact absurd hok (by simp)

/-- The file system after the directories of `dir` were made and the file
`name` was written: making the directories again changes nothing, and `name`
can be written again. -/
theorem os.after_write {wd : Str} {fs fs1 fs2 : FS} {dir name : Str} {c : List UInt8}
    (hM : os.MkdirAll wd fs dir = some fs1) (hW : os.WriteFile wd fs1 name c = some fs2) :
    os.MkdirAll wd fs2 dir = some fs2 ∧ os.isDir fs2 (filepath.Abs wd name) = false ∧
      os.isDir fs2 (filepath.Dir (filepath.Abs wd name)) = true ∧
      fs2.files = os.setFile (filepath.Abs wd name) c fs.files := by
  obtain ⟨h1, h2⟩ := os.mkdirAll_eq_some hM
  obtain ⟨h3, h4, h5⟩ := os.writeFile_eq_some hW
  have hd : fs2.dirs = fs1.dirs := by rw [h5]
  have hf1 : fs1.files = fs.files := by rw [h2, os.addDirs_files]
  have hf : fs2.files = os.setFile (filepath.Abs wd name) c fs.files := by rw [h5, hf1]
  have hdir : ∀ q ∈ os.ancestors (filepath.Abs wd dir), os.isDir fs2 q = true := by
    intro q hq
    rw [os.isDir_congr hd, h2]
    exact os.isDir_addDirs q _ fs hq
  have hany : (os.ancestors (filepath.Abs wd dir)).any (os.isFile fs2) = false := by
    rw [List.any_eq_false] at h1 ⊢
    intro q hq
    have hne : q ≠ filepath.Abs wd name := by
      rintro rfl
      have := hdir _ hq
      rw [os.isDir_congr hd, h3] at this
      exact absurd this (by decide)
    have := h1 q hq
    unfold os.isFile at this ⊢
    rw [hf, os.lookup_setFile_ne _ _ _ hne]
    exact this
  refine ⟨?_, ?_, ?_, hf⟩
  · rw [os.mkdirAll_of_any_false hany, os.addDirs_of_isDir _ _ hdir]
  · rw [os.isDir_congr hd, h3]
  · rw [os.isDir_congr hd, h4]

/-- Saving a record again at once changes nothing and returns the same
result. -/
theorem saveFile_idem (wd : Str) (now : Time) (fs : FS) (r : FileInfo) :
    saveFile wd now (saveFile wd now fs r).2 r = saveFile wd now fs r := by
  cases hchk : securityCheck wd r now with
  | false => simp only [saveFile_of_check_false wd now _ r hchk]
  | true =>
    cases hM : os.MkdirAll wd fs (filepath.Dir (fullPath r now)) with
    | none =>
      have e : saveFile wd now fs r = (some SaveError.creatingDirectory, fs) := by
        rw [saveFile_of_check_true wd now fs r hchk, hM]
      rw [e]
      exact e
    | some fs1 =>
      have hM1 := os.mkdirAll_again hM
      cases hc : r.Content with
      | none =>
        have e : ∀ fs0, os.MkdirAll wd fs0 (filepath.Dir (fullPath r now)) = some fs1 →
            saveFile wd now fs0 r = (none, fs1) := by
          intro fs0 h0
          rw [saveFile_of_check_true wd now fs0 r hchk, h0, hc]
        rw [e fs hM]
        exact e fs1 hM1
      | some c =>
        cases hW : os.WriteFile wd fs1 (fullPath r now) c with
        | none =>
          have e : ∀ fs0, os.MkdirAll wd fs0 (filepath.Dir (fullPath r now)) = some fs1 →
              saveFile wd now fs0 r = (some SaveError.writingFile, fs1) := by
            intro fs0 h0
            rw [saveFile_of_check_true wd now fs0 r hchk, h0, hc]
            dsimp only
            rw [hW]
          rw [e fs hM]
          exact e fs1 hM1
        | some fs2 =>
          have e : saveFile wd now fs r = (none, fs2) := by
            rw [saveFile_of_check_true wd now fs r hchk, hM, hc]
            dsimp only
            rw [hW]
          obtain ⟨a1, a2, a3, a4⟩ := os.after_write hM hW
          rw [e, saveFile_of_check_true wd now fs2 r hchk]
          rw [a1, hc]
          dsimp only
          rw [os.writeFile_of_dirs c a2 a3]
          dsimp only
          have hfs : os.setFile (filepath.Abs wd (fullPath r now)) c fs2.files = fs2.files := by
            rw [a4, os.setFile_setFile]
          rw [hfs]

/-- A save that returns an error has written no file. -/
theorem saveFile_error_files (wd : Str) (now : Time) (fs : FS) (r : FileInfo)
    (h : (saveFile wd now fs r).1 ≠ none) : (saveFile wd now fs r).2.files = fs.files := by
  cases hchk : securityCheck wd r now with
  | false => rw [saveFile_of_check_false wd now _ r hchk]
  | true =>
    rw [saveFile_of_check_true wd now fs r hchk] at h ⊢
    cases hM : os.MkdirAll wd fs (filepath.Dir (fullPath r now)) with
    | none => rfl
    | some fs1 =>
      have hf : fs1.files = fs.files := by
        rw [(os.mkdirAll_eq_some hM).2, os.addDirs_files]
      rw [hM] at h
      dsimp only at h ⊢
      cases hc : r.Content with
      | none => rw [hc] at h; exact absurd rfl h
      | some c =>
        rw [hc] at h
        dsimp only at h ⊢
        cases hW : os.WriteFile wd fs1 (fullPath r now) c with
        | none => exact hf
        | some fs2 => rw [hW] at h; exact absurd rfl h

/-- C16. (1) When a record with content `c1` has been saved (`saveFile`
returned nil), saving a record with content `c2` whose destination path is
the same succeeds too and leaves at that path a file with exactly `c2`.
(2) Saving any record a second time to the same destination gives the result
and the file system of saving it once. -/
theorem saveFile_last_write_wins_and_idempotent (wd : Str) (fs : FS) :
    (∀ (t1 t2 : Time) (r1 r2 : FileInfo) (c1 c2 : List UInt8),
      r1.Content = some c1 → r2.Content = some c2 → fullPath r1 t1 = fullPath r2 t2 →
      (saveFile wd t1 fs r1).1 = none →
      (saveFile wd t2 (saveFile wd t1 fs r1).2 r2).1 = none ∧
        (saveFile wd t2 (saveFile wd t1 fs r1).2 r2).2.files.lookup
          (filepath.Abs wd (fullPath r2 t2)) = some c2) ∧
    (∀ (t1 t2 : Time) (r : FileInfo), fullPath r t1 = fullPath r t2 →
      saveFile wd t2 (saveFile wd t1 fs r).2 r = saveFile wd t1 fs r) := by
  constructor
  · intro t1 t2 r1 r2 c1 c2 h1 h2 hdest hok
    obtain ⟨fs1, fs2, hchk, hM, hW, e⟩ := saveFile_steps_of_ok wd t1 fs r1 c1 h1 hok
    obtain ⟨a1, a2, a3, _⟩ := os.after_write hM hW
    rw [e]
    dsimp only
    rw [securityCheck_congr wd r1 r2 t1 t2 hdest] at hchk
    rw [hdest] at a1 a2 a3
    rw [saveFile_of_check_true wd t2 fs2 r2 hchk, a1, h2]
    dsimp only
    rw [os.writeFile_of_dirs c2 a2 a3]
    exact ⟨rfl, os.lookup_setFile _ _ _⟩
  · intro t1 t2 r h
    rw [saveFile_congr wd _ r r t2 t1 h.symm rfl]
    exact saveFile_idem wd t1 fs r

set_option maxRecDepth 100000 in
/-- Witness for `saveFile_last_write_wins_and_idempotent` (C16): `a.txt` from
host `pc` saved twice within one minute, with contents `[1]` and `[2]`, and
with content `[1]` both times. -/
theorem saveFile_last_write_wins_and_idempotent_witness :
    ((saveFile (str "/srv") ⟨2024, 1, 2, 3, 4, 40, 0⟩
        (saveFile (str "/srv") ⟨2024, 1, 2, 3, 4, 5, 0⟩ ⟨[], []⟩
          ⟨str "a.txt", some [1], str "10.0.0.7", str "pc"⟩).2
        ⟨str "a.txt", some [2], str "10.0.0.7", str "pc"⟩).1 = none ∧
      (saveFile (str "/srv") ⟨2024, 1, 2, 3, 4, 40, 0⟩
        (saveFile (str "/srv") ⟨2024, 1, 2, 3, 4, 5, 0⟩ ⟨[], []⟩
          ⟨str "a.txt", some [1], str "10.0.0.7", str "pc"⟩).2
        ⟨str "a.txt", some [2], str "10.0.0.7", str "pc"⟩).2.files.lookup
          (filepath.Abs (str "/srv") (fullPath ⟨str "a.txt", some [2], str "10.0.0.7", str "pc"⟩
            ⟨2024, 1, 2, 3, 4, 40, 0⟩)) = some [2]) ∧
    saveFile (str "/srv") ⟨2024, 1, 2, 3, 4, 40, 0⟩
        (saveFile (str "/srv") ⟨2024, 1, 2, 3, 4, 5, 0⟩ ⟨[], []⟩
          ⟨str "a.txt", some [1], str "10.0.0.7", str "pc"⟩).2
        ⟨str "a.txt", some [1], str "10.0.0.7", str "pc"⟩ =
      saveFile (str "/srv") ⟨2024, 1, 2, 3, 4, 5, 0⟩ ⟨[], []⟩
        ⟨str "a.txt", some [1], str "10.0.0.7", str "pc"⟩ :=
  ⟨(saveFile_last_write_wins_and_idempotent (str "/srv") ⟨[], []⟩).1
      ⟨2024, 1, 2, 3, 4, 5, 0⟩ ⟨2024, 1, 2, 3, 4, 40, 0⟩
      ⟨str "a.txt", some [1], str "10.0.0.7", str "pc"⟩
      ⟨str "a.txt", some [2], str "10.0.0.7", str "pc"⟩ [1] [2] rfl rfl (by decide) (by decide),
    (saveFile_last_write_wins_and_idempotent (str "/srv") ⟨[], []⟩).2
      ⟨2024, 1, 2, 3, 4, 5, 0⟩ ⟨2024, 1, 2, 3, 4, 40, 0⟩
      ⟨str "a.txt", some [1], str "10.0.0.7", str "pc"⟩ (by decide)⟩

/-! ## C18-C20: the session on both sides -/

theorem json.decode_nil_ne_ok (v : FileInfo) (rest : Str) :
    json.Decode [] ≠ json.DecodeResult.ok v rest := by
  intro h
  have e : json.Decode [] = json.DecodeResult.eof := rfl
  rw [e] at h
  cases h

/-- C18. When the pattern distribution fails, no record is transferred. On
the agent, when `getPathPatternsFromServer` returns an error the session
returns at once: the discovery pass is not run and the connection carries no
record more than before. On the collector, when `encoder.Encode(patterns)`
fails `handleClient` returns before its receive loop: `saveFile` is never
called and the file system is unchanged, whatever the peer sends. -/
theorem no_record_transferred_when_patterns_fail :
    (∀ (lower : Char → Char) (config : Config) (tree : Str → Option Entry)
      (homeDir : Option Str) (localIP hostname fromServer : Str) (conn : Conn),
      getPathPatternsFromServer fromServer = none →
      agentSession lower config tree homeDir localIP hostname fromServer conn =
        (AgentEnd.patternsError, conn)) ∧
    (∀ (wd : Str) (clock : Nat → Time) (input : Str) (fs : FS),
      handleClient wd clock false input fs = some ⟨SessionEnd.patternsNotSent, [], fs⟩) := by
  constructor
  · intro lower config tree homeDir localIP hostname fromServer conn h
    unfold agentSession
    rw [h]
  · intro wd clock input fs
    rfl

/-- Witness for `no_record_transferred_when_patterns_fail` (C18): the
collector closes the connection after an unfinished pattern list. -/
theorem no_record_transferred_when_patterns_fail_witness :
    getPathPatternsFromServer (str "[\"tugas\",") = none ∧
    agentSession strings.asciiLower ⟨str "10.0.0.1", str "/home/u", true, true, true⟩
        (fun _ => some (Entry.dir (str "u") true [Entry.file (str "tugas.py") (some [1])]))
        (some (str "/home/u")) (str "10.0.0.7") (str "pc") (str "[\"tugas\",") ⟨[], none⟩ =
      (AgentEnd.patternsError, ⟨[], none⟩) :=
  ⟨by decide, no_record_transferred_when_patterns_fail.1 _ _ _ _ _ _ _ _ (by decide)⟩

/-- C19. (1) When the decoder reports the records `rs` and then `io.EOF`,
`handleClient` calls `saveFile` for exactly the records `rs`, in their order,
the `k`-th call at the instant `clock k` and on the file system that the
calls before it left, whether they returned an error or not; it makes no
call after them and ends without error. (2) When the decoder reports the
records `rs` and then another error, the calls are the same and the session
ends as an error. (3) On every input the decoder comes to such an end, and
`handleClient` returns what the loop does on its reports. -/
theorem handleClient_saves_decoded_records_in_order (wd : Str) (clock : Nat → Time) (fs : FS) :
    (∀ rs : List FileInfo,
      receiveLoop wd clock (Incoming.after rs Incoming.eof) fs [] =
          ⟨SessionEnd.closedClean, (saveAll wd clock 0 fs rs).1, (saveAll wd clock 0 fs rs).2⟩ ∧
        (saveAll wd clock 0 fs rs).1.map (fun c => c.fileInfo) = rs) ∧
    (∀ rs : List FileInfo,
      receiveLoop wd clock (Incoming.after rs Incoming.error) fs [] =
          ⟨SessionEnd.closedError, (saveAll wd clock 0 fs rs).1, (saveAll wd clock 0 fs rs).2⟩ ∧
        (saveAll wd clock 0 fs rs).1.map (fun c => c.fileInfo) = rs) ∧
    (∀ input : Str, ∃ (rs : List FileInfo) (last : Incoming),
      (last = Incoming.eof ∨ last = Incoming.error) ∧
      json.incoming (input.length + 1) input = some (Incoming.after rs last) ∧
      handleClient wd clock true input fs =
        some (receiveLoop wd clock (Incoming.after rs last) fs [])) := by
  refine ⟨fun rs => ⟨?_, saveAll_fileInfo wd clock rs 0 fs⟩,
    fun rs => ⟨?_, saveAll_fileInfo wd clock rs 0 fs⟩, fun input => ?_⟩
  · rw [receiveLoop_eq, Incoming.records_after, Incoming.ending_after]
    simp [Incoming.records, Incoming.ending]
  · rw [receiveLoop_eq, Incoming.records_after, Incoming.ending_after]
    simp [Incoming.records, Incoming.ending]
  · obtain ⟨inc, h1, h2⟩ := handleClient_isSome wd clock input fs
    obtain ⟨rs, last, hl, he⟩ := Incoming.eq_after inc
    subst he
    exact ⟨rs, last, hl, h1, h2⟩

set_option maxRecDepth 100000 in
/-- Witness for `handleClient_saves_decoded_records_in_order` (C19): three
records arrive whole and the connection drops inside the fourth, so that the
decoder reports an error after them; the three records are saved, in order,
and the session ends as an error. The same on the wire: the text of two
records followed by the beginning of a third. -/
theorem handleClient_saves_decoded_records_in_order_witness :
    (receiveLoop (str "/srv") (fun k => ⟨2024, 1, 2, 3, 4, k, 0⟩)
        (Incoming.after [⟨str "a.txt", some [1], str "10.0.0.7", str "pc"⟩,
          ⟨str "b", none, str "10.0.0.7", str "pc"⟩,
          ⟨str "c.txt", some [], str "10.0.0.7", str "pc"⟩] Incoming.error) ⟨[], []⟩ []).saves.map
        (fun c => c.fileInfo) =
      [⟨str "a.txt", some [1], str "10.0.0.7", str "pc"⟩,
        ⟨str "b", none, str "10.0.0.7", str "pc"⟩,
        ⟨str "c.txt", some [], str "10.0.0.7", str "pc"⟩] ∧
    (receiveLoop (str "/srv") (fun k => ⟨2024, 1, 2, 3, 4, k, 0⟩)
        (Incoming.after [⟨str "a.txt", some [1], str "10.0.0.7", str "pc"⟩,
          ⟨str "b", none, str "10.0.0.7", str "pc"⟩,
          ⟨str "c.txt", some [], str "10.0.0.7", str "pc"⟩] Incoming.error) ⟨[], []⟩ []).ending =
      SessionEnd.closedError ∧
    handleClient (str "/srv") (fun k => ⟨2024, 1, 2, 3, 4, k, 0⟩) true
        (encodeAll [⟨str "a.txt", some [1], str "10.0.0.7", str "pc"⟩,
            ⟨str "b", none, str "10.0.0.7", str "pc"⟩] ++ str "\x7b\"RelativePath\":\"c")
        ⟨[], []⟩ =
      some (receiveLoop (str "/srv") (fun k => ⟨2024, 1, 2, 3, 4, k, 0⟩)
        (Incoming.after [⟨str "a.txt", some [1], str "10.0.0.7", str "pc"⟩,
          ⟨str "b", none, str "10.0.0.7", str "pc"⟩] Incoming.error) ⟨[], []⟩ []) := by
  have h := (handleClient_saves_decoded_records_in_order (str "/srv")
    (fun k => ⟨2024, 1, 2, 3, 4, k, 0⟩) ⟨[], []⟩).2.1
    [⟨str "a.txt", some [1], str "10.0.0.7", str "pc"⟩,
      ⟨str "b", none, str "10.0.0.7", str "pc"⟩,
      ⟨str "c.txt", some [], str "10.0.0.7", str "pc"⟩]
  refine ⟨?_, ?_, ?_⟩
  · rw [h.1]
    exact h.2
  · rw [h.1]
  · have e : json.Decode (str "\x7b\"RelativePath\":\"c") = json.DecodeResult.error := by
      decide
    unfold handleClient
    rw [if_neg (by decide), json.incoming_encodeAll _
      (by intro v rest hh; rw [e] at hh; cases hh) _ _ (Nat.lt_succ_self _), e]
    rfl

/-- C20. When `saveFile` returns an error for a record `r` that the decoder
reports after the records `pre`, the failed call writes no file, and the
receive loop goes on: `saveFile` is still called for every record that the
decoder reports after `r`, in order, and the session ends as the last report
says. -/
theorem receive_loop_continues_after_save_error (wd : Str) (clock : Nat → Time) (fs : FS)
    (pre : List FileInfo) (r : FileInfo) (next : Incoming)
    (hfail : (saveFile wd (clock pre.length) (saveAll wd clock 0 fs pre).2 r).1 ≠ none) :
    (saveFile wd (clock pre.length) (saveAll wd clock 0 fs pre).2 r).2.files =
        (saveAll wd clock 0 fs pre).2.files ∧
      (receiveLoop wd clock (Incoming.after pre (Incoming.record r next)) fs []).saves.map
          (fun c => c.fileInfo) = pre ++ r :: next.records ∧
      (receiveLoop wd clock (Incoming.after pre (Incoming.record r next)) fs []).ending =
        next.ending := by
  refine ⟨saveFile_error_files wd _ _ r hfail, ?_, ?_⟩
  · rw [receiveLoop_eq]
    simp only [List.nil_append, List.length_nil, saveAll_fileInfo, Incoming.records_after,
      Incoming.records]
  · rw [receiveLoop_eq, Incoming.ending_after]
    rfl

set_option maxRecDepth 100000 in
/-- Witness for `receive_loop_continues_after_save_error` (C20): the second
of three records is rejected by the security check. -/
theorem receive_loop_continues_after_save_error_witness :
    (saveFile (str "/srv") ⟨2024, 1, 2, 3, 4, 1, 0⟩
        (saveAll (str "/srv") (fun k => ⟨2024, 1, 2, 3, 4, k, 0⟩) 0 ⟨[], []⟩
          [⟨str "a.txt", some [1], str "10.0.0.7", str "pc"⟩]).2
        ⟨str "../../x", some [2], str "10.0.0.7", str "pc"⟩).2.files =
      (saveAll (str "/srv") (fun k => ⟨2024, 1, 2, 3, 4, k, 0⟩) 0 ⟨[], []⟩
          [⟨str "a.txt", some [1], str "10.0.0.7", str "pc"⟩]).2.files ∧
    (receiveLoop (str "/srv") (fun k => ⟨2024, 1, 2, 3, 4, k, 0⟩)
        (Incoming.after [⟨str "a.txt", some [1], str "10.0.0.7", str "pc"⟩]
          (Incoming.record ⟨str "../../x", some [2], str "10.0.0.7", str "pc"⟩
            (Incoming.record ⟨str "c.txt", some [3], str "10.0.0.7", str "pc"⟩ Incoming.eof)))
        ⟨[], []⟩ []).saves.map (fun c => c.fileInfo) =
      [⟨str "a.txt", some [1], str "10.0.0.7", str "pc"⟩] ++
        ⟨str "../../x", some [2], str "10.0.0.7", str "pc"⟩ ::
          (Incoming.record ⟨str "c.txt", some [3], str "10.0.0.7", str "pc"⟩
            Incoming.eof).records ∧
    (receiveLoop (str "/srv") (fun k => ⟨2024, 1, 2, 3, 4, k, 0⟩)
        (Incoming.after [⟨str "a.txt", some [1], str "10.0.0.7", str "pc"⟩]
          (Incoming.record ⟨str "../../x", some [2], str "10.0.0.7", str "pc"⟩
            (Incoming.record ⟨str "c.txt", some [3], str "10.0.0.7", str "pc"⟩ Incoming.eof)))
        ⟨[], []⟩ []).ending =
      (Incoming.record ⟨str "c.txt", some [3], str "10.0.0.7", str "pc"⟩ Incoming.eof).ending :=
  receive_loop_continues_after_save_error (str "/srv") (fun k => ⟨2024, 1, 2, 3, 4, k, 0⟩)
    ⟨[], []⟩ [⟨str "a.txt", some [1], str "10.0.0.7", str "pc"⟩]
    ⟨str "../../x", some [2], str "10.0.0.7", str "pc"⟩
    (Incoming.record ⟨str "c.txt", some [3], str "10.0.0.7", str "pc"⟩ Incoming.eof) (by decide)

/-! ## C12-C15: where a record is stored -/

set_option maxRecDepth 100000 in
/-- C12 (evaluation at the failing input). The folder marker
`Project/Struktur Data 1` (nil content) is accepted, `saveFile` returns nil
and creates no regular file, yet no directory exists at the destination
path afterwards: `os.MkdirAll` is called on the parent of the destination,
so only `Project` is created. -/
theorem saveFile_marker_creates_only_parent :
    (saveFile (str "/srv") ⟨2024, 1, 2, 3, 4, 5, 0⟩ ⟨[str "/srv"], []⟩
        ⟨str "Project/Struktur Data 1", none, str "10.0.0.7", str "pc"⟩) =
      (none, ⟨[str "/srv", str "/srv/received_files",
          str "/srv/received_files/pc_10_0_0_7_2024_01_02___03_04",
          str "/srv/received_files/pc_10_0_0_7_2024_01_02___03_04/Project"], []⟩) ∧
    filepath.Abs (str "/srv")
        (fullPath ⟨str "Project/Struktur Data 1", none, str "10.0.0.7", str "pc"⟩
          ⟨2024, 1, 2, 3, 4, 5, 0⟩) =
      str "/srv/received_files/pc_10_0_0_7_2024_01_02___03_04/Project/Struktur Data 1" ∧
    os.isDir (saveFile (str "/srv") ⟨2024, 1, 2, 3, 4, 5, 0⟩ ⟨[str "/srv"], []⟩
        ⟨str "Project/Struktur Data 1", none, str "10.0.0.7", str "pc"⟩).2
      (str "/srv/received_files/pc_10_0_0_7_2024_01_02___03_04/Project/Struktur Data 1") =
      false := by
  decide

set_option maxRecDepth 100000 in
/-- C13 (evaluation at the failing input). For the host identity `lab/../pc`
the plain relative path `a.txt` is stored at
`received_files/pc_10_0_0_7_2024_01_02___03_04/a.txt`, which is not the
layout string built from base directory, sanitised host, sanitised address,
timestamp and relative path: the client directory name keeps the separators
of the host identity, and `filepath.Join` cleans it. -/
theorem fullPath_differs_from_layout_for_host_with_separator :
    fullPath ⟨str "a.txt", some [1], str "10.0.0.7", str "lab/../pc"⟩ ⟨2024, 1, 2, 3, 4, 5, 0⟩ =
      str "received_files/pc_10_0_0_7_2024_01_02___03_04/a.txt" ∧
    BASE_DIR ++ str "/" ++ (strings.ReplaceAll (str "lab/../pc") (str " ") (str "_") ++ str "_" ++
        strings.ReplaceAll (str "10.0.0.7") (str ".") (str "_") ++ str "_" ++
        time.Format_2006_01_02___15_04 ⟨2024, 1, 2, 3, 4, 5, 0⟩) ++ str "/" ++ str "a.txt" =
      str "received_files/lab/../pc_10_0_0_7_2024_01_02___03_04/a.txt" := by
  decide

/-- When neither the host identity nor the origin address contains a path
separator, then for every relative path whose elements are all plain names
(none empty, `.` or `..`; so the path is not absolute) the destination is
exactly `<base_dir>/<host with spaces replaced by _>_<address with dots
replaced by _>_<timestamp>/<relative_path>`. -/
theorem fullPath_layout (fi : FileInfo) (now : Time)
    (hU : filepath.Separator ∉ fi.Username) (hI : filepath.Separator ∉ fi.ClientIP)
    (hrel : ∀ e ∈ filepath.elements fi.RelativePath, filepath.IsName e) :
    fullPath fi now =
      BASE_DIR ++ str "/" ++ (strings.ReplaceAll fi.Username (str " ") (str "_") ++ str "_" ++
        strings.ReplaceAll fi.ClientIP (str ".") (str "_") ++ str "_" ++
        time.Format_2006_01_02___15_04 now) ++ str "/" ++ fi.RelativePath := by
  have hnames : ∀ e ∈ filepath.elements fi.RelativePath,
      filepath.IsName e ∧ filepath.Separator ∉ e :=
    fun e he => ⟨hrel e he, filepath.not_mem_of_mem_elements _ e he⟩
  have hclean : filepath.Clean fi.RelativePath = fi.RelativePath := by
    have := filepath.clean_intercalate_names _ (filepath.elements_ne_nil fi.RelativePath) hnames
    rwa [filepath.intercalate_elements] at this
  have hall : ∀ e ∈ BASE_DIR :: clientDirName fi now :: filepath.elements fi.RelativePath,
      filepath.IsName e ∧ filepath.Separator ∉ e := by
    intro e he
    rcases List.mem_cons.1 he with h | he
    · rw [h]; exact ⟨isName_BASE_DIR, by decide⟩
    rcases List.mem_cons.1 he with h | he
    · rw [h]
      exact ⟨isName_clientDirName fi now, separator_not_mem_clientDirName fi now hU hI⟩
    · exact hnames e he
  have hcl := filepath.clean_intercalate_names _ (by simp) hall
  obtain ⟨x, xs, hx⟩ := List.exists_cons_of_ne_nil (filepath.elements_ne_nil fi.RelativePath)
  have hi : [filepath.Separator].intercalate
      (BASE_DIR :: clientDirName fi now :: filepath.elements fi.RelativePath) =
      BASE_DIR ++ filepath.Separator :: (clientDirName fi now ++
        filepath.Separator :: fi.RelativePath) := by
    conv_rhs => rw [← filepath.intercalate_elements fi.RelativePath]
    rw [hx, filepath.intercalate_cons_cons, filepath.intercalate_cons_cons]
    simp
  rw [hi] at hcl
  rw [fullPath_eq, hclean, hcl]
  show _ = BASE_DIR ++ str "/" ++ clientDirName fi now ++ str "/" ++ fi.RelativePath
  simp [str, filepath.Separator]

set_option maxRecDepth 100000 in
/-- C14 (evaluation at the failing input). For the host identity `a/b` the
client directory name is `a/b_10_0_0_7_2024_01_02___03_04`: it contains the
path separator, and the record `x.txt` is stored two directory levels below
the base directory, in `received_files/a/b_10_0_0_7_2024_01_02___03_04`. -/
theorem clientDirName_keeps_separator_of_host :
    clientDirName ⟨str "x.txt", some [1], str "10.0.0.7", str "a/b"⟩ ⟨2024, 1, 2, 3, 4, 5, 0⟩ =
      str "a/b_10_0_0_7_2024_01_02___03_04" ∧
    filepath.Separator ∈
      clientDirName ⟨str "x.txt", some [1], str "10.0.0.7", str "a/b"⟩ ⟨2024, 1, 2, 3, 4, 5, 0⟩ ∧
    fullPath ⟨str "x.txt", some [1], str "10.0.0.7", str "a/b"⟩ ⟨2024, 1, 2, 3, 4, 5, 0⟩ =
      str "received_files/a/b_10_0_0_7_2024_01_02___03_04/x.txt" := by
  decide

/-! ## C15 and C11: which records share a client root -/

theorem strings.replaceAll_char_of_not_mem (s : Str) (o n : Char) (h : o ∉ s) :
    strings.ReplaceAll s [o] [n] = s := by
  rw [strings.replaceAll_char]
  conv_rhs => rw [← List.map_id s]
  apply List.map_congr_left
  intro c hc
  have : c ≠ o := fun e => h (e ▸ hc)
  simp [this]

theorem strings.replaceAll_char_inj (o n : Char) :
    ∀ (s t : Str), n ∉ s → n ∉ t →
      strings.ReplaceAll s [o] [n] = strings.ReplaceAll t [o] [n] → s = t := by
  intro s t hs ht h
  rw [strings.replaceAll_char, strings.replaceAll_char] at h
  induction s generalizing t with
  | nil =>
    cases t with
    | nil => rfl
    | cons d t => simp at h
  | cons c s ih =>
    cases t with
    | nil => simp at h
    | cons d t =>
      simp only [List.map_cons, List.cons.injEq] at h
      have hc : c ≠ n := fun e => hs (e ▸ List.mem_cons_self _ _)
      have hd : d ≠ n := fun e => ht (e ▸ List.mem_cons_self _ _)
      have hcd : c = d := by
        have h1 := h.1
        by_cases h2 : c = o
        · by_cases h3 : d = o
          · rw [h2, h3]
          · rw [if_pos h2, if_neg h3] at h1
            exact absurd h1.symm hd
        · by_cases h3 : d = o
          · rw [if_neg h2, if_pos h3] at h1
            exact absurd h1 hc
          · rw [if_neg h2, if_neg h3] at h1
            exact h1
      rw [hcd, ih t (fun m => hs (List.mem_cons_of_mem _ m))
        (fun m => ht (List.mem_cons_of_mem _ m)) h.2]

/-- The client root of a record whose host identity and origin address hold no
separator is the base directory, a separator and the client directory name. -/
theorem clientRoot_of_no_separator (fi : FileInfo) (now : Time)
    (hU : filepath.Separator ∉ fi.Username) (hI : filepath.Separator ∉ fi.ClientIP) :
    clientRoot fi now = BASE_DIR ++ filepath.Separator :: clientDirName fi now := by
  have hall : ∀ e ∈ [BASE_DIR, clientDirName fi now],
      filepath.IsName e ∧ filepath.Separator ∉ e := by
    intro e he
    rcases List.mem_cons.1 he with h | he
    · rw [h]; exact ⟨isName_BASE_DIR, by decide⟩
    · rw [List.mem_singleton.1 he]
      exact ⟨isName_clientDirName fi now, separator_not_mem_clientDirName fi now hU hI⟩
  have hcl := filepath.clean_intercalate_names _ (by simp) hall
  rw [filepath.intercalate_cons_cons, filepath.intercalate_singleton] at hcl
  rw [clientRoot_eq]
  simpa using hcl

set_option maxRecDepth 100000 in
/-- C15 (counterexample). At one and the same instant, the hosts `lab pc` and
`lab_pc` with the same address get the same client root, and so do host `pc`
with address `10.0.0.7` and host `pc_10` with address `0.0.7`. -/
theorem different_clients_share_clientRoot :
    clientRoot ⟨str "a.txt", some [1], str "10.0.0.7", str "lab pc"⟩ ⟨2024, 1, 2, 3, 4, 5, 0⟩ =
      clientRoot ⟨str "a.txt", some [1], str "10.0.0.7", str "lab_pc"⟩
        ⟨2024, 1, 2, 3, 4, 5, 0⟩ ∧
    clientRoot ⟨str "a.txt", some [1], str "10.0.0.7", str "pc"⟩ ⟨2024, 1, 2, 3, 4, 5, 0⟩ =
      clientRoot ⟨str "a.txt", some [1], str "0.0.7", str "pc_10"⟩ ⟨2024, 1, 2, 3, 4, 5, 0⟩ ∧
    (str "lab pc", str "10.0.0.7") ≠ (str "lab_pc", str "10.0.0.7") ∧
    (str "pc", str "10.0.0.7") ≠ (str "pc_10", str "0.0.7") := by
  decide

/-- C15 (amended). When the host identities contain no space, underscore or
path separator and the origin addresses contain no underscore or path
separator, two records whose (host, address) pairs differ get different
client roots at the same timestamp. -/
theorem clientRoot_ne_of_client_ne (r1 r2 : FileInfo) (t1 t2 : Time)
    (hts : time.Format_2006_01_02___15_04 t1 = time.Format_2006_01_02___15_04 t2)
    (hU1 : ' ' ∉ r1.Username ∧ '_' ∉ r1.Username ∧ filepath.Separator ∉ r1.Username)
    (hU2 : ' ' ∉ r2.Username ∧ '_' ∉ r2.Username ∧ filepath.Separator ∉ r2.Username)
    (hI1 : '_' ∉ r1.ClientIP ∧ filepath.Separator ∉ r1.ClientIP)
    (hI2 : '_' ∉ r2.ClientIP ∧ filepath.Separator ∉ r2.ClientIP)
    (hne : (r1.Username, r1.ClientIP) ≠ (r2.Username, r2.ClientIP)) :
    clientRoot r1 t1 ≠ clientRoot r2 t2 := by
  intro h
  rw [clientRoot_of_no_separator r1 t1 hU1.2.2 hI1.2,
    clientRoot_of_no_separator r2 t2 hU2.2.2 hI2.2] at h
  have h1 := List.cons.inj (List.append_cancel_left h)
  have h2 := h1.2
  rw [clientDirName_eq, clientDirName_eq,
    strings.replaceAll_char_of_not_mem _ _ _ hU1.1,
    strings.replaceAll_char_of_not_mem _ _ _ hU2.1] at h2
  obtain ⟨h3, h4⟩ := split_at_first _ _ _ _ _ hU1.2.1 hU2.2.1 h2
  rw [hts] at h4
  have h5 := strings.replaceAll_char_inj _ _ _ _ hI1.1 hI2.1 (List.append_cancel_right h4)
  exact hne (by rw [h3, h5])

/-- Witness for `clientRoot_ne_of_client_ne` (C15): two hosts at one instant. -/
theorem clientRoot_ne_of_client_ne_witness :
    clientRoot ⟨str "a.txt", some [1], str "10.0.0.7", str "lab-pc-1"⟩
        ⟨2024, 1, 2, 3, 4, 5, 0⟩ ≠
      clientRoot ⟨str "a.txt", some [1], str "10.0.0.8", str "lab-pc-2"⟩
        ⟨2024, 1, 2, 3, 4, 5, 0⟩ :=
  clientRoot_ne_of_client_ne ⟨str "a.txt", some [1], str "10.0.0.7", str "lab-pc-1"⟩
    ⟨str "a.txt", some [1], str "10.0.0.8", str "lab-pc-2"⟩ ⟨2024, 1, 2, 3, 4, 5, 0⟩
    ⟨2024, 1, 2, 3, 4, 5, 0⟩ rfl (by decide) (by decide) (by decide) (by decide) (by decide)

theorem clientRoot_eq_iff_of_same_client (r1 r2 : FileInfo) (t1 t2 : Time)
    (hu : r1.Username = r2.Username) (hi : r1.ClientIP = r2.ClientIP) :
    clientRoot r1 t1 = clientRoot r2 t2 ↔ sameMinute t1 t2 := by
  obtain ⟨rel1, c1, ip1, host1⟩ := r1
  obtain ⟨rel2, c2, ip2, host2⟩ := r2
  simp only at hu hi
  subst hu hi
  obtain ⟨P, hP⟩ := clientRoot_shape ip1 host1
  rw [hP, hP, ← time.format_eq_iff]
  constructor
  · intro h
    have := List.append_cancel_left h
    simpa using this
  · intro h; rw [h]

set_option maxRecDepth 100000 in
/-- C11 (counterexample). One connection from host `pc` and address
`10.0.0.7` sends `a.txt` and `b.txt`; the first is saved at 03:04:59, the
second at 03:05:00. The two files are stored under two client roots, the one
named after minute 03:04 and the other after minute 03:05. -/
theorem session_records_stored_under_two_clientRoots :
    handleClient (str "/srv")
        (fun k => if k = 0 then ⟨2024, 1, 2, 3, 4, 59, 0⟩ else ⟨2024, 1, 2, 3, 5, 0, 0⟩) true
        (encodeAll [⟨str "a.txt", some [1], str "10.0.0.7", str "pc"⟩,
          ⟨str "b.txt", some [2], str "10.0.0.7", str "pc"⟩]) ⟨[str "/srv"], []⟩ =
      some ⟨SessionEnd.closedClean,
        [⟨⟨str "a.txt", some [1], str "10.0.0.7", str "pc"⟩, ⟨2024, 1, 2, 3, 4, 59, 0⟩, none⟩,
          ⟨⟨str "b.txt", some [2], str "10.0.0.7", str "pc"⟩, ⟨2024, 1, 2, 3, 5, 0, 0⟩, none⟩],
        ⟨[str "/srv", str "/srv/received_files",
            str "/srv/received_files/pc_10_0_0_7_2024_01_02___03_04",
            str "/srv/received_files/pc_10_0_0_7_2024_01_02___03_05"],
          [(str "/srv/received_files/pc_10_0_0_7_2024_01_02___03_04/a.txt", [1]),
            (str "/srv/received_files/pc_10_0_0_7_2024_01_02___03_05/b.txt", [2])]⟩⟩ := by
  have h := handleClient_encodeAll (str "/srv")
    (fun k => if k = 0 then ⟨2024, 1, 2, 3, 4, 59, 0⟩ else ⟨2024, 1, 2, 3, 5, 0, 0⟩)
    [⟨str "a.txt", some [1], str "10.0.0.7", str "pc"⟩,
      ⟨str "b.txt", some [2], str "10.0.0.7", str "pc"⟩] [] ⟨[str "/srv"], []⟩
    json.decode_nil_ne_ok
  rw [List.append_nil] at h
  rw [h]
  decide

/-- C11 (amended). The timestamp is read at each save, not at the start of the
session: whatever records the decoder reports on a connection, the `k`-th of
them is saved with the time `clock k` of its own call of `saveFile`, and two
records of the connection with the same host identity and origin address are
stored under the same client root exactly when their saves fall in the same
calendar minute. -/
theorem session_records_share_clientRoot_iff_sameMinute (wd : Str) (clock : Nat → Time)
    (fs : FS) (inc : Incoming) :
    (receiveLoop wd clock inc fs []).saves.map (fun c => c.fileInfo) = inc.records ∧
      (receiveLoop wd clock inc fs []).saves.map (fun c => c.now) =
        (List.range inc.records.length).map clock ∧
      ∀ c1 ∈ (receiveLoop wd clock inc fs []).saves, ∀ c2 ∈ (receiveLoop wd clock inc fs []).saves,
        c1.fileInfo.Username = c2.fileInfo.Username →
        c1.fileInfo.ClientIP = c2.fileInfo.ClientIP →
        (clientRoot c1.fileInfo c1.now = clientRoot c2.fileInfo c2.now ↔
          sameMinute c1.now c2.now) := by
  rw [receiveLoop_eq]
  refine ⟨by simp [saveAll_fileInfo], ?_, ?_⟩
  · have := saveAll_now wd clock inc.records 0 fs
    simpa using this
  · intro c1 _ c2 _ hu hi
    exact clientRoot_eq_iff_of_same_client _ _ _ _ hu hi

/-- Witness for `session_records_share_clientRoot_iff_sameMinute` (C11): the
two records of the counterexample, saved at 03:04:59 and at 03:05:00. -/
theorem session_records_share_clientRoot_iff_sameMinute_witness :
    (receiveLoop (str "/srv")
        (fun k => if k = 0 then ⟨2024, 1, 2, 3, 4, 59, 0⟩ else ⟨2024, 1, 2, 3, 5, 0, 0⟩)
        (Incoming.record ⟨str "a.txt", some [1], str "10.0.0.7", str "pc"⟩
          (Incoming.record ⟨str "b.txt", some [2], str "10.0.0.7", str "pc"⟩ Incoming.eof))
        ⟨[str "/srv"], []⟩ []).saves.map (fun c => c.now) =
      [⟨2024, 1, 2, 3, 4, 59, 0⟩, ⟨2024, 1, 2, 3, 5, 0, 0⟩] :=
  (session_records_share_clientRoot_iff_sameMinute (str "/srv")
    (fun k => if k = 0 then ⟨2024, 1, 2, 3, 4, 59, 0⟩ else ⟨2024, 1, 2, 3, 5, 0, 0⟩)
    ⟨[str "/srv"], []⟩
    (Incoming.record ⟨str "a.txt", some [1], str "10.0.0.7", str "pc"⟩
      (Incoming.record ⟨str "b.txt", some [2], str "10.0.0.7", str "pc"⟩
        Incoming.eof))).2.1.trans (by decide)

/-! ## C17: the extension filter -/

theorem secondPass_eq_run (lower : Char → Char) (config : Config) (rootPath : Str)
    (patterns matchedFolders : List Str) (hostname localIP : Str) (path : Str)
    (info : Option Entry) (err : Bool) (conn : Conn) :
    secondPass lower config rootPath patterns matchedFolders hostname localIP path info err conn =
      (secondPassStep lower config rootPath patterns matchedFolders hostname localIP path info
        err).run conn := by
  unfold secondPass secondPassStep
  dsimp only
  repeat' split
  all_goals first | rfl | simp_all [Step.run]

namespace filepath

theorem walk_file {σ : Type} (fn : WalkFunc σ) (path n : Str) (c : Option (List UInt8)) (s : σ) :
    walk fn path (.file n c) s = fn path (some (.file n c)) false s := by
  rw [walk]

theorem walk_dir {σ : Type} (fn : WalkFunc σ) (path n : Str) (l : Bool) (ch : List Entry)
    (s : σ) :
    walk fn path (.dir n l ch) s =
      if !l || (fn path (some (.dir n l ch)) (!l) s).1.isSome then
        fn path (some (.dir n l ch)) (!l) s
      else walkNames fn path ch (fn path (some (.dir n l ch)) (!l) s).2 := by
  rw [walk]

theorem walkNames_nil {σ : Type} (fn : WalkFunc σ) (path : Str) (s : σ) :
    walkNames fn path [] s = (none, s) := by
  rw [walkNames]

theorem walkNames_cons_none {σ : Type} (fn : WalkFunc σ) (path : Str) (e : Entry)
    (rest : List Entry) (s : σ) (h : (walk fn (Join [path, e.name]) e s).1 = none) :
    walkNames fn path (e :: rest) s =
      walkNames fn path rest (walk fn (Join [path, e.name]) e s).2 := by
  rw [walkNames]
  generalize walk fn (Join [path, e.name]) e s = w at h ⊢
  obtain ⟨w1, w2⟩ := w
  simp only at h
  subst h
  rfl

theorem walkNames_cons_some {σ : Type} (fn : WalkFunc σ) (path : Str) (e : Entry)
    (rest : List Entry) (s : σ) (err : WalkError)
    (h : (walk fn (Join [path, e.name]) e s).1 = some err) :
    walkNames fn path (e :: rest) s =
      if !e.IsDir || err != WalkError.SkipDir then
        (some err, (walk fn (Join [path, e.name]) e s).2)
      else walkNames fn path rest (walk fn (Join [path, e.name]) e s).2 := by
  rw [walkNames]
  generalize walk fn (Join [path, e.name]) e s = w at h ⊢
  obtain ⟨w1, w2⟩ := w
  simp only at h
  subst h
  rfl

end filepath

theorem secondPassStep_filter_valid (lower : Char → Char) (c : Config) (b : Bool) (rootPath : Str)
    (patterns matchedFolders : List Str) (hostname localIP : Str) (p : Str)
    (i : Option Entry) (e : Bool) (hv : isValidExtension lower p = true) :
    secondPassStep lower { c with FilterExts := b } rootPath patterns matchedFolders hostname
        localIP p i e =
      secondPassStep lower c rootPath patterns matchedFolders hostname localIP p i e := by
  unfold secondPassStep
  simp only [hv, Bool.not_true, Bool.and_false]

theorem secondPassStep_filter_dir (lower : Char → Char) (c : Config) (b : Bool) (rootPath : Str)
    (patterns matchedFolders : List Str) (hostname localIP : Str) (p : Str)
    (i : Option Entry) (e : Bool) (hd : ∀ n content, i ≠ some (.file n content)) :
    secondPassStep lower { c with FilterExts := b } rootPath patterns matchedFolders hostname
        localIP p i e =
      secondPassStep lower c rootPath patterns matchedFolders hostname localIP p i e := by
  unfold secondPassStep
  cases i with
  | none => rfl
  | some info =>
    cases info with
    | file n content => exact absurd rfl (hd n content)
    | dir n l ch => simp [Entry.IsDir]

theorem secondPassStep_send (lower : Char → Char) (c : Config) (rootPath : Str)
    (patterns matchedFolders : List Str) (hostname localIP : Str) (p : Str)
    (i : Option Entry) (e : Bool) (r : FileInfo) (oe : WalkError)
    (h : secondPassStep lower c rootPath patterns matchedFolders hostname localIP p i e =
      .send r oe) :
    oe ≠ WalkError.SkipDir ∧
      ((∃ n content, i = some (.file n content)) ↔ r.Content.isNone = false) := by
  cases i with
  | none =>
    unfold secondPassStep at h
    dsimp only at h
    repeat' split at h
    all_goals cases h
  | some info =>
    cases info with
    | file n content =>
      unfold secondPassStep at h
      simp only [Entry.IsDir, Bool.false_eq_true, if_false] at h
      repeat' split at h
      all_goals cases h
      all_goals simp
    | dir n l ch =>
      unfold secondPassStep at h
      simp only [Entry.IsDir, if_true] at h
      repeat' split at h
      all_goals cases h
      all_goals simp

theorem secondPassStep_filter_invalid (lower : Char → Char) (c : Config) (rootPath : Str)
    (patterns matchedFolders : List Str) (hostname localIP : Str) (p : Str)
    (n : Str) (content : Option (List UInt8)) (e : Bool)
    (hv : isValidExtension lower p = false) :
    secondPassStep lower { c with FilterExts := true } rootPath patterns matchedFolders hostname
        localIP p (some (.file n content)) e =
      secondPassStep lower { c with FilterExts := false } rootPath patterns matchedFolders
        hostname localIP p (some (.file n content)) e ∧
      (∀ r oe, secondPassStep lower { c with FilterExts := false } rootPath patterns
        matchedFolders hostname localIP p (some (.file n content)) e ≠ .send r oe) ∨
    secondPassStep lower { c with FilterExts := true } rootPath patterns matchedFolders hostname
        localIP p (some (.file n content)) e = .done none ∧
      (secondPassStep lower { c with FilterExts := false } rootPath patterns matchedFolders
          hostname localIP p (some (.file n content)) e = .done none ∨
        secondPassStep lower { c with FilterExts := false } rootPath patterns matchedFolders
          hostname localIP p (some (.file n content)) e = .done (some WalkError.rel) ∨
        ∃ r oe, secondPassStep lower { c with FilterExts := false } rootPath patterns
          matchedFolders hostname localIP p (some (.file n content)) e = .send r oe) := by
  unfold secondPassStep
  simp only [hv, Entry.IsDir, Bool.not_false, Bool.and_true, Bool.false_and, Bool.false_eq_true,
    if_false]
  repeat' split
  all_goals simp_all

/-- How the decision with the extension filter stands to the decision without
it, at one entry. -/
theorem secondPassStep_filter_rel (lower : Char → Char) (c : Config) (rootPath : Str)
    (patterns matchedFolders : List Str) (hostname localIP : Str) (p : Str)
    (i : Option Entry) (e : Bool) :
    (∀ x, secondPassStep lower { c with FilterExts := false } rootPath patterns matchedFolders
        hostname localIP p i e = .done x →
      secondPassStep lower { c with FilterExts := true } rootPath patterns matchedFolders
          hostname localIP p i e = .done x ∨
        (x = some WalkError.rel ∧
          secondPassStep lower { c with FilterExts := true } rootPath patterns matchedFolders
            hostname localIP p i e = .done none)) ∧
    (∀ r oe, secondPassStep lower { c with FilterExts := false } rootPath patterns matchedFolders
        hostname localIP p i e = .send r oe →
      oe ≠ WalkError.SkipDir ∧
        ((passesFilter lower (p, r) = true ∧
          secondPassStep lower { c with FilterExts := true } rootPath patterns matchedFolders
            hostname localIP p i e = .send r oe) ∨
        (passesFilter lower (p, r) = false ∧
          secondPassStep lower { c with FilterExts := true } rootPath patterns matchedFolders
            hostname localIP p i e = .done none))) := by
  have hsame : (∀ n content, i ≠ some (.file n content)) ∨ isValidExtension lower p = true →
      secondPassStep lower { c with FilterExts := true } rootPath patterns matchedFolders
          hostname localIP p i e =
        secondPassStep lower { c with FilterExts := false } rootPath patterns matchedFolders
          hostname localIP p i e := by
    rintro (hd | hv)
    · rw [secondPassStep_filter_dir lower c true _ _ _ _ _ _ _ _ hd,
        secondPassStep_filter_dir lower c false _ _ _ _ _ _ _ _ hd]
    · rw [secondPassStep_filter_valid lower c true _ _ _ _ _ _ _ _ hv,
        secondPassStep_filter_valid lower c false _ _ _ _ _ _ _ _ hv]
  by_cases hcase : (∀ n content, i ≠ some (.file n content)) ∨ isValidExtension lower p = true
  · rw [hsame hcase]
    refine ⟨fun x hx => Or.inl hx, fun r oe hs => ?_⟩
    obtain ⟨h1, h2⟩ := secondPassStep_send _ _ _ _ _ _ _ _ _ _ _ _ hs
    refine ⟨h1, Or.inl ⟨?_, hs⟩⟩
    unfold passesFilter
    rcases hcase with hd | hv
    · have : ¬ r.Content.isNone = false := fun hn => by
        obtain ⟨n, content, hi⟩ := h2.2 hn
        exact hd n content hi
      have hn : r.Content.isNone = true := by
        cases hb : r.Content.isNone with
        | true => rfl
        | false => exact absurd hb this
      simp [hn]
    · simp [hv]
  · have hfile : ∃ n content, i = some (.file n content) := by
      by_contra hno
      exact hcase (Or.inl (fun n content hi => hno ⟨n, content, hi⟩))
    have hv : isValidExtension lower p = false := by
      cases hb : isValidExtension lower p with
      | false => rfl
      | true => exact absurd (Or.inr hb) hcase
    obtain ⟨n, content, hi⟩ := hfile
    subst hi
    rcases secondPassStep_filter_invalid lower c rootPath patterns matchedFolders hostname localIP
      p n content e hv with ⟨h1, h2⟩ | ⟨h1, h2⟩
    · rw [h1]
      exact ⟨fun x hx => Or.inl hx, fun r oe hs => absurd hs (h2 r oe)⟩
    · rw [h1]
      constructor
      · intro x hx
        rcases h2 with h | h | ⟨r, oe, h⟩
        · rw [h] at hx; exact Or.inl hx
        · rw [h] at hx
          exact Or.inr ⟨(Step.done.inj hx).symm, rfl⟩
        · rw [h] at hx; cases hx
      · intro r oe hs
        obtain ⟨h3, h4⟩ := secondPassStep_send _ _ _ _ _ _ _ _ _ _ _ _ hs
        refine ⟨h3, Or.inr ⟨?_, rfl⟩⟩
        unfold passesFilter
        have := h4.1 ⟨n, content, rfl⟩
        simp [this, hv]

theorem Conn.encode_cases (conn : Conn) (r : FileInfo) :
    (conn.Encode r = none ∧ conn.room = some 0) ∨
    (conn.Encode r = some ⟨conn.sent ++ [r], none⟩ ∧ conn.room = none) ∨
    (∃ k, conn.Encode r = some ⟨conn.sent ++ [r], some k⟩ ∧ conn.room = some (k + 1)) := by
  obtain ⟨sent, room⟩ := conn
  cases room with
  | none => exact Or.inr (Or.inl ⟨rfl, rfl⟩)
  | some k =>
    cases k with
    | zero => exact Or.inl ⟨rfl, rfl⟩
    | succ k => exact Or.inr (Or.inr ⟨k, rfl, rfl⟩)

/-- One entry of the walk: when the run without the filter goes on after it,
the run with the filter returns the same, and the two connections and the
list of emitted records stay related. -/
theorem step_sim (lower : Char → Char) (base : List FileInfo) (p : Str) (sOff sOn : Step)
    (h1 : ∀ x, sOff = .done x → sOn = .done x ∨ (x = some WalkError.rel ∧ sOn = .done none))
    (h2 : ∀ r oe, sOff = .send r oe → oe ≠ WalkError.SkipDir ∧
      ((passesFilter lower (p, r) = true ∧ sOn = .send r oe) ∨
        (passesFilter lower (p, r) = false ∧ sOn = .done none)))
    (cOff cOn : Conn) (log : List (Str × FileInfo)) (hinv : filterInv lower base cOff cOn log)
    (hsoft : soft (sOff.run cOff).1) :
    (sOn.run cOn).1 = (sOff.run cOff).1 ∧
      (sOff.run ⟨[], none⟩).1 = (sOff.run cOff).1 ∧
      filterInv lower base (sOff.run cOff).2 (sOn.run cOn).2
        (log ++ (sOff.run ⟨[], none⟩).2.sent.map (fun r => (p, r))) := by
  obtain ⟨i1, i2, i3⟩ := hinv
  cases sOff with
  | done x =>
    rcases h1 x rfl with h | ⟨hx, _⟩
    · subst h
      refine ⟨rfl, rfl, ?_⟩
      simp only [Step.run, List.map_nil, List.append_nil]
      exact ⟨i1, i2, i3⟩
    · subst hx
      rcases hsoft with h | h <;> cases h
  | send r oe =>
    obtain ⟨hoe, hon⟩ := h2 r oe rfl
    have hscratch : (Step.send r oe).run ⟨[], none⟩ = (none, ⟨[r], none⟩) := rfl
    rw [hscratch]
    rcases Conn.encode_cases cOff r with ⟨he, _⟩ | ⟨he, hr⟩ | ⟨k, he, hr⟩
    · have : ((Step.send r oe).run cOff).1 = some oe := by simp [Step.run, he]
      rw [this] at hsoft
      rcases hsoft with h | h
      · cases h
      · exact absurd (Option.some.inj h) hoe
    · have hoff : (Step.send r oe).run cOff = (none, ⟨cOff.sent ++ [r], none⟩) := by
        simp [Step.run, he]
      rw [hoff]
      rw [hr] at i3
      rcases hon with ⟨hp, h⟩ | ⟨hp, h⟩
      · subst h
        cases hro : cOn.room with
        | some k => rw [hro] at i3; exact absurd i3 (by simp [roomLe])
        | none =>
          have hon2 : (Step.send r oe).run cOn = (none, ⟨cOn.sent ++ [r], none⟩) := by
            obtain ⟨s, ro⟩ := cOn
            simp only at hro
            subst hro
            rfl
          rw [hon2]
          refine ⟨rfl, rfl, ?_, ?_, ?_⟩
          · simp [i1]
          · simp [i2, List.filter_append, hp]
          · simp [roomLe]
      · subst h
        refine ⟨rfl, rfl, ?_, ?_, ?_⟩
        · simp [i1]
        · simp [Step.run, i2, List.filter_append, hp]
        · simpa [Step.run] using i3
    · have hoff : (Step.send r oe).run cOff = (none, ⟨cOff.sent ++ [r], some k⟩) := by
        simp [Step.run, he]
      rw [hoff]
      rw [hr] at i3
      cases hro : cOn.room with
      | none => rw [hro] at i3; exact absurd i3 (by simp [roomLe])
      | some m =>
        rw [hro] at i3
        have hkm : k + 1 ≤ m := i3
        rcases hon with ⟨hp, h⟩ | ⟨hp, h⟩
        · subst h
          obtain ⟨m1, rfl⟩ : ∃ m1, m = m1 + 1 := ⟨m - 1, by omega⟩
          have hon2 : (Step.send r oe).run cOn = (none, ⟨cOn.sent ++ [r], some m1⟩) := by
            obtain ⟨s, ro⟩ := cOn
            simp only at hro
            subst hro
            rfl
          rw [hon2]
          refine ⟨rfl, rfl, ?_, ?_, ?_⟩
          · simp [i1]
          · simp [i2, List.filter_append, hp]
          · show k ≤ m1
            omega
        · subst h
          refine ⟨rfl, rfl, ?_, ?_, ?_⟩
          · simp [i1]
          · simp [Step.run, i2, List.filter_append, hp]
          · show roomLe (some k) cOn.room
            rw [hro]
            show k ≤ m
            omega

namespace filepath

mutual

/-- Three walks of one tree whose walk functions agree at every entry on the
result, as long as the first one goes on, agree on the result of the walk. -/
theorem walk_sim {σ1 σ2 σ3 : Type} (Inv : σ1 → σ2 → σ3 → Prop) (f1 : WalkFunc σ1)
    (f2 : WalkFunc σ2) (f3 : WalkFunc σ3)
    (hstep : ∀ p i e s1 s2 s3, Inv s1 s2 s3 → soft (f1 p i e s1).1 →
      (f2 p i e s2).1 = (f1 p i e s1).1 ∧ (f3 p i e s3).1 = (f1 p i e s1).1 ∧
        Inv (f1 p i e s1).2 (f2 p i e s2).2 (f3 p i e s3).2) :
    ∀ (entry : Entry) (path : Str) (s1 : σ1) (s2 : σ2) (s3 : σ3), Inv s1 s2 s3 →
      soft (walk f1 path entry s1).1 →
      (walk f2 path entry s2).1 = (walk f1 path entry s1).1 ∧
        (walk f3 path entry s3).1 = (walk f1 path entry s1).1 ∧
        Inv (walk f1 path entry s1).2 (walk f2 path entry s2).2 (walk f3 path entry s3).2
  | .file n c, path, s1, s2, s3, hinv, hsoft => by
    rw [walk_file] at hsoft
    rw [walk_file, walk_file, walk_file]
    exact hstep _ _ _ _ _ _ hinv hsoft
  | .dir n l ch, path, s1, s2, s3, hinv, hsoft => by
    rw [walk_dir] at hsoft
    rw [walk_dir f1, walk_dir f2, walk_dir f3]
    by_cases hc : (!l || (f1 path (some (.dir n l ch)) (!l) s1).1.isSome) = true
    · rw [if_pos hc] at hsoft
      obtain ⟨h2, h3, hi⟩ := hstep _ _ _ _ _ _ hinv hsoft
      simp only [h2, h3, if_pos hc]
      exact ⟨trivial, trivial, hi⟩
    · rw [if_neg hc] at hsoft
      have hnone : (f1 path (some (.dir n l ch)) (!l) s1).1 = none := by
        cases hx : (f1 path (some (.dir n l ch)) (!l) s1).1 with
        | none => rfl
        | some x => rw [hx] at hc; simp at hc
      obtain ⟨h2, h3, hi⟩ := hstep _ _ _ _ _ _ hinv (Or.inl hnone)
      simp only [h2, h3, if_neg hc]
      exact walkNames_sim Inv f1 f2 f3 hstep ch path _ _ _ hi hsoft

/-- The same for the loop over the entries of a directory. -/
theorem walkNames_sim {σ1 σ2 σ3 : Type} (Inv : σ1 → σ2 → σ3 → Prop) (f1 : WalkFunc σ1)
    (f2 : WalkFunc σ2) (f3 : WalkFunc σ3)
    (hstep : ∀ p i e s1 s2 s3, Inv s1 s2 s3 → soft (f1 p i e s1).1 →
      (f2 p i e s2).1 = (f1 p i e s1).1 ∧ (f3 p i e s3).1 = (f1 p i e s1).1 ∧
        Inv (f1 p i e s1).2 (f2 p i e s2).2 (f3 p i e s3).2) :
    ∀ (entries : List Entry) (path : Str) (s1 : σ1) (s2 : σ2) (s3 : σ3), Inv s1 s2 s3 →
      soft (walkNames f1 path entries s1).1 →
      (walkNames f2 path entries s2).1 = (walkNames f1 path entries s1).1 ∧
        (walkNames f3 path entries s3).1 = (walkNames f1 path entries s1).1 ∧
        Inv (walkNames f1 path entries s1).2 (walkNames f2 path entries s2).2
          (walkNames f3 path entries s3).2
  | [], path, s1, s2, s3, hinv, _ => by
    rw [walkNames_nil, walkNames_nil, walkNames_nil]
    exact ⟨rfl, rfl, hinv⟩
  | e :: rest, path, s1, s2, s3, hinv, hsoft => by
    cases hw : (walk f1 (Join [path, e.name]) e s1).1 with
    | none =>
      rw [walkNames_cons_none f1 _ _ _ _ hw] at hsoft ⊢
      obtain ⟨h2, h3, hi⟩ := walk_sim Inv f1 f2 f3 hstep e (Join [path, e.name]) s1 s2 s3 hinv
        (Or.inl hw)
      rw [walkNames_cons_none f2 _ _ _ _ (h2.trans hw),
        walkNames_cons_none f3 _ _ _ _ (h3.trans hw)]
      exact walkNames_sim Inv f1 f2 f3 hstep rest path _ _ _ hi hsoft
    | some err =>
      rw [walkNames_cons_some f1 _ _ _ _ err hw] at hsoft ⊢
      have herr : err = WalkError.SkipDir := by
        by_cases hc : (!e.IsDir || err != WalkError.SkipDir) = true
        · rw [if_pos hc] at hsoft
          rcases hsoft with h | h
          · cases h
          · exact Option.some.inj h
        · have : e.IsDir = true ∧ err = WalkError.SkipDir := by simpa using hc
          exact this.2
      obtain ⟨h2, h3, hi⟩ := walk_sim Inv f1 f2 f3 hstep e (Join [path, e.name]) s1 s2 s3 hinv
        (Or.inr (by rw [hw, herr]))
      rw [walkNames_cons_some f2 _ _ _ _ err (h2.trans hw),
        walkNames_cons_some f3 _ _ _ _ err (h3.trans hw)]
      by_cases hc : (!e.IsDir || err != WalkError.SkipDir) = true
      · simp only [if_pos hc]
        exact ⟨trivial, trivial, hi⟩
      · simp only [if_neg hc]
        rw [if_neg hc] at hsoft
        exact walkNames_sim Inv f1 f2 f3 hstep rest path _ _ _ hi hsoft

end

end filepath

theorem filepath.Walk_eq {σ : Type} (fn : WalkFunc σ) (root : Str) (info : Option Entry) (s : σ) :
    filepath.Walk fn root info s =
      (if (match info with
            | none => fn root none true s
            | some e => filepath.walk fn root e s).1 = some WalkError.SkipDir then none
        else (match info with
            | none => fn root none true s
            | some e => filepath.walk fn root e s).1,
        (match info with
            | none => fn root none true s
            | some e => filepath.walk fn root e s).2) := by
  unfold filepath.Walk
  generalize (match info with
    | none => fn root none true s
    | some e => filepath.walk fn root e s) = w
  obtain ⟨w1, w2⟩ := w
  dsimp only
  split <;> rfl

/-- Three walks from the root: when the first returns nil, so do the others,
and the states stay related. -/
theorem filepath.Walk_sim {σ1 σ2 σ3 : Type} (Inv : σ1 → σ2 → σ3 → Prop) (f1 : WalkFunc σ1)
    (f2 : WalkFunc σ2) (f3 : WalkFunc σ3)
    (hstep : ∀ p i e s1 s2 s3, Inv s1 s2 s3 → soft (f1 p i e s1).1 →
      (f2 p i e s2).1 = (f1 p i e s1).1 ∧ (f3 p i e s3).1 = (f1 p i e s1).1 ∧
        Inv (f1 p i e s1).2 (f2 p i e s2).2 (f3 p i e s3).2)
    (root : Str) (info : Option Entry) (s1 : σ1) (s2 : σ2) (s3 : σ3) (hinv : Inv s1 s2 s3)
    (hnil : (filepath.Walk f1 root info s1).1 = none) :
    (filepath.Walk f2 root info s2).1 = none ∧ (filepath.Walk f3 root info s3).1 = none ∧
      Inv (filepath.Walk f1 root info s1).2 (filepath.Walk f2 root info s2).2
        (filepath.Walk f3 root info s3).2 := by
  rw [filepath.Walk_eq] at hnil
  rw [filepath.Walk_eq f1, filepath.Walk_eq f2, filepath.Walk_eq f3]
  have key : ∀ (w1 : Option WalkError × σ1) (w2 : Option WalkError × σ2)
      (w3 : Option WalkError × σ3),
      (soft w1.1 → w2.1 = w1.1 ∧ w3.1 = w1.1 ∧ Inv w1.2 w2.2 w3.2) →
      (if w1.1 = some WalkError.SkipDir then none else w1.1) = none →
      (if w2.1 = some WalkError.SkipDir then none else w2.1) = none ∧
        (if w3.1 = some WalkError.SkipDir then none else w3.1) = none ∧ Inv w1.2 w2.2 w3.2 := by
    intro w1 w2 w3 h hn
    have hs : soft w1.1 := by
      by_cases hc : w1.1 = some WalkError.SkipDir
      · exact Or.inr hc
      · rw [if_neg hc] at hn; exact Or.inl hn
    obtain ⟨h2, h3, hi⟩ := h hs
    rw [h2, h3]
    exact ⟨hn, hn, hi⟩
  cases info with
  | none =>
    exact key (f1 root none true s1) (f2 root none true s2) (f3 root none true s3)
      (hstep root none true s1 s2 s3 hinv) hnil
  | some e =>
    exact key (filepath.walk f1 root e s1) (filepath.walk f2 root e s2)
      (filepath.walk f3 root e s3)
      (filepath.walk_sim Inv f1 f2 f3 hstep e root s1 s2 s3 hinv) hnil

theorem roomLe_refl (r : Option Nat) : roomLe r r := by
  cases r with
  | none => trivial
  | some k => exact Nat.le_refl k

theorem Step.run_done_of_not_send (s : Step) (conn : Conn) (h : ∀ r oe, s ≠ .send r oe) :
    (s.run conn).2 = conn := by
  cases s with
  | done x => rfl
  | send r oe => exact absurd rfl (h r oe)

/-- C17. On any directory tree, with the other options and the connection
fixed: (1) at a directory, and at a file whose extension is
case-insensitively `.cpp`, `.py` or `.c`, the second pass with the extension
filter does exactly what it does without it, so folder markers are not
suppressed; (2) at a file with another extension the pass with the filter
sends nothing; (3) when the discovery pass without the filter returns nil,
having emitted the records `emitted`, the pass with the filter returns nil
too and emits, in the same order, exactly those of them that are folder
markers or come from a file with one of the three extensions. -/
theorem extension_filter_selects_among_emitted (lower : Char → Char) (c : Config)
    (rootPath : Str) (patterns : List Str) (hostname localIP : Str) :
    (∀ (mf : List Str) (p : Str) (i : Option Entry) (e : Bool) (conn : Conn),
      (∀ n content, i ≠ some (.file n content)) ∨ isValidExtension lower p = true →
      secondPass lower { c with FilterExts := true } rootPath patterns mf hostname localIP
          p i e conn =
        secondPass lower { c with FilterExts := false } rootPath patterns mf hostname localIP
          p i e conn) ∧
    (∀ (mf : List Str) (p n : Str) (content : Option (List UInt8)) (e : Bool) (conn : Conn),
      isValidExtension lower p = false →
      (secondPass lower { c with FilterExts := true } rootPath patterns mf hostname localIP
          p (some (.file n content)) e conn).2 = conn) ∧
    (∀ (root : Option Entry) (conn : Conn),
      (searchAndSendFiles lower { c with FilterExts := false } root localIP rootPath patterns
        conn hostname).1 = none →
      (searchAndSendFiles lower { c with FilterExts := false } root localIP rootPath patterns
          conn hostname).2.sent =
        conn.sent ++ (emitted lower { c with FilterExts := false } root localIP rootPath
          patterns hostname).map Prod.snd ∧
      (searchAndSendFiles lower { c with FilterExts := true } root localIP rootPath patterns
          conn hostname).1 = none ∧
      (searchAndSendFiles lower { c with FilterExts := true } root localIP rootPath patterns
          conn hostname).2.sent =
        conn.sent ++ ((emitted lower { c with FilterExts := false } root localIP rootPath
          patterns hostname).filter (passesFilter lower)).map Prod.snd) := by
  refine ⟨?_, ?_, ?_⟩
  · intro mf p i e conn h
    rw [secondPass_eq_run, secondPass_eq_run]
    rcases h with hd | hv
    · rw [secondPassStep_filter_dir lower c true _ _ _ _ _ _ _ _ hd,
        secondPassStep_filter_dir lower c false _ _ _ _ _ _ _ _ hd]
    · rw [secondPassStep_filter_valid lower c true _ _ _ _ _ _ _ _ hv,
        secondPassStep_filter_valid lower c false _ _ _ _ _ _ _ _ hv]
  · intro mf p n content e conn hv
    rw [secondPass_eq_run]
    rcases secondPassStep_filter_invalid lower c rootPath patterns mf hostname localIP
      p n content e hv with ⟨h1, h2⟩ | ⟨h1, _⟩
    · rw [h1]
      exact Step.run_done_of_not_send _ _ h2
    · rw [h1]
      rfl
  · intro root conn hoff
    have hmf : matchedFoldersOf lower { c with FilterExts := true } rootPath root patterns =
        matchedFoldersOf lower { c with FilterExts := false } rootPath root patterns := rfl
    unfold searchAndSendFiles at hoff ⊢
    unfold emitted
    rw [hmf]
    generalize matchedFoldersOf lower { c with FilterExts := false } rootPath root patterns = mf
      at hoff ⊢
    have hstep : ∀ p i e (s1 s2 : Conn) (s3 : List (Str × FileInfo)),
        filterInv lower conn.sent s1 s2 s3 →
        soft (secondPass lower { c with FilterExts := false } rootPath patterns mf hostname
          localIP p i e s1).1 →
        (secondPass lower { c with FilterExts := true } rootPath patterns mf hostname
            localIP p i e s2).1 =
          (secondPass lower { c with FilterExts := false } rootPath patterns mf hostname
            localIP p i e s1).1 ∧
        (recordSends (secondPass lower { c with FilterExts := false } rootPath patterns mf
            hostname localIP) p i e s3).1 =
          (secondPass lower { c with FilterExts := false } rootPath patterns mf hostname
            localIP p i e s1).1 ∧
        filterInv lower conn.sent
          (secondPass lower { c with FilterExts := false } rootPath patterns mf hostname
            localIP p i e s1).2
          (secondPass lower { c with FilterExts := true } rootPath patterns mf hostname
            localIP p i e s2).2
          (recordSends (secondPass lower { c with FilterExts := false } rootPath patterns mf
            hostname localIP) p i e s3).2 := by
      intro p i e s1 s2 s3 hinv hsoft
      unfold recordSends
      simp only [secondPass_eq_run] at hsoft ⊢
      obtain ⟨r1, r2⟩ := secondPassStep_filter_rel lower c rootPath patterns mf hostname
        localIP p i e
      exact step_sim lower conn.sent p _ _ r1 r2 s1 s2 s3 hinv hsoft
    obtain ⟨h2, _, h4, h5, _⟩ := filepath.Walk_sim (filterInv lower conn.sent) _ _ _ hstep
      rootPath root conn conn [] ⟨by simp, by simp, roomLe_refl _⟩ hoff
    exact ⟨h4, h2, h5⟩

set_option maxRecDepth 100000 in
/-- Witness for `extension_filter_selects_among_emitted` (C17): the folder
`tugas` holds `A.CPP`, `b.txt` and the folder `tugas2` with `x.py` and `y`.
At `A.CPP` the filter changes nothing, at `b.txt` nothing is sent, and the
whole pass with the filter emits the markers `.` and `tugas2` and the files
`A.CPP` and `tugas2/x.py`. -/
theorem extension_filter_selects_among_emitted_witness :
    secondPass strings.asciiLower ⟨[], str "tugas", true, true, true⟩ (str "tugas")
        [str "tugas"] [str "tugas"] (str "pc") (str "10.0.0.7") (str "tugas/A.CPP")
        (some (.file (str "A.CPP") (some [1]))) false ⟨[], none⟩ =
      secondPass strings.asciiLower ⟨[], str "tugas", false, true, true⟩ (str "tugas")
        [str "tugas"] [str "tugas"] (str "pc") (str "10.0.0.7") (str "tugas/A.CPP")
        (some (.file (str "A.CPP") (some [1]))) false ⟨[], none⟩ ∧
    (secondPass strings.asciiLower ⟨[], str "tugas", true, true, true⟩ (str "tugas")
        [str "tugas"] [str "tugas"] (str "pc") (str "10.0.0.7") (str "tugas/b.txt")
        (some (.file (str "b.txt") (some [2]))) false ⟨[], none⟩).2 = ⟨[], none⟩ ∧
    (searchAndSendFiles strings.asciiLower ⟨[], str "tugas", true, true, true⟩
        (some (.dir (str "tugas") true [.file (str "A.CPP") (some [1]),
          .file (str "b.txt") (some [2]),
          .dir (str "tugas2") true [.file (str "x.py") (some [3]), .file (str "y") (some [4])]]))
        (str "10.0.0.7") (str "tugas") [str "tugas"] ⟨[], none⟩ (str "pc")).2.sent =
      [⟨str ".", none, str "10.0.0.7", str "pc"⟩,
        ⟨str "A.CPP", some [1], str "10.0.0.7", str "pc"⟩,
        ⟨str "tugas2", none, str "10.0.0.7", str "pc"⟩,
        ⟨str "tugas2/x.py", some [3], str "10.0.0.7", str "pc"⟩] := by
  have h := extension_filter_selects_among_emitted strings.asciiLower
    ⟨[], str "tugas", true, true, true⟩ (str "tugas") [str "tugas"] (str "pc") (str "10.0.0.7")
  refine ⟨h.1 [str "tugas"] (str "tugas/A.CPP") (some (.file (str "A.CPP") (some [1]))) false
    ⟨[], none⟩ (Or.inr (by decide)), h.2.1 [str "tugas"] (str "tugas/b.txt") (str "b.txt")
    (some [2]) false ⟨[], none⟩ (by decide), ?_⟩
  have h3 := (h.2.2
    (some (.dir (str "tugas") true [.file (str "A.CPP") (some [1]),
      .file (str "b.txt") (some [2]),
      .dir (str "tugas2") true [.file (str "x.py") (some [3]), .file (str "y") (some [4])]]))
    ⟨[], none⟩ (by decide)).2.2
  exact h3.trans (by decide)

/-! ## C21: connecting -/

theorem connectLoop_success {γ : Type} (dial : Nat → Option γ) (maxRetries k : Nat) (c : γ)
    (hk : k < maxRetries) (hc : dial k = some c) :
    ∀ (fuel retryCount : Nat), retryCount ≤ k → maxRetries - retryCount < fuel →
      (∀ j, retryCount ≤ j → j < k → dial j = none) →
      connectLoop dial maxRetries fuel retryCount = some (some c, k + 1)
  | 0, _, _, hf, _ => absurd hf (Nat.not_lt_zero _)
  | fuel + 1, retryCount, hle, hf, hnone => by
    unfold connectLoop
    rw [if_pos (by omega)]
    rcases Nat.eq_or_lt_of_le hle with heq | hlt
    · subst heq
      rw [hc]
    · rw [hnone retryCount (Nat.le_refl _) hlt]
      exact connectLoop_success dial maxRetries k c hk hc fuel (retryCount + 1) hlt (by omega)
        (fun j h1 h2 => hnone j (by omega) h2)

theorem connectLoop_failure {γ : Type} (dial : Nat → Option γ) (maxRetries : Nat) :
    ∀ (fuel retryCount : Nat), retryCount ≤ maxRetries → maxRetries - retryCount < fuel →
      (∀ j, retryCount ≤ j → j < maxRetries → dial j = none) →
      connectLoop dial maxRetries fuel retryCount = some (none, maxRetries)
  | 0, _, _, hf, _ => absurd hf (Nat.not_lt_zero _)
  | fuel + 1, retryCount, hle, hf, hnone => by
    unfold connectLoop
    rcases Nat.eq_or_lt_of_le hle with heq | hlt
    · subst heq
      rw [if_neg (Nat.lt_irrefl _)]
    · rw [if_pos hlt, hnone retryCount (Nat.le_refl _) hlt]
      exact connectLoop_failure dial maxRetries fuel (retryCount + 1) hlt (by omega)
        (fun j h1 h2 => hnone j (by omega) h2)

/-- Among the first `n` dial outcomes either all fail or there is a first one
that succeeds. -/
theorem first_success_or_none {γ : Type} (dial : Nat → Option γ) :
    ∀ n : Nat, (∀ j, j < n → dial j = none) ∨
      ∃ k c, k < n ∧ dial k = some c ∧ ∀ j, j < k → dial j = none
  | 0 => Or.inl (fun j h => absurd h (Nat.not_lt_zero _))
  | n + 1 => by
    rcases first_success_or_none dial n with h | ⟨k, c, hk, hc, hn⟩
    · cases hd : dial n with
      | none =>
        refine Or.inl (fun j hj => ?_)
        rcases Nat.eq_or_lt_of_le (Nat.le_of_lt_succ hj) with heq | hlt
        · rw [heq]; exact hd
        · exact h j hlt
      | some c => exact Or.inr ⟨n, c, Nat.lt_succ_self _, hd, h⟩
    · exact Or.inr ⟨k, c, Nat.lt_succ_of_lt hk, hc, hn⟩

/-- C21. For every sequence of dial outcomes `connectWithRetry` returns: if
the dial number `k` (counted from 0, `k < 100`) is the first that succeeds,
it returns that connection after exactly `k + 1` calls of `net.Dial`, none
after the successful one; if the first 100 dials fail it returns the error
after exactly 100 calls. One of the two always applies. -/
theorem connectWithRetry_terminates {γ : Type} (dial : Nat → Option γ) :
    (∃ r, connectWithRetry dial = some r ∧ r.2 ≤ 100) ∧
    (∀ k c, k < 100 → dial k = some c → (∀ j, j < k → dial j = none) →
      connectWithRetry dial = some (some c, k + 1)) ∧
    ((∀ j, j < 100 → dial j = none) → connectWithRetry dial = some (none, 100)) := by
  have hs : ∀ k c, k < 100 → dial k = some c → (∀ j, j < k → dial j = none) →
      connectWithRetry dial = some (some c, k + 1) := fun k c hk hc hn =>
    connectLoop_success dial 100 k c hk hc 101 0 (Nat.zero_le _) (by omega)
      (fun j _ h2 => hn j h2)
  have hf : (∀ j, j < 100 → dial j = none) → connectWithRetry dial = some (none, 100) :=
    fun hn => connectLoop_failure dial 100 101 0 (by omega) (by omega) (fun j _ h2 => hn j h2)
  refine ⟨?_, hs, hf⟩
  rcases first_success_or_none dial 100 with h | ⟨k, c, hk, hc, hn⟩
  · exact ⟨_, hf h, Nat.le_refl _⟩
  · exact ⟨_, hs k c hk hc hn, hk⟩

/-- Witness for `connectWithRetry_terminates` (C21): the fourth dial is the
first to succeed; and no dial succeeds. -/
theorem connectWithRetry_terminates_witness :
    connectWithRetry (fun k => if k = 3 then some 7 else none) = some (some 7, 3 + 1) ∧
    connectWithRetry (fun _ => (none : Option Nat)) = some (none, 100) :=
  ⟨(connectWithRetry_terminates (fun k => if k = 3 then some 7 else none)).2.1 3 7 (by decide)
      (by decide) (fun j hj => by
        have : j ≠ 3 := Nat.ne_of_lt hj
        simp [this]),
    (connectWithRetry_terminates (fun _ => (none : Option Nat))).2.2 (fun _ _ => rfl)⟩

/-! ## C29: the two extension tests -/

theorem strings.hasSuffix_iff (s t : Str) : strings.HasSuffix s t = true ↔ t <:+ s := by
  unfold strings.HasSuffix
  simp only [ge_iff_le, Bool.and_eq_true, decide_eq_true_eq, beq_iff_eq]
  constructor
  · rintro ⟨_, h⟩
    have e := List.take_append_drop (s.length - t.length) s
    rw [h] at e
    exact ⟨_, e⟩
  · rintro ⟨a, rfl⟩
    refine ⟨by simp, ?_⟩
    have : (a ++ t).length - t.length = a.length := by simp
    rw [this, List.drop_left]

theorem filepath.afterLastSeparator_suffix (path : Str) :
    filepath.afterLastSeparator path <:+ path := by
  unfold filepath.afterLastSeparator
  rw [← List.reverse_prefix, List.reverse_reverse]
  exact List.takeWhile_prefix _

theorem cons_reverse_takeWhile_suffix (c : Char) (l : Str) (h : c ∈ l) :
    c :: (l.reverse.takeWhile (fun x => x != c)).reverse <:+ l := by
  have hsplit := List.takeWhile_append_dropWhile (fun x => x != c) l.reverse
  have hne : l.reverse.dropWhile (fun x => x != c) ≠ [] := by
    intro hnil
    rw [List.dropWhile_eq_nil_iff] at hnil
    have := hnil c (List.mem_reverse.2 h)
    simp at this
  obtain ⟨d, r, hd⟩ := List.exists_cons_of_ne_nil hne
  have hdc : d = c := by
    have := List.head_dropWhile_not (fun x => x != c) l.reverse hne
    simp only [hd, List.head_cons] at this
    simpa using this
  rw [hd, hdc] at hsplit
  have hl : l = r.reverse ++ c :: (l.reverse.takeWhile (fun x => x != c)).reverse := by
    have := congrArg List.reverse hsplit
    simp only [List.reverse_reverse, List.reverse_append, List.reverse_cons, List.append_assoc,
      List.singleton_append] at this
    exact this.symm
  exact ⟨r.reverse, hl.symm⟩

theorem filepath.ext_suffix (path : Str) : filepath.Ext path <:+ path := by
  unfold filepath.Ext
  dsimp only
  split
  · rename_i h
    exact (cons_reverse_takeWhile_suffix '.' _ (by simpa using h)).trans
      (filepath.afterLastSeparator_suffix path)
  · exact List.nil_suffix

theorem filepath.ext_append (pre v : Str) (hv : ∀ x ∈ v, x ≠ '.' ∧ x ≠ filepath.Separator) :
    filepath.Ext (pre ++ '.' :: v) = '.' :: v := by
  have h1 : ∀ x ∈ v.reverse ++ ['.'], (fun c => c != filepath.Separator) x = true := by
    intro x hx
    rcases List.mem_append.1 hx with h | h
    · simpa using (hv x (List.mem_reverse.1 h)).2
    · rw [List.mem_singleton.1 h]; decide
  have h2 : ∀ x ∈ v.reverse, (fun c => c != '.') x = true := by
    intro x hx
    simpa using (hv x (List.mem_reverse.1 hx)).1
  have hlast : filepath.afterLastSeparator (pre ++ '.' :: v) =
      (pre.reverse.takeWhile (fun c => c != filepath.Separator)).reverse ++ '.' :: v := by
    unfold filepath.afterLastSeparator
    have : (pre ++ '.' :: v).reverse = (v.reverse ++ ['.']) ++ pre.reverse := by simp
    rw [this, List.takeWhile_append_of_pos h1]
    simp
  unfold filepath.Ext
  dsimp only
  rw [hlast]
  have hc : ((pre.reverse.takeWhile (fun c => c != filepath.Separator)).reverse ++
      '.' :: v).contains '.' = true := by simp
  rw [if_pos hc]
  have : ((pre.reverse.takeWhile (fun c => c != filepath.Separator)).reverse ++
      '.' :: v).reverse =
      v.reverse ++ '.' :: (pre.reverse.takeWhile (fun c => c != filepath.Separator)) := by simp
  rw [this, List.takeWhile_append_of_pos h2]
  simp

/-- For one extension `.w`: the lower-cased path ends with it exactly when the
lower-cased `Ext` of the path is it. -/
theorem suffix_test_iff_ext_test (lower : Char → Char) (h1 : ∀ c, lower c = '.' → c = '.')
    (h2 : lower '.' = '.') (h3 : lower filepath.Separator = filepath.Separator) (w : Str)
    (hw : ∀ x ∈ w, x ≠ '.' ∧ x ≠ filepath.Separator) (path : Str) :
    strings.HasSuffix (strings.ToLower lower path) ('.' :: w) =
      (strings.ToLower lower (filepath.Ext path) == '.' :: w) := by
  rw [Bool.eq_iff_iff, strings.hasSuffix_iff, beq_iff_eq]
  unfold strings.ToLower
  constructor
  · rintro ⟨a, ha⟩
    obtain ⟨pre, suf, hp, _, hs⟩ := List.append_eq_map_iff.1 ha
    cases suf with
    | nil => simp at hs
    | cons d v =>
      simp only [List.map_cons, List.cons.injEq] at hs
      have hd : d = '.' := h1 d hs.1
      have hv : ∀ x ∈ v, x ≠ '.' ∧ x ≠ filepath.Separator := by
        intro x hx
        have hm : lower x ∈ w := by rw [← hs.2]; exact List.mem_map_of_mem _ hx
        constructor
        · rintro rfl
          rw [h2] at hm
          exact (hw _ hm).1 rfl
        · rintro rfl
          rw [h3] at hm
          exact (hw _ hm).2 rfl
      rw [hp, hd, filepath.ext_append pre v hv, List.map_cons, h2, hs.2]
  · intro h
    obtain ⟨a, ha⟩ := filepath.ext_suffix path
    refine ⟨a.map lower, ?_⟩
    rw [← h, ← List.map_append, ha]

/-- C29. For every path string the extension test of the older agent (the
lower-cased path ends with `.py`, `.cpp` or `.c`) gives the same answer as
`isValidExtension` of the newer agents, for every lower-casing that, like
Unicode lower-casing, leaves the dot and the separator as they are and maps
no other character to the dot. -/
theorem hasSourceSuffix_eq_isValidExtension (lower : Char → Char)
    (h1 : ∀ c, lower c = '.' → c = '.') (h2 : lower '.' = '.')
    (h3 : lower filepath.Separator = filepath.Separator) (path : Str) :
    hasSourceSuffix lower path = isValidExtension lower path := by
  unfold hasSourceSuffix isValidExtension
  have e1 := suffix_test_iff_ext_test lower h1 h2 h3 ['p', 'y'] (by decide) path
  have e2 := suffix_test_iff_ext_test lower h1 h2 h3 ['c', 'p', 'p'] (by decide) path
  have e3 := suffix_test_iff_ext_test lower h1 h2 h3 ['c'] (by decide) path
  have s1 : str ".py" = '.' :: ['p', 'y'] := rfl
  have s2 : str ".cpp" = '.' :: ['c', 'p', 'p'] := rfl
  have s3 : str ".c" = '.' :: ['c'] := rfl
  dsimp only
  rw [s1, s2, s3, e1, e2, e3]
  cases (strings.ToLower lower (filepath.Ext path) == '.' :: ['p', 'y']) <;>
    cases (strings.ToLower lower (filepath.Ext path) == '.' :: ['c', 'p', 'p']) <;>
    cases (strings.ToLower lower (filepath.Ext path) == '.' :: ['c']) <;> rfl

theorem strings.asciiLower_eq_dot (c : Char) (h : strings.asciiLower c = '.') : c = '.' := by
  unfold strings.asciiLower Char.toLower at h
  dsimp only at h
  split at h
  · rename_i hr
    exfalso
    revert h
    generalize c.toNat = n at hr
    obtain ⟨hlo, hhi⟩ := hr
    interval_cases n <;> decide
  · exact h

/-- Witness for `hasSourceSuffix_eq_isValidExtension` (C29), with ASCII
lower-casing. -/
theorem hasSourceSuffix_eq_isValidExtension_witness :
    hasSourceSuffix strings.asciiLower (str "Tugas 1/Main.CPP") =
      isValidExtension strings.asciiLower (str "Tugas 1/Main.CPP") :=
  hasSourceSuffix_eq_isValidExtension strings.asciiLower strings.asciiLower_eq_dot
    (by decide) (by decide) (str "Tugas 1/Main.CPP")

/-! ## Two walks that agree at every entry -/

namespace filepath

mutual

/-- Two walks of one tree whose walk functions return the same at every entry
return the same, and their states stay related. -/
theorem walk_sim2 {σ1 σ2 : Type} (Inv : σ1 → σ2 → Prop) (f1 : WalkFunc σ1) (f2 : WalkFunc σ2)
    (hstep : ∀ p i e s1 s2, Inv s1 s2 →
      (f2 p i e s2).1 = (f1 p i e s1).1 ∧ Inv (f1 p i e s1).2 (f2 p i e s2).2) :
    ∀ (entry : Entry) (path : Str) (s1 : σ1) (s2 : σ2), Inv s1 s2 →
      (walk f2 path entry s2).1 = (walk f1 path entry s1).1 ∧
        Inv (walk f1 path entry s1).2 (walk f2 path entry s2).2
  | .file n c, path, s1, s2, hinv => by
    rw [walk_file, walk_file]
    exact hstep _ _ _ _ _ hinv
  | .dir n l ch, path, s1, s2, hinv => by
    rw [walk_dir f1, walk_dir f2]
    obtain ⟨h2, hi⟩ := hstep path (some (.dir n l ch)) (!l) s1 s2 hinv
    by_cases hc : (!l || (f1 path (some (.dir n l ch)) (!l) s1).1.isSome) = true
    · simp only [h2, if_pos hc]
      exact ⟨trivial, hi⟩
    · simp only [h2, if_neg hc]
      exact walkNames_sim2 Inv f1 f2 hstep ch path _ _ hi

/-- The same for the loop over the entries of a directory. -/
theorem walkNames_sim2 {σ1 σ2 : Type} (Inv : σ1 → σ2 → Prop) (f1 : WalkFunc σ1)
    (f2 : WalkFunc σ2)
    (hstep : ∀ p i e s1 s2, Inv s1 s2 →
      (f2 p i e s2).1 = (f1 p i e s1).1 ∧ Inv (f1 p i e s1).2 (f2 p i e s2).2) :
    ∀ (entries : List Entry) (path : Str) (s1 : σ1) (s2 : σ2), Inv s1 s2 →
      (walkNames f2 path entries s2).1 = (walkNames f1 path entries s1).1 ∧
        Inv (walkNames f1 path entries s1).2 (walkNames f2 path entries s2).2
  | [], path, s1, s2, hinv => by
    rw [walkNames_nil, walkNames_nil]
    exact ⟨rfl, hinv⟩
  | e :: rest, path, s1, s2, hinv => by
    obtain ⟨h2, hi⟩ := walk_sim2 Inv f1 f2 hstep e (Join [path, e.name]) s1 s2 hinv
    cases hw : (walk f1 (Join [path, e.name]) e s1).1 with
    | none =>
      rw [walkNames_cons_none f1 _ _ _ _ hw, walkNames_cons_none f2 _ _ _ _ (h2.trans hw)]
      exact walkNames_sim2 Inv f1 f2 hstep rest path _ _ hi
    | some err =>
      rw [walkNames_cons_some f1 _ _ _ _ err hw,
        walkNames_cons_some f2 _ _ _ _ err (h2.trans hw)]
      by_cases hc : (!e.IsDir || err != WalkError.SkipDir) = true
      · simp only [if_pos hc]
        exact ⟨trivial, hi⟩
      · simp only [if_neg hc]
        exact walkNames_sim2 Inv f1 f2 hstep rest path _ _ hi

end

theorem Walk_sim2 {σ1 σ2 : Type} (Inv : σ1 → σ2 → Prop) (f1 : WalkFunc σ1) (f2 : WalkFunc σ2)
    (hstep : ∀ p i e s1 s2, Inv s1 s2 →
      (f2 p i e s2).1 = (f1 p i e s1).1 ∧ Inv (f1 p i e s1).2 (f2 p i e s2).2)
    (root : Str) (info : Option Entry) (s1 : σ1) (s2 : σ2) (hinv : Inv s1 s2) :
    (Walk f2 root info s2).1 = (Walk f1 root info s1).1 ∧
      Inv (Walk f1 root info s1).2 (Walk f2 root info s2).2 := by
  rw [Walk_eq f1, Walk_eq f2]
  have key : ∀ (w1 : Option WalkError × σ1) (w2 : Option WalkError × σ2),
      w2.1 = w1.1 ∧ Inv w1.2 w2.2 →
      (if w2.1 = some WalkError.SkipDir then none else w2.1) =
        (if w1.1 = some WalkError.SkipDir then none else w1.1) ∧ Inv w1.2 w2.2 := by
    intro w1 w2 h
    rw [h.1]
    exact ⟨rfl, h.2⟩
  cases info with
  | none => exact key (f1 root none true s1) (f2 root none true s2) (hstep _ _ _ _ _ hinv)
  | some e =>
    exact key (walk f1 root e s1) (walk f2 root e s2) (walk_sim2 Inv f1 f2 hstep e root s1 s2 hinv)

/-- A property of the state that every call of the walk function keeps holds
after the walk. -/
theorem Walk_preserves {σ : Type} (P : σ → Prop) (fn : WalkFunc σ)
    (hstep : ∀ p i e s, P s → P (fn p i e s).2) (root : Str) (info : Option Entry) (s : σ)
    (h : P s) : P (Walk fn root info s).2 :=
  (Walk_sim2 (fun s1 s2 => s2 = s1 ∧ P s1) fn fn
    (fun p i e s1 s2 hi => by
      obtain ⟨rfl, hp⟩ := hi
      exact ⟨rfl, rfl, hstep p i e _ hp⟩) root info s s ⟨rfl, h⟩).2.2

theorem walk_preserves {σ : Type} (P : σ → Prop) (fn : WalkFunc σ)
    (hstep : ∀ p i e s, P s → P (fn p i e s).2) (path : Str) (entry : Entry) (s : σ)
    (h : P s) : P (walk fn path entry s).2 :=
  (walk_sim2 (fun s1 s2 => s2 = s1 ∧ P s1) fn fn
    (fun p i e s1 s2 hi => by
      obtain ⟨rfl, hp⟩ := hi
      exact ⟨rfl, rfl, hstep p i e _ hp⟩) entry path s s ⟨rfl, h⟩).2.2

theorem walkNames_preserves {σ : Type} (P : σ → Prop) (fn : WalkFunc σ)
    (hstep : ∀ p i e s, P s → P (fn p i e s).2) (path : Str) (entries : List Entry) (s : σ)
    (h : P s) : P (walkNames fn path entries s).2 :=
  (walkNames_sim2 (fun s1 s2 => s2 = s1 ∧ P s1) fn fn
    (fun p i e s1 s2 hi => by
      obtain ⟨rfl, hp⟩ := hi
      exact ⟨rfl, rfl, hstep p i e _ hp⟩) entries path s s ⟨rfl, h⟩).2.2

end filepath

/-! ## C26: an empty pattern set -/

theorem containsPattern_nil (lower : Char → Char) (path : Str) :
    containsPattern lower path [] = false := rfl

theorem firstPass_nil (lower : Char → Char) (p : Str) (i : Option Entry) (e : Bool)
    (s : List Str) (h : s = []) : (firstPass lower [] p i e s).2 = [] := by
  subst h
  unfold firstPass
  cases e with
  | true => rfl
  | false =>
    cases i with
    | none => rfl
    | some info =>
      simp only [containsPattern_nil, Bool.false_eq_true, if_false]
      split <;> rfl

theorem matchedFoldersOf_nil (lower : Char → Char) (config : Config) (rootPath : Str)
    (root : Option Entry) : matchedFoldersOf lower config rootPath root [] = [] := by
  unfold matchedFoldersOf
  split
  · exact filepath.Walk_preserves (fun s => s = []) _ (firstPass_nil lower) rootPath root [] rfl
  · rfl

theorem secondPassStep_nil (lower : Char → Char) (config : Config) (rootPath : Str)
    (hostname localIP : Str) (p : Str) (i : Option Entry) (e : Bool) :
    (secondPassStep lower config rootPath [] [] hostname localIP p i e).record = none := by
  unfold secondPassStep
  simp only [containsPattern_nil, Bool.and_false, List.any_nil, Bool.or_false, Bool.false_eq_true,
    if_false, ite_self]
  repeat' split
  all_goals rfl

theorem Step.run_of_record_none (s : Step) (conn : Conn) (h : s.record = none) :
    (s.run conn).2 = conn := by
  cases s with
  | done x => rfl
  | send r oe => cases h

/-- C26. For every directory tree, search root, configuration and
connection, a discovery pass with an empty pattern set leaves the connection
as it was: no file record and no folder marker is sent. -/
theorem searchAndSendFiles_nil_patterns (lower : Char → Char) (config : Config)
    (root : Option Entry) (localIP rootPath : Str) (conn : Conn) (hostname : Str) :
    (searchAndSendFiles lower config root localIP rootPath [] conn hostname).2 = conn := by
  unfold searchAndSendFiles
  rw [matchedFoldersOf_nil]
  apply filepath.Walk_preserves (fun s => s = conn) _ _ rootPath root conn rfl
  intro p i e s hs
  rw [hs, secondPass_eq_run]
  exact Step.run_of_record_none _ _ (secondPassStep_nil lower config rootPath hostname localIP p i e)

/-! ## What a discovery pass visits and emits -/

theorem Step.run_scratch (s : Step) :
    s.run ⟨[], none⟩ = (s.result, ⟨s.record.toList, none⟩) := by
  cases s <;> rfl

theorem recordSends_secondPass (lower : Char → Char) (config : Config) (rootPath : Str)
    (patterns mf : List Str) (hostname localIP : Str) (p : Str) (i : Option Entry) (e : Bool)
    (log : List (Str × FileInfo)) :
    recordSends (secondPass lower config rootPath patterns mf hostname localIP) p i e log =
      ((secondPassStep lower config rootPath patterns mf hostname localIP p i e).result,
        log ++ (recordAt lower config rootPath patterns mf hostname localIP (p, i, e)).toList) := by
  unfold recordSends recordAt
  rw [secondPass_eq_run, Step.run_scratch]
  dsimp only
  cases (secondPassStep lower config rootPath patterns mf hostname localIP p i e).record <;> rfl

theorem recordVisits_secondPass (lower : Char → Char) (config : Config) (rootPath : Str)
    (patterns mf : List Str) (hostname localIP : Str) (p : Str) (i : Option Entry) (e : Bool)
    (log : List (Str × Option Entry × Bool)) :
    recordVisits (secondPass lower config rootPath patterns mf hostname localIP) p i e log =
      ((secondPassStep lower config rootPath patterns mf hostname localIP p i e).result,
        log ++ [(p, i, e)]) := by
  unfold recordVisits
  rw [secondPass_eq_run, Step.run_scratch]

/-- The records emitted are the records made at the calls of the walk
function, in the order of the calls. -/
theorem emitted_eq_filterMap_visited (lower : Char → Char) (config : Config)
    (root : Option Entry) (localIP rootPath : Str) (patterns : List Str) (hostname : Str) :
    emitted lower config root localIP rootPath patterns hostname =
      (visited lower config root localIP rootPath patterns hostname).filterMap
        (recordAt lower config rootPath patterns
          (matchedFoldersOf lower config rootPath root patterns) hostname localIP) := by
  unfold emitted visited
  generalize matchedFoldersOf lower config rootPath root patterns = mf
  exact (filepath.Walk_sim2
    (fun (V : List (Str × Option Entry × Bool)) (L : List (Str × FileInfo)) =>
      L = V.filterMap (recordAt lower config rootPath patterns mf hostname localIP))
    _ _
    (fun p i e V L h => by
      rw [recordSends_secondPass, recordVisits_secondPass]
      refine ⟨rfl, ?_⟩
      dsimp only
      rw [h, List.filterMap_append]
      congr 1)
    rootPath root [] [] rfl).2

namespace filepath

mutual

/-- The calls of a walk are made in pre-order: those noted by `recordVisits`
are added at the end of the list and form a sub-list of the pre-order of the
tree. -/
theorem walk_visits_sublist (fn : WalkFunc Conn) :
    ∀ (entry : Entry) (path : Str) (log : List (Str × Option Entry × Bool)),
      ∃ V, (walk (recordVisits fn) path entry log).2 = log ++ V ∧
        V.Sublist (preorder path entry)
  | .file n c, path, log => by
    rw [walk_file]
    exact ⟨_, rfl, by rw [preorder]⟩
  | .dir n l ch, path, log => by
    rw [walk_dir, preorder]
    by_cases hc : (!l || (recordVisits fn path (some (.dir n l ch)) (!l) log).1.isSome) = true
    · rw [if_pos hc]
      exact ⟨[(path, some (.dir n l ch), !l)], rfl,
        List.Sublist.cons₂ _ (List.nil_sublist _)⟩
    · rw [if_neg hc]
      have hl : l = true := by
        cases l with
        | true => rfl
        | false => simp at hc
      obtain ⟨V, hV, hs⟩ := walkNames_visits_sublist fn ch path
        (recordVisits fn path (some (.dir n l ch)) (!l) log).2
      refine ⟨(path, some (.dir n l ch), !l) :: V, ?_, ?_⟩
      · rw [hV]
        show (log ++ [_]) ++ V = _
        simp
      · rw [if_pos hl]
        exact List.Sublist.cons₂ _ hs

/-- The same for the loop over the entries of a directory. -/
theorem walkNames_visits_sublist (fn : WalkFunc Conn) :
    ∀ (entries : List Entry) (path : Str) (log : List (Str × Option Entry × Bool)),
      ∃ V, (walkNames (recordVisits fn) path entries log).2 = log ++ V ∧
        V.Sublist (preorderNames path entries)
  | [], path, log => by
    rw [walkNames_nil]
    exact ⟨[], by simp, List.nil_sublist _⟩
  | e :: rest, path, log => by
    obtain ⟨V1, hV1, hs1⟩ := walk_visits_sublist fn e (Join [path, e.name]) log
    obtain ⟨V2, hV2, hs2⟩ := walkNames_visits_sublist fn rest path
      (walk (recordVisits fn) (Join [path, e.name]) e log).2
    have hstop : V1.Sublist (preorderNames path (e :: rest)) := by
      rw [preorderNames]
      exact hs1.trans (List.sublist_append_left _ _)
    have hgo : (V1 ++ V2).Sublist (preorderNames path (e :: rest)) := by
      rw [preorderNames]
      exact List.Sublist.append hs1 hs2
    cases hw : (walk (recordVisits fn) (Join [path, e.name]) e log).1 with
    | none =>
      rw [walkNames_cons_none _ _ _ _ _ hw, hV2, hV1]
      exact ⟨V1 ++ V2, by simp, hgo⟩
    | some err =>
      rw [walkNames_cons_some _ _ _ _ _ err hw]
      by_cases hc : (!e.IsDir || err != WalkError.SkipDir) = true
      · rw [if_pos hc]
        exact ⟨V1, hV1, hstop⟩
      · rw [if_neg hc, hV2, hV1]
        exact ⟨V1 ++ V2, by simp, hgo⟩

end

end filepath

/-- The calls of the walk function in a discovery pass are a sub-list of the
pre-order of the tree. -/
theorem visited_sublist_preorder (lower : Char → Char) (config : Config)
    (root : Option Entry) (localIP rootPath : Str) (patterns : List Str) (hostname : Str) :
    (visited lower config root localIP rootPath patterns hostname).Sublist
      (filepath.preorderRoot rootPath root) := by
  unfold visited
  rw [filepath.Walk_eq]
  dsimp only
  cases root with
  | none =>
    unfold filepath.preorderRoot recordVisits
    simp
  | some entry =>
    obtain ⟨V, hV, hs⟩ := filepath.walk_visits_sublist
      (secondPass lower config rootPath patterns
        (matchedFoldersOf lower config rootPath (some entry) patterns) hostname localIP)
      entry rootPath []
    rw [hV]
    simpa [filepath.preorderRoot] using hs

namespace filepath

mutual

/-- When the walk function returns nil at every entry of the tree, the walk
calls it at every entry, in pre-order. -/
theorem walk_visits_all (fn : WalkFunc Conn) :
    ∀ (entry : Entry) (path : Str) (log : List (Str × Option Entry × Bool)),
      (∀ v ∈ preorder path entry, (fn v.1 v.2.1 v.2.2 ⟨[], none⟩).1 = none) →
      walk (recordVisits fn) path entry log = (none, log ++ preorder path entry)
  | .file n c, path, log, h => by
    rw [walk_file, preorder]
    rw [preorder] at h
    unfold recordVisits
    rw [h _ (List.mem_singleton.2 rfl)]
  | .dir n l ch, path, log, h => by
    rw [walk_dir, preorder]
    rw [preorder] at h
    have h0 : (recordVisits fn path (some (.dir n l ch)) (!l) log) =
        (none, log ++ [(path, some (.dir n l ch), !l)]) := by
      unfold recordVisits
      rw [h _ (List.mem_cons_self _ _)]
    rw [h0]
    cases l with
    | false => simp
    | true =>
      simp only [Bool.not_true, Option.isSome_none, Bool.or_self, Bool.false_eq_true, if_false,
        if_true]
      rw [walkNames_visits_all fn ch path _ (fun v hv => h v (by simp [hv]))]
      simp

/-- The same for the loop over the entries of a directory. -/
theorem walkNames_visits_all (fn : WalkFunc Conn) :
    ∀ (entries : List Entry) (path : Str) (log : List (Str × Option Entry × Bool)),
      (∀ v ∈ preorderNames path entries, (fn v.1 v.2.1 v.2.2 ⟨[], none⟩).1 = none) →
      walkNames (recordVisits fn) path entries log = (none, log ++ preorderNames path entries)
  | [], path, log, _ => by
    rw [walkNames_nil, preorderNames]
    simp
  | e :: rest, path, log, h => by
    rw [preorderNames] at h ⊢
    have h1 := walk_visits_all fn e (Join [path, e.name]) log
      (fun v hv => h v (List.mem_append_left _ hv))
    rw [walkNames_cons_none _ _ _ _ _ (by rw [h1]), h1]
    dsimp only
    rw [walkNames_visits_all fn rest path _ (fun v hv => h v (List.mem_append_right _ hv))]
    simp

end

end filepath

/-- When the walk function of the second pass returns nil at every entry of
the tree, its calls are the whole pre-order of the tree. -/
theorem visited_eq_preorder (lower : Char → Char) (config : Config)
    (root : Option Entry) (localIP rootPath : Str) (patterns : List Str) (hostname : Str)
    (h : ∀ v ∈ filepath.preorderRoot rootPath root,
      (secondPassStep lower config rootPath patterns
        (matchedFoldersOf lower config rootPath root patterns) hostname localIP
        v.1 v.2.1 v.2.2).result = none) :
    visited lower config root localIP rootPath patterns hostname =
      filepath.preorderRoot rootPath root := by
  have hfn : ∀ v : Str × Option Entry × Bool, v ∈ filepath.preorderRoot rootPath root →
      (secondPass lower config rootPath patterns
        (matchedFoldersOf lower config rootPath root patterns) hostname localIP
        v.1 v.2.1 v.2.2 ⟨[], none⟩).1 = none := by
    intro v hv
    rw [secondPass_eq_run, Step.run_scratch]
    exact h v hv
  unfold visited
  rw [filepath.Walk_eq]
  dsimp only
  cases root with
  | none =>
    unfold filepath.preorderRoot recordVisits
    simp
  | some entry =>
    show (filepath.walk _ rootPath entry []).2 = _
    rw [filepath.walk_visits_all _ entry rootPath [] hfn]
    simp [filepath.preorderRoot]

/-! ## A pass that stops part-way -/

namespace filepath

theorem walk_soft {σ1 σ3 : Type} (Inv : σ1 → σ3 → Prop) (f1 : WalkFunc σ1) (f3 : WalkFunc σ3)
    (hsoft : ∀ p i e s1 s3, Inv s1 s3 → soft (f1 p i e s1).1 →
      (f3 p i e s3).1 = (f1 p i e s1).1 ∧ Inv (f1 p i e s1).2 (f3 p i e s3).2)
    (entry : Entry) (path : Str) (s1 : σ1) (s3 : σ3) (hinv : Inv s1 s3)
    (hs : soft (walk f1 path entry s1).1) :
    (walk f3 path entry s3).1 = (walk f1 path entry s1).1 ∧
      Inv (walk f1 path entry s1).2 (walk f3 path entry s3).2 := by
  obtain ⟨h1, _, _, h3⟩ := walk_sim (fun s1 s2 s3 => s2 = s3 ∧ Inv s1 s3) f1 f3 f3
    (fun p i e s1 s2 s3 hi hso => by
      obtain ⟨rfl, hi⟩ := hi
      obtain ⟨a, b⟩ := hsoft p i e s1 s2 hi hso
      exact ⟨a, a, rfl, b⟩) entry path s1 s3 s3 ⟨rfl, hinv⟩ hs
  exact ⟨h1, h3⟩

mutual

/-- When the first walk stops with an error, the state it leaves stands in the
weaker relation to whatever the second walk, which may go on, ends with. -/
theorem walk_hard {σ1 σ3 : Type} (Inv Weak : σ1 → σ3 → Prop) (f1 : WalkFunc σ1)
    (f3 : WalkFunc σ3)
    (hsoft : ∀ p i e s1 s3, Inv s1 s3 → soft (f1 p i e s1).1 →
      (f3 p i e s3).1 = (f1 p i e s1).1 ∧ Inv (f1 p i e s1).2 (f3 p i e s3).2)
    (hhard : ∀ p i e s1 s3, Inv s1 s3 → ¬ soft (f1 p i e s1).1 →
      Weak (f1 p i e s1).2 (f3 p i e s3).2)
    (hmono : ∀ p i e s1 s3, Weak s1 s3 → Weak s1 (f3 p i e s3).2) :
    ∀ (entry : Entry) (path : Str) (s1 : σ1) (s3 : σ3), Inv s1 s3 →
      ¬ soft (walk f1 path entry s1).1 →
      Weak (walk f1 path entry s1).2 (walk f3 path entry s3).2
  | .file n c, path, s1, s3, hinv, hh => by
    rw [walk_file] at hh
    rw [walk_file, walk_file]
    exact hhard _ _ _ _ _ hinv hh
  | .dir n l ch, path, s1, s3, hinv, hh => by
    rw [walk_dir] at hh
    rw [walk_dir f1, walk_dir f3]
    by_cases hc : (!l || (f1 path (some (.dir n l ch)) (!l) s1).1.isSome) = true
    · rw [if_pos hc] at hh
      rw [if_pos hc]
      have hw := hhard _ _ _ _ _ hinv hh
      split
      · exact hw
      · exact walkNames_preserves (Weak _) f3 (fun p i e s h => hmono p i e _ s h) _ _ _ hw
    · rw [if_neg hc] at hh
      have hnone : (f1 path (some (.dir n l ch)) (!l) s1).1 = none := by
        cases hx : (f1 path (some (.dir n l ch)) (!l) s1).1 with
        | none => rfl
        | some x => rw [hx] at hc; simp at hc
      obtain ⟨h3, hi⟩ := hsoft _ _ _ _ _ hinv (Or.inl hnone)
      simp only [h3, if_neg hc]
      exact walkNames_hard Inv Weak f1 f3 hsoft hhard hmono ch path _ _ hi hh

/-- The same for the loop over the entries of a directory. -/
theorem walkNames_hard {σ1 σ3 : Type} (Inv Weak : σ1 → σ3 → Prop) (f1 : WalkFunc σ1)
    (f3 : WalkFunc σ3)
    (hsoft : ∀ p i e s1 s3, Inv s1 s3 → soft (f1 p i e s1).1 →
      (f3 p i e s3).1 = (f1 p i e s1).1 ∧ Inv (f1 p i e s1).2 (f3 p i e s3).2)
    (hhard : ∀ p i e s1 s3, Inv s1 s3 → ¬ soft (f1 p i e s1).1 →
      Weak (f1 p i e s1).2 (f3 p i e s3).2)
    (hmono : ∀ p i e s1 s3, Weak s1 s3 → Weak s1 (f3 p i e s3).2) :
    ∀ (entries : List Entry) (path : Str) (s1 : σ1) (s3 : σ3), Inv s1 s3 →
      ¬ soft (walkNames f1 path entries s1).1 →
      Weak (walkNames f1 path entries s1).2 (walkNames f3 path entries s3).2
  | [], path, s1, s3, _, hh => by
    rw [walkNames_nil] at hh
    exact absurd (Or.inl rfl) hh
  | e :: rest, path, s1, s3, hinv, hh => by
    by_cases hs : soft (walk f1 (Join [path, e.name]) e s1).1
    · obtain ⟨h3, hi⟩ := walk_soft Inv f1 f3 hsoft e (Join [path, e.name]) s1 s3 hinv hs
      cases hw : (walk f1 (Join [path, e.name]) e s1).1 with
      | none =>
        rw [walkNames_cons_none f1 _ _ _ _ hw] at hh ⊢
        rw [walkNames_cons_none f3 _ _ _ _ (h3.trans hw)]
        exact walkNames_hard Inv Weak f1 f3 hsoft hhard hmono rest path _ _ hi hh
      | some err =>
        rw [walkNames_cons_some f1 _ _ _ _ err hw] at hh ⊢
        rw [walkNames_cons_some f3 _ _ _ _ err (h3.trans hw)]
        by_cases hc : (!e.IsDir || err != WalkError.SkipDir) = true
        · rw [if_pos hc] at hh
          rw [hw] at hs
          exact absurd hs hh
        · rw [if_neg hc] at hh
          simp only [if_neg hc]
          exact walkNames_hard Inv Weak f1 f3 hsoft hhard hmono rest path _ _ hi hh
    · have hw1 := walk_hard Inv Weak f1 f3 hsoft hhard hmono e (Join [path, e.name]) s1 s3
        hinv hs
      have hpres : ∀ s, Weak (walk f1 (Join [path, e.name]) e s1).2 s →
          Weak (walk f1 (Join [path, e.name]) e s1).2 (walkNames f3 path rest s).2 :=
        fun s h => walkNames_preserves (Weak _) f3 (fun p i e s h => hmono p i e _ s h) _ _ _ h
      cases hw : (walk f1 (Join [path, e.name]) e s1).1 with
      | none => rw [hw] at hs; exact absurd (Or.inl rfl) hs
      | some err =>
        have herr : err ≠ WalkError.SkipDir := by
          rintro rfl
          rw [hw] at hs
          exact hs (Or.inr rfl)
        have hc : (!e.IsDir || err != WalkError.SkipDir) = true := by simp [herr]
        rw [walkNames_cons_some f1 _ _ _ _ err hw, if_pos hc]
        dsimp only
        cases hw3 : (walk f3 (Join [path, e.name]) e s3).1 with
        | none =>
          rw [walkNames_cons_none f3 _ _ _ _ hw3]
          exact hpres _ hw1
        | some err3 =>
          rw [walkNames_cons_some f3 _ _ _ _ err3 hw3]
          split
          · exact hw1
          · exact hpres _ hw1

end

/-- From the root: when the first walk returns nil the second returns nil and
the states are related; when it returns an error the states stand in the
weaker relation. -/
theorem Walk_stopped {σ1 σ3 : Type} (Inv Weak : σ1 → σ3 → Prop) (f1 : WalkFunc σ1)
    (f3 : WalkFunc σ3)
    (hsoft : ∀ p i e s1 s3, Inv s1 s3 → soft (f1 p i e s1).1 →
      (f3 p i e s3).1 = (f1 p i e s1).1 ∧ Inv (f1 p i e s1).2 (f3 p i e s3).2)
    (hhard : ∀ p i e s1 s3, Inv s1 s3 → ¬ soft (f1 p i e s1).1 →
      Weak (f1 p i e s1).2 (f3 p i e s3).2)
    (hmono : ∀ p i e s1 s3, Weak s1 s3 → Weak s1 (f3 p i e s3).2)
    (root : Str) (info : Option Entry) (s1 : σ1) (s3 : σ3) (hinv : Inv s1 s3) :
    ((Walk f1 root info s1).1 = none →
      (Walk f3 root info s3).1 = none ∧ Inv (Walk f1 root info s1).2 (Walk f3 root info s3).2) ∧
    ((Walk f1 root info s1).1 ≠ none →
      Weak (Walk f1 root info s1).2 (Walk f3 root info s3).2) := by
  rw [Walk_eq f1, Walk_eq f3]
  have key : ∀ (w1 : Option WalkError × σ1) (w3 : Option WalkError × σ3),
      (soft w1.1 → w3.1 = w1.1 ∧ Inv w1.2 w3.2) → (¬ soft w1.1 → Weak w1.2 w3.2) →
      ((if w1.1 = some WalkError.SkipDir then none else w1.1) = none →
        (if w3.1 = some WalkError.SkipDir then none else w3.1) = none ∧ Inv w1.2 w3.2) ∧
      ((if w1.1 = some WalkError.SkipDir then none else w1.1) ≠ none → Weak w1.2 w3.2) := by
    intro w1 w3 ha hb
    constructor
    · intro hn
      have hs : soft w1.1 := by
        by_cases hc : w1.1 = some WalkError.SkipDir
        · exact Or.inr hc
        · rw [if_neg hc] at hn; exact Or.inl hn
      obtain ⟨h3, hi⟩ := ha hs
      rw [h3]
      exact ⟨hn, hi⟩
    · intro hn
      apply hb
      rintro (h | h)
      · rw [h] at hn; simp at hn
      · rw [if_pos h] at hn; exact hn rfl
  cases info with
  | none =>
    exact key (f1 root none true s1) (f3 root none true s3) (hsoft _ _ _ _ _ hinv)
      (hhard _ _ _ _ _ hinv)
  | some e =>
    exact key (walk f1 root e s1) (walk f3 root e s3)
      (walk_soft Inv f1 f3 hsoft e root s1 s3 hinv)
      (walk_hard Inv Weak f1 f3 hsoft hhard hmono e root s1 s3 hinv)

end filepath
/-! ## The places of the entries in the pre-order -/

theorem placeBefore_append_left : ∀ (p a b : List Nat),
    placeBefore (p ++ a) (p ++ b) = placeBefore a b
  | [], _, _ => rfl
  | i :: p, a, b => by
    show placeBefore (i :: (p ++ a)) (i :: (p ++ b)) = placeBefore a b
    rw [placeBefore, placeBefore_append_left p a b]
    simp

theorem placeBefore_irrefl : ∀ a : List Nat, placeBefore a a = false
  | [] => rfl
  | i :: a => by
    simp only [placeBefore, placeBefore_irrefl a, lt_self_iff_false, decide_False,
      Bool.and_false, Bool.or_self]

theorem placeBefore_asymm : ∀ a b : List Nat, placeBefore a b = true → placeBefore b a = false
  | [], [], h => by simp [placeBefore] at h
  | [], _ :: _, _ => rfl
  | _ :: _, [], h => by simp [placeBefore] at h
  | i :: a, j :: b, h => by
    simp only [placeBefore, Bool.or_eq_true, decide_eq_true_eq, Bool.and_eq_true,
      beq_iff_eq] at h
    simp only [placeBefore, Bool.or_eq_false_iff, decide_eq_false_iff_not, not_lt,
      Bool.and_eq_false_iff, beq_eq_false_iff_ne, ne_eq]
    rcases h with h | ⟨h, hab⟩
    · exact ⟨Nat.le_of_lt h, Or.inl (Nat.ne_of_gt h)⟩
    · exact ⟨Nat.le_of_eq h, Or.inr (placeBefore_asymm a b hab)⟩

theorem placeBefore_nil_cons (j : Nat) (t : List Nat) : placeBefore [] (j :: t) = true := rfl

theorem placeBefore_of_extends {a b : List Nat} (h : a <+: b) (hne : a ≠ b) :
    placeBefore a b = true := by
  obtain ⟨t, rfl⟩ := h
  cases t with
  | nil => exact absurd (List.append_nil a).symm hne
  | cons j t =>
    have := placeBefore_append_left a [] (j :: t)
    rw [List.append_nil] at this
    rw [this]
    rfl

namespace filepath

mutual

theorem preorderAt_place : ∀ (place : List Nat) (path : Str) (e : Entry)
    (x : List Nat × Str × Option Entry × Bool), x ∈ preorderAt place path e →
    x.1 = place ∨ ∃ j t, x.1 = place ++ j :: t
  | place, path, .file n c, x, h => by
    rw [preorderAt, List.mem_singleton] at h
    exact Or.inl (by rw [h])
  | place, path, .dir n listable children, x, h => by
    rw [preorderAt, List.mem_cons] at h
    rcases h with h | h
    · exact Or.inl (by rw [h])
    · cases listable with
      | false => simp at h
      | true =>
        rw [if_pos rfl] at h
        obtain ⟨j, t, _, ht⟩ := preorderNamesAt_place place 0 path children x h
        exact Or.inr ⟨j, t, ht⟩

theorem preorderNamesAt_place : ∀ (place : List Nat) (k : Nat) (path : Str) (es : List Entry)
    (x : List Nat × Str × Option Entry × Bool), x ∈ preorderNamesAt place k path es →
    ∃ j t, k ≤ j ∧ x.1 = place ++ j :: t
  | _, _, _, [], x, h => by simp [preorderNamesAt] at h
  | place, k, path, e :: rest, x, h => by
    rw [preorderNamesAt, List.mem_append] at h
    rcases h with h | h
    · rcases preorderAt_place (place ++ [k]) _ e x h with h1 | ⟨j, t, h1⟩
      · exact ⟨k, [], Nat.le_refl _, by rw [h1]⟩
      · exact ⟨k, j :: t, Nat.le_refl _, by rw [h1]; simp⟩
    · obtain ⟨j, t, hj, ht⟩ := preorderNamesAt_place place (k + 1) path rest x h
      exact ⟨j, t, by omega, ht⟩

end

mutual

/-- In the pre-order the places increase: a folder comes before everything
inside it, and an entry with all that lies below it comes before the entries
that follow it in its directory. -/
theorem preorderAt_sorted : ∀ (place : List Nat) (path : Str) (e : Entry),
    (preorderAt place path e).Pairwise (fun x y => placeBefore x.1 y.1 = true)
  | place, path, .file n c => by
    rw [preorderAt]
    exact List.pairwise_singleton _ _
  | place, path, .dir n listable children => by
    rw [preorderAt, List.pairwise_cons]
    cases listable with
    | false => simp
    | true =>
      rw [if_pos rfl]
      refine ⟨fun y hy => ?_, preorderNamesAt_sorted place 0 path children⟩
      obtain ⟨j, t, _, ht⟩ := preorderNamesAt_place place 0 path children y hy
      show placeBefore place y.1 = true
      rw [ht]
      exact placeBefore_of_extends (List.prefix_append _ _) (by simp)

theorem preorderNamesAt_sorted : ∀ (place : List Nat) (k : Nat) (path : Str) (es : List Entry),
    (preorderNamesAt place k path es).Pairwise (fun x y => placeBefore x.1 y.1 = true)
  | _, _, _, [] => by
    rw [preorderNamesAt]
    exact List.Pairwise.nil
  | place, k, path, e :: rest => by
    rw [preorderNamesAt, List.pairwise_append]
    refine ⟨preorderAt_sorted _ _ e, preorderNamesAt_sorted place (k + 1) path rest,
      fun x hx y hy => ?_⟩
    obtain ⟨j, t, hj, ht⟩ := preorderNamesAt_place place (k + 1) path rest y hy
    have hx1 : ∃ s, x.1 = place ++ k :: s := by
      rcases preorderAt_place (place ++ [k]) _ e x hx with h1 | ⟨i, s, h1⟩
      · exact ⟨[], by rw [h1]⟩
      · exact ⟨i :: s, by rw [h1]; simp⟩
    obtain ⟨s, hs⟩ := hx1
    rw [hs, ht, placeBefore_append_left]
    simp only [placeBefore, Bool.or_eq_true, decide_eq_true_eq]
    exact Or.inl (by omega)

end

mutual

theorem preorderAt_map_snd : ∀ (place : List Nat) (path : Str) (e : Entry),
    (preorderAt place path e).map Prod.snd = preorder path e
  | place, path, .file n c => by
    rw [preorderAt, preorder]
    rfl
  | place, path, .dir n listable children => by
    rw [preorderAt, preorder, List.map_cons]
    cases listable with
    | false => rfl
    | true =>
      rw [if_pos rfl, if_pos rfl, preorderNamesAt_map_snd place 0 path children]

theorem preorderNamesAt_map_snd : ∀ (place : List Nat) (k : Nat) (path : Str) (es : List Entry),
    (preorderNamesAt place k path es).map Prod.snd = preorderNames path es
  | _, _, _, [] => by
    rw [preorderNamesAt, preorderNames]
    rfl
  | place, k, path, e :: rest => by
    rw [preorderNamesAt, preorderNames, List.map_append, preorderAt_map_snd,
      preorderNamesAt_map_snd place (k + 1) path rest]

end

theorem preorderRootAt_map_snd (root : Str) (info : Option Entry) :
    (preorderRootAt root info).map Prod.snd = preorderRoot root info := by
  cases info with
  | none => rfl
  | some e => exact preorderAt_map_snd [] root e

theorem preorderRootAt_sorted (root : Str) (info : Option Entry) :
    (preorderRootAt root info).Pairwise (fun x y => placeBefore x.1 y.1 = true) := by
  cases info with
  | none => exact List.pairwise_singleton _ _
  | some e => exact preorderAt_sorted [] root e

end filepath

/-- The records emitted, each with the place of the entry it was made for:
they come from entries of the tree, and their places increase in
pre-order. -/
theorem emitted_places (lower : Char → Char) (config : Config) (root : Option Entry)
    (localIP rootPath : Str) (patterns : List Str) (hostname : Str) :
    ∃ E : List (List Nat × Str × FileInfo),
      E.map Prod.snd = emitted lower config root localIP rootPath patterns hostname ∧
      (∀ x ∈ E, ∃ v ∈ filepath.preorderRootAt rootPath root, v.1 = x.1 ∧
        recordAt lower config rootPath patterns
          (matchedFoldersOf lower config rootPath root patterns) hostname localIP v.2 =
            some x.2) ∧
      E.Pairwise (fun x y => placeBefore x.1 y.1 = true) := by
  have hsub := visited_sublist_preorder lower config root localIP rootPath patterns hostname
  rw [← filepath.preorderRootAt_map_snd, List.sublist_map_iff] at hsub
  obtain ⟨VA, hVA, hv⟩ := hsub
  refine ⟨VA.filterMap (fun x => (recordAt lower config rootPath patterns
    (matchedFoldersOf lower config rootPath root patterns) hostname localIP x.2).map
      (fun r => (x.1, r))), ?_, ?_, ?_⟩
  · rw [emitted_eq_filterMap_visited, hv, List.filterMap_map, List.map_filterMap]
    congr 1
    funext x
    simp only [Function.comp]
    cases recordAt lower config rootPath patterns
      (matchedFoldersOf lower config rootPath root patterns) hostname localIP x.2 <;> rfl
  · intro x hx
    obtain ⟨v, hv1, hv2⟩ := List.mem_filterMap.1 hx
    refine ⟨v, hVA.subset hv1, ?_⟩
    cases hr : recordAt lower config rootPath patterns
      (matchedFoldersOf lower config rootPath root patterns) hostname localIP v.2 with
    | none => rw [hr] at hv2; cases hv2
    | some r =>
      rw [hr] at hv2
      simp only [Option.map_some', Option.some.injEq] at hv2
      rw [← hv2]
      exact ⟨rfl, rfl⟩
  · refine List.Pairwise.filterMap _ ?_ ((filepath.preorderRootAt_sorted rootPath root).sublist hVA)
    intro a a' haa b hb b' hb'
    cases hr : recordAt lower config rootPath patterns
      (matchedFoldersOf lower config rootPath root patterns) hostname localIP a.2 with
    | none => rw [hr] at hb; cases hb
    | some r =>
      cases hr' : recordAt lower config rootPath patterns
        (matchedFoldersOf lower config rootPath root patterns) hostname localIP a'.2 with
      | none => rw [hr'] at hb'; cases hb'
      | some r' =>
        rw [hr] at hb
        rw [hr'] at hb'
        simp only [Option.map_some', Option.mem_def, Option.some.injEq] at hb hb'
        rw [← hb, ← hb']
        exact haa

/-- In a list whose places increase in pre-order, an element whose place is
a proper prefix of the place of another stands before it. -/
theorem index_lt_of_place_inside {α : Type} (E : List (List Nat × α))
    (hE : E.Pairwise (fun x y => placeBefore x.1 y.1 = true)) (i j : Nat) (hi : i < E.length)
    (hj : j < E.length) (hp : (E.get ⟨i, hi⟩).1 <+: (E.get ⟨j, hj⟩).1)
    (hne : (E.get ⟨i, hi⟩).1 ≠ (E.get ⟨j, hj⟩).1) : i < j := by
  have hb := placeBefore_of_extends hp hne
  rcases Nat.lt_trichotomy i j with h | h | h
  · exact h
  · subst h
    exact absurd rfl hne
  · have := List.pairwise_iff_getElem.1 hE j i hj hi h
    have h2 := placeBefore_asymm _ _ this
    simp only [List.get_eq_getElem] at hb
    rw [hb] at h2
    cases h2

/-! ## C24, C25: the order of the records of a pass, and passes one after another -/

theorem Step.run_soft (s : Step) (hs : ∀ r oe, s = .send r oe → oe ≠ WalkError.SkipDir)
    (c : Conn) (h : soft (s.run c).1) :
    (s.run c).1 = s.result ∧ (s.run c).2.sent = c.sent ++ s.record.toList := by
  cases s with
  | done x => exact ⟨rfl, by simp [Step.run, Step.record]⟩
  | send r oe =>
    rcases Conn.encode_cases c r with ⟨he, _⟩ | ⟨he, _⟩ | ⟨k, he, _⟩
    · have : ((Step.send r oe).run c).1 = some oe := by simp [Step.run, he]
      rw [this] at h
      rcases h with h | h
      · cases h
      · exact absurd (Option.some.inj h) (hs r oe rfl)
    · simp [Step.run, he, Step.result, Step.record]
    · simp [Step.run, he, Step.result, Step.record]

theorem Step.run_hard (s : Step) (c : Conn) (h : ¬ soft (s.run c).1) : (s.run c).2 = c := by
  cases s with
  | done x => rfl
  | send r oe =>
    rcases Conn.encode_cases c r with ⟨he, _⟩ | ⟨he, _⟩ | ⟨k, he, _⟩
    · simp [Step.run, he]
    · exact absurd (Or.inl (by simp [Step.run, he])) h
    · exact absurd (Or.inl (by simp [Step.run, he])) h

/-- What a discovery pass has sent when it returns: the records emitted, all
of them when it returns nil, and a first part of them in any case. -/
theorem searchAndSendFiles_sent (lower : Char → Char) (config : Config) (root : Option Entry)
    (localIP rootPath : Str) (patterns : List Str) (conn : Conn) (hostname : Str) :
    ((searchAndSendFiles lower config root localIP rootPath patterns conn hostname).1 = none →
      (searchAndSendFiles lower config root localIP rootPath patterns conn hostname).2.sent =
        conn.sent ++ (emitted lower config root localIP rootPath patterns hostname).map Prod.snd) ∧
    ∃ P, P <+: emitted lower config root localIP rootPath patterns hostname ∧
      (searchAndSendFiles lower config root localIP rootPath patterns conn hostname).2.sent =
        conn.sent ++ P.map Prod.snd := by
  unfold searchAndSendFiles emitted
  generalize matchedFoldersOf lower config rootPath root patterns = mf
  have hoe : ∀ p i e r oe,
      secondPassStep lower config rootPath patterns mf hostname localIP p i e = .send r oe →
      oe ≠ WalkError.SkipDir := fun p i e r oe h =>
    (secondPassStep_send _ _ _ _ _ _ _ _ _ _ _ _ h).1
  obtain ⟨h1, h2⟩ := filepath.Walk_stopped
    (fun (c : Conn) (L : List (Str × FileInfo)) => c.sent = conn.sent ++ L.map Prod.snd)
    (fun (c : Conn) (L : List (Str × FileInfo)) =>
      ∃ P, P <+: L ∧ c.sent = conn.sent ++ P.map Prod.snd)
    (secondPass lower config rootPath patterns mf hostname localIP)
    (recordSends (secondPass lower config rootPath patterns mf hostname localIP))
    (fun p i e c L hinv hs => by
      rw [recordSends_secondPass]
      rw [secondPass_eq_run] at hs ⊢
      obtain ⟨a, b⟩ := Step.run_soft _ (hoe p i e) c hs
      refine ⟨a.symm, ?_⟩
      dsimp only
      rw [b, hinv]
      unfold recordAt
      cases (secondPassStep lower config rootPath patterns mf hostname localIP p i e).record <;>
        simp)
    (fun p i e c L hinv hh => by
      rw [recordSends_secondPass]
      rw [secondPass_eq_run] at hh ⊢
      rw [Step.run_hard _ c hh]
      exact ⟨L, List.prefix_append _ _, hinv⟩)
    (fun p i e c L hw => by
      obtain ⟨P, hP, hc⟩ := hw
      rw [recordSends_secondPass]
      exact ⟨P, hP.trans (List.prefix_append _ _), hc⟩)
    rootPath root conn [] (by simp)
  refine ⟨fun hn => (h1 hn).2, ?_⟩
  by_cases hn : (filepath.Walk (secondPass lower config rootPath patterns mf hostname localIP)
      rootPath root conn).1 = none
  · exact ⟨_, List.prefix_refl _, (h1 hn).2⟩
  · exact h2 hn

/-- C24. The records of a discovery pass go onto the wire in the order of
the walk, which is the depth-first pre-order of the tree. (1) What the pass
has sent is the connection's earlier content followed by a first part of the
list `emitted`, and by all of it when the pass returns nil. (2) `emitted` is
the list of the calls of the walk function, in their order, each replaced by
the record made at it, if any. (3) The calls are a sub-list of the pre-order
of the tree. (4) Every record emitted is the record of an entry of the tree,
and along the list the places of these entries increase in pre-order; so a
record made for a folder, its marker, stands before every record made for an
entry inside that folder (an entry whose place extends the place of the
folder). (5) When the walk function returns nil at every entry of the tree
(nothing is cut off by the depth limit or an error) the calls are the whole
pre-order. -/
theorem records_sent_in_walk_order (lower : Char → Char) (config : Config)
    (root : Option Entry) (localIP rootPath : Str) (patterns : List Str) (conn : Conn)
    (hostname : Str) :
    ((∃ P, P <+: emitted lower config root localIP rootPath patterns hostname ∧
        (searchAndSendFiles lower config root localIP rootPath patterns conn hostname).2.sent =
          conn.sent ++ P.map Prod.snd) ∧
      ((searchAndSendFiles lower config root localIP rootPath patterns conn hostname).1 = none →
        (searchAndSendFiles lower config root localIP rootPath patterns conn hostname).2.sent =
          conn.sent ++
            (emitted lower config root localIP rootPath patterns hostname).map Prod.snd)) ∧
    emitted lower config root localIP rootPath patterns hostname =
      (visited lower config root localIP rootPath patterns hostname).filterMap
        (recordAt lower config rootPath patterns
          (matchedFoldersOf lower config rootPath root patterns) hostname localIP) ∧
    (visited lower config root localIP rootPath patterns hostname).Sublist
      (filepath.preorderRoot rootPath root) ∧
    (∃ E : List (List Nat × Str × FileInfo),
      E.map Prod.snd = emitted lower config root localIP rootPath patterns hostname ∧
      (∀ x ∈ E, ∃ v ∈ filepath.preorderRootAt rootPath root, v.1 = x.1 ∧
        recordAt lower config rootPath patterns
          (matchedFoldersOf lower config rootPath root patterns) hostname localIP v.2 =
            some x.2) ∧
      E.Pairwise (fun x y => placeBefore x.1 y.1 = true) ∧
      ∀ (i j : Nat) (hi : i < E.length) (hj : j < E.length),
        (E.get ⟨i, hi⟩).1 <+: (E.get ⟨j, hj⟩).1 → (E.get ⟨i, hi⟩).1 ≠ (E.get ⟨j, hj⟩).1 →
        i < j) ∧
    ((∀ v ∈ filepath.preorderRoot rootPath root,
        (secondPassStep lower config rootPath patterns
          (matchedFoldersOf lower config rootPath root patterns) hostname localIP
          v.1 v.2.1 v.2.2).result = none) →
      visited lower config root localIP rootPath patterns hostname =
        filepath.preorderRoot rootPath root) := by
  obtain ⟨h1, h2⟩ := searchAndSendFiles_sent lower config root localIP rootPath patterns conn
    hostname
  obtain ⟨E, e1, e2, e3⟩ := emitted_places lower config root localIP rootPath patterns hostname
  exact ⟨⟨h2, h1⟩, emitted_eq_filterMap_visited _ _ _ _ _ _ _,
    visited_sublist_preorder _ _ _ _ _ _ _,
    ⟨E, e1, e2, e3, fun i j hi hj hp hne => index_lt_of_place_inside E e3 i j hi hj hp hne⟩,
    visited_eq_preorder _ _ _ _ _ _ _⟩

set_option maxRecDepth 100000 in
/-- Witness for `records_sent_in_walk_order` (C24): the folder `tugas` with
`a.c`, the folder `sub` holding `b.c`, and `z.c`; the pass returns nil, and
the walk function returns nil at every entry. -/
theorem records_sent_in_walk_order_witness :
    (searchAndSendFiles strings.asciiLower ⟨[], str "tugas", false, true, true⟩
        (some (.dir (str "tugas") true [.file (str "a.c") (some [1]),
          .dir (str "sub") true [.file (str "b.c") (some [2])], .file (str "z.c") (some [3])]))
        (str "10.0.0.7") (str "tugas") [str "tugas"] ⟨[], some 9⟩ (str "pc")).2.sent =
      [⟨str ".", none, str "10.0.0.7", str "pc"⟩,
        ⟨str "a.c", some [1], str "10.0.0.7", str "pc"⟩,
        ⟨str "sub/b.c", some [2], str "10.0.0.7", str "pc"⟩,
        ⟨str "z.c", some [3], str "10.0.0.7", str "pc"⟩] ∧
    visited strings.asciiLower ⟨[], str "tugas", false, true, true⟩
        (some (.dir (str "tugas") true [.file (str "a.c") (some [1]),
          .dir (str "sub") true [.file (str "b.c") (some [2])], .file (str "z.c") (some [3])]))
        (str "10.0.0.7") (str "tugas") [str "tugas"] (str "pc") =
      filepath.preorderRoot (str "tugas")
        (some (.dir (str "tugas") true [.file (str "a.c") (some [1]),
          .dir (str "sub") true [.file (str "b.c") (some [2])], .file (str "z.c") (some [3])])) :=
  ⟨((records_sent_in_walk_order strings.asciiLower ⟨[], str "tugas", false, true, true⟩
      (some (.dir (str "tugas") true [.file (str "a.c") (some [1]),
        .dir (str "sub") true [.file (str "b.c") (some [2])], .file (str "z.c") (some [3])]))
      (str "10.0.0.7") (str "tugas") [str "tugas"] ⟨[], some 9⟩ (str "pc")).1.2
      (by decide)).trans (by decide),
    (records_sent_in_walk_order strings.asciiLower ⟨[], str "tugas", false, true, true⟩
      (some (.dir (str "tugas") true [.file (str "a.c") (some [1]),
        .dir (str "sub") true [.file (str "b.c") (some [2])], .file (str "z.c") (some [3])]))
      (str "10.0.0.7") (str "tugas") [str "tugas"] ⟨[], some 9⟩ (str "pc")).2.2.2.2
      (by decide)⟩

/-- C25. A discovery pass keeps nothing from one run to the next. Take two
passes over the same tree with the same search root, patterns and
configuration, on any two connections, and let the second return nil. What
the second has sent is its connection's earlier content followed by a list
of records that does not depend on the connection; the first, whether it
returned nil or stopped part-way, has sent a first part of that same list,
and all of it if it returned nil. -/
theorem passes_emit_the_same_records (lower : Char → Char) (config : Config)
    (root : Option Entry) (localIP rootPath : Str) (patterns : List Str) (conn1 conn2 : Conn)
    (hostname : Str)
    (h2 : (searchAndSendFiles lower config root localIP rootPath patterns conn2 hostname).1 =
      none) :
    (searchAndSendFiles lower config root localIP rootPath patterns conn2 hostname).2.sent =
      conn2.sent ++ (emitted lower config root localIP rootPath patterns hostname).map Prod.snd ∧
    (∃ k, (searchAndSendFiles lower config root localIP rootPath patterns conn1 hostname).2.sent =
      conn1.sent ++
        ((emitted lower config root localIP rootPath patterns hostname).map Prod.snd).take k) ∧
    ((searchAndSendFiles lower config root localIP rootPath patterns conn1 hostname).1 = none →
      (searchAndSendFiles lower config root localIP rootPath patterns conn1 hostname).2.sent =
        conn1.sent ++
          (emitted lower config root localIP rootPath patterns hostname).map Prod.snd) := by
  obtain ⟨a1, P, hP, a2⟩ := searchAndSendFiles_sent lower config root localIP rootPath patterns
    conn1 hostname
  obtain ⟨b1, _⟩ := searchAndSendFiles_sent lower config root localIP rootPath patterns
    conn2 hostname
  refine ⟨b1 h2, ⟨P.length, ?_⟩, a1⟩
  rw [a2]
  congr 1
  obtain ⟨t, ht⟩ := hP
  rw [← ht, List.map_append, List.take_left']
  simp

set_option maxRecDepth 100000 in
/-- Witness for `passes_emit_the_same_records` (C25): the first connection
fails after one record, the second holds. -/
theorem passes_emit_the_same_records_witness :
    (searchAndSendFiles strings.asciiLower ⟨[], str "tugas", false, true, false⟩
        (some (.dir (str "tugas") true [.file (str "tugas1.c") (some [1]),
          .file (str "tugas2.c") (some [2]), .file (str "tugas3.c") (some [3])]))
        (str "10.0.0.7") (str "tugas") [str "tugas"] ⟨[], none⟩ (str "pc")).2.sent =
      ([] : List FileInfo) ++
        (emitted strings.asciiLower ⟨[], str "tugas", false, true, false⟩
          (some (.dir (str "tugas") true [.file (str "tugas1.c") (some [1]),
            .file (str "tugas2.c") (some [2]), .file (str "tugas3.c") (some [3])]))
          (str "10.0.0.7") (str "tugas") [str "tugas"] (str "pc")).map Prod.snd ∧
    (searchAndSendFiles strings.asciiLower ⟨[], str "tugas", false, true, false⟩
        (some (.dir (str "tugas") true [.file (str "tugas1.c") (some [1]),
          .file (str "tugas2.c") (some [2]), .file (str "tugas3.c") (some [3])]))
        (str "10.0.0.7") (str "tugas") [str "tugas"] ⟨[], some 1⟩ (str "pc")) =
      (some WalkError.sendingFile,
        ⟨[⟨str "tugas1.c", some [1], str "10.0.0.7", str "pc"⟩], some 0⟩) :=
  ⟨(passes_emit_the_same_records strings.asciiLower ⟨[], str "tugas", false, true, false⟩
      (some (.dir (str "tugas") true [.file (str "tugas1.c") (some [1]),
        .file (str "tugas2.c") (some [2]), .file (str "tugas3.c") (some [3])]))
      (str "10.0.0.7") (str "tugas") [str "tugas"] ⟨[], some 1⟩ ⟨[], none⟩ (str "pc")
      (by decide)).1, by decide⟩

/-! ## C22: files that cannot be read -/

theorem Entry.blind_name (bad : Str → Bool) (p : Str) (e : Entry) :
    (Entry.blind bad p e).name = e.name := by
  cases e <;> (rw [Entry.blind]; rfl)

theorem Entry.blind_isDir (bad : Str → Bool) (p : Str) (e : Entry) :
    (Entry.blind bad p e).IsDir = e.IsDir := by
  cases e <;> (rw [Entry.blind]; rfl)

namespace filepath

mutual

/-- Walking the tree in which reading fails at the paths `bad` is walking the
tree itself with a walk function that sees reading fail at these paths. -/
theorem walk_blind {σ : Type} (bad : Str → Bool) (fn : WalkFunc σ) :
    ∀ (entry : Entry) (path : Str) (s : σ),
      walk fn path (Entry.blind bad path entry) s =
        walk (fun p i e s => fn p (i.map (Entry.blind bad p)) e s) path entry s
  | .file n c, path, s => by
    rw [Entry.blind, walk_file, walk_file]
    simp only [Option.map_some', Entry.blind]
  | .dir n l ch, path, s => by
    rw [Entry.blind, walk_dir, walk_dir]
    simp only [Option.map_some', Entry.blind]
    rw [walkNames_blind bad fn ch path]

/-- The same for the loop over the entries of a directory. -/
theorem walkNames_blind {σ : Type} (bad : Str → Bool) (fn : WalkFunc σ) :
    ∀ (entries : List Entry) (path : Str) (s : σ),
      walkNames fn path (Entry.blindNames bad path entries) s =
        walkNames (fun p i e s => fn p (i.map (Entry.blind bad p)) e s) path entries s
  | [], path, s => by
    rw [Entry.blindNames, walkNames_nil, walkNames_nil]
  | e :: rest, path, s => by
    rw [Entry.blindNames]
    have hsub := walk_blind bad fn e (Join [path, e.name]) s
    have hn : Join [path, (Entry.blind bad (Join [path, e.name]) e).name] =
        Join [path, e.name] := by rw [Entry.blind_name]
    cases hw : (walk (fun p i e s => fn p (i.map (Entry.blind bad p)) e s)
        (Join [path, e.name]) e s).1 with
    | none =>
      rw [walkNames_cons_none _ _ _ _ _ hw,
        walkNames_cons_none fn _ _ _ _ (by rw [hn, hsub]; exact hw), hn, hsub]
      exact walkNames_blind bad fn rest path _
    | some err =>
      rw [walkNames_cons_some _ _ _ _ _ err hw,
        walkNames_cons_some fn _ _ _ _ err (by rw [hn, hsub]; exact hw), hn, hsub,
        Entry.blind_isDir, walkNames_blind bad fn rest path]

end

theorem Walk_blind {σ : Type} (bad : Str → Bool) (fn : WalkFunc σ) (root : Str)
    (info : Option Entry) (s : σ) :
    Walk fn root (info.map (Entry.blind bad root)) s =
      Walk (fun p i e s => fn p (i.map (Entry.blind bad p)) e s) root info s := by
  unfold Walk
  cases info with
  | none => rfl
  | some e =>
    simp only [Option.map_some']
    rw [walk_blind]

end filepath

theorem firstPass_blind (lower : Char → Char) (patterns : List Str) (bad : Str → Bool) :
    (fun p i e s => firstPass lower patterns p (i.map (Entry.blind bad p)) e s) =
      firstPass lower patterns := by
  funext p i e s
  unfold firstPass
  cases i with
  | none => rfl
  | some info => simp only [Option.map_some', Entry.blind_isDir]

theorem matchedFoldersOf_blind (lower : Char → Char) (config : Config) (rootPath : Str)
    (root : Option Entry) (patterns : List Str) (bad : Str → Bool) :
    matchedFoldersOf lower config rootPath (root.map (Entry.blind bad rootPath)) patterns =
      matchedFoldersOf lower config rootPath root patterns := by
  unfold matchedFoldersOf
  rw [filepath.Walk_blind, firstPass_blind]

/-- One entry of the walk, for any selection `keep` of records: when the first
run goes on after it, the run that leaves out the records not kept returns the
same, and the two connections and the list of emitted records stay related. -/
theorem step_sim_keep (keep : Str × FileInfo → Bool) (base : List FileInfo) (p : Str) (sOff sOn : Step)
    (h1 : ∀ x, sOff = .done x → sOn = .done x ∨ (x = some WalkError.rel ∧ sOn = .done none))
    (h2 : ∀ r oe, sOff = .send r oe → oe ≠ WalkError.SkipDir ∧
      ((keep (p, r) = true ∧ sOn = .send r oe) ∨
        (keep (p, r) = false ∧ sOn = .done none)))
    (cOff cOn : Conn) (log : List (Str × FileInfo)) (hinv : keepInv keep base cOff cOn log)
    (hsoft : soft (sOff.run cOff).1) :
    (sOn.run cOn).1 = (sOff.run cOff).1 ∧
      (sOff.run ⟨[], none⟩).1 = (sOff.run cOff).1 ∧
      keepInv keep base (sOff.run cOff).2 (sOn.run cOn).2
        (log ++ (sOff.run ⟨[], none⟩).2.sent.map (fun r => (p, r))) := by
  obtain ⟨i1, i2, i3⟩ := hinv
  cases sOff with
  | done x =>
    rcases h1 x rfl with h | ⟨hx, _⟩
    · subst h
      refine ⟨rfl, rfl, ?_⟩
      simp only [Step.run, List.map_nil, List.append_nil]
      exact ⟨i1, i2, i3⟩
    · subst hx
      rcases hsoft with h | h <;> cases h
  | send r oe =>
    obtain ⟨hoe, hon⟩ := h2 r oe rfl
    have hscratch : (Step.send r oe).run ⟨[], none⟩ = (none, ⟨[r], none⟩) := rfl
    rw [hscratch]
    rcases Conn.encode_cases cOff r with ⟨he, _⟩ | ⟨he, hr⟩ | ⟨k, he, hr⟩
    · have : ((Step.send r oe).run cOff).1 = some oe := by simp [Step.run, he]
      rw [this] at hsoft
      rcases hsoft with h | h
      · cases h
      · exact absurd (Option.some.inj h) hoe
    · have hoff : (Step.send r oe).run cOff = (none, ⟨cOff.sent ++ [r], none⟩) := by
        simp [Step.run, he]
      rw [hoff]
      rw [hr] at i3
      rcases hon with ⟨hp, h⟩ | ⟨hp, h⟩
      · subst h
        cases hro : cOn.room with
        | some k => rw [hro] at i3; exact absurd i3 (by simp [roomLe])
        | none =>
          have hon2 : (Step.send r oe).run cOn = (none, ⟨cOn.sent ++ [r], none⟩) := by
            obtain ⟨s, ro⟩ := cOn
            simp only at hro
            subst hro
            rfl
          rw [hon2]
          refine ⟨rfl, rfl, ?_, ?_, ?_⟩
          · simp [i1]
          · simp [i2, List.filter_append, hp]
          · simp [roomLe]
      · subst h
        refine ⟨rfl, rfl, ?_, ?_, ?_⟩
        · simp [i1]
        · simp [Step.run, i2, List.filter_append, hp]
        · simpa [Step.run] using i3
    · have hoff : (Step.send r oe).run cOff = (none, ⟨cOff.sent ++ [r], some k⟩) := by
        simp [Step.run, he]
      rw [hoff]
      rw [hr] at i3
      cases hro : cOn.room with
      | none => rw [hro] at i3; exact absurd i3 (by simp [roomLe])
      | some m =>
        rw [hro] at i3
        have hkm : k + 1 ≤ m := i3
        rcases hon with ⟨hp, h⟩ | ⟨hp, h⟩
        · subst h
          obtain ⟨m1, rfl⟩ : ∃ m1, m = m1 + 1 := ⟨m - 1, by omega⟩
          have hon2 : (Step.send r oe).run cOn = (none, ⟨cOn.sent ++ [r], some m1⟩) := by
            obtain ⟨s, ro⟩ := cOn
            simp only at hro
            subst hro
            rfl
          rw [hon2]
          refine ⟨rfl, rfl, ?_, ?_, ?_⟩
          · simp [i1]
          · simp [i2, List.filter_append, hp]
          · show k ≤ m1
            omega
        · subst h
          refine ⟨rfl, rfl, ?_, ?_, ?_⟩
          · simp [i1]
          · simp [Step.run, i2, List.filter_append, hp]
          · show roomLe (some k) cOn.room
            rw [hro]
            show k ≤ m
            omega

theorem secondPassStep_unreadable (lower : Char → Char) (c : Config) (rootPath : Str)
    (patterns matchedFolders : List Str) (hostname localIP : Str) (p n : Str)
    (content : Option (List UInt8)) (e : Bool) :
    (secondPassStep lower c rootPath patterns matchedFolders hostname localIP p
          (some (.file n none)) e =
        secondPassStep lower c rootPath patterns matchedFolders hostname localIP p
          (some (.file n content)) e ∧
      ∀ r oe, secondPassStep lower c rootPath patterns matchedFolders hostname localIP p
        (some (.file n content)) e ≠ .send r oe) ∨
    (secondPassStep lower c rootPath patterns matchedFolders hostname localIP p
          (some (.file n none)) e = .done none ∧
      ∃ r oe, secondPassStep lower c rootPath patterns matchedFolders hostname localIP p
        (some (.file n content)) e = .send r oe) := by
  unfold secondPassStep
  simp only [Entry.IsDir, Bool.false_eq_true, if_false]
  repeat' split
  all_goals simp_all

theorem step_rel_of_eq (keep : Str × FileInfo → Bool) (p : Str) (sO sB : Step)
    (hoe : ∀ r oe, sO = .send r oe → oe ≠ WalkError.SkipDir) (hs : sB = sO)
    (hk : ∀ r oe, sO = .send r oe → keep (p, r) = true) :
    (∀ x, sO = .done x → sB = .done x ∨ (x = some WalkError.rel ∧ sB = .done none)) ∧
    (∀ r oe, sO = .send r oe → oe ≠ WalkError.SkipDir ∧
      ((keep (p, r) = true ∧ sB = .send r oe) ∨ (keep (p, r) = false ∧ sB = .done none))) := by
  rw [hs]
  exact ⟨fun x hx => Or.inl hx, fun r oe h => ⟨hoe r oe h, Or.inl ⟨hk r oe h, h⟩⟩⟩

/-- How the decision at an entry changes when reading fails at the paths
`bad`. -/
theorem secondPassStep_blind_rel (lower : Char → Char) (c : Config) (rootPath : Str)
    (patterns matchedFolders : List Str) (hostname localIP : Str) (bad : Str → Bool) (p : Str)
    (i : Option Entry) (e : Bool) :
    (∀ x, secondPassStep lower c rootPath patterns matchedFolders hostname localIP p i e =
        .done x →
      secondPassStep lower c rootPath patterns matchedFolders hostname localIP p
          (i.map (Entry.blind bad p)) e = .done x ∨
        (x = some WalkError.rel ∧
          secondPassStep lower c rootPath patterns matchedFolders hostname localIP p
            (i.map (Entry.blind bad p)) e = .done none)) ∧
    (∀ r oe, secondPassStep lower c rootPath patterns matchedFolders hostname localIP p i e =
        .send r oe →
      oe ≠ WalkError.SkipDir ∧
        ((notBlinded bad (p, r) = true ∧
          secondPassStep lower c rootPath patterns matchedFolders hostname localIP p
            (i.map (Entry.blind bad p)) e = .send r oe) ∨
        (notBlinded bad (p, r) = false ∧
          secondPassStep lower c rootPath patterns matchedFolders hostname localIP p
            (i.map (Entry.blind bad p)) e = .done none))) := by
  have hsame := step_rel_of_eq (notBlinded bad) p
    (secondPassStep lower c rootPath patterns matchedFolders hostname localIP p i e)
    (secondPassStep lower c rootPath patterns matchedFolders hostname localIP p
      (i.map (Entry.blind bad p)) e)
    (fun r oe h => (secondPassStep_send _ _ _ _ _ _ _ _ _ _ _ _ h).1)
  have hmarker : (∀ n content, i ≠ some (.file n content)) →
      ∀ r oe, secondPassStep lower c rootPath patterns matchedFolders hostname localIP p i e =
        .send r oe → notBlinded bad (p, r) = true := by
    intro hd r oe h
    have h2 := (secondPassStep_send _ _ _ _ _ _ _ _ _ _ _ _ h).2
    unfold notBlinded
    cases hb : r.Content.isNone with
    | true => rfl
    | false =>
      obtain ⟨n, content, hi⟩ := h2.2 hb
      exact absurd hi (hd n content)
  cases i with
  | none => exact hsame rfl (hmarker (fun n content h => by cases h))
  | some info =>
    cases info with
    | dir n l ch =>
      refine hsame ?_ (hmarker (fun n content h => by cases h))
      unfold secondPassStep
      simp only [Option.map_some', Entry.blind, Entry.IsDir]
    | file n content =>
      by_cases hb : bad p = true
      · have hblind : (some (Entry.file n content)).map (Entry.blind bad p) =
            some (.file n none) := by
          simp only [Option.map_some', Entry.blind, hb, if_true]
        rw [hblind]
        rcases secondPassStep_unreadable lower c rootPath patterns matchedFolders hostname
          localIP p n content e with ⟨h1, h2⟩ | ⟨h1, r0, oe0, h2⟩
        · rw [h1]
          exact ⟨fun x hx => Or.inl hx, fun r oe h => absurd h (h2 r oe)⟩
        · rw [h1, h2]
          refine ⟨fun x hx => (by cases hx), fun r oe h => ?_⟩
          obtain ⟨h3, h4⟩ := secondPassStep_send _ _ _ _ _ _ _ _ _ _ _ _ h2
          cases h
          refine ⟨h3, Or.inr ⟨?_, rfl⟩⟩
          unfold notBlinded
          have := h4.1 ⟨n, content, rfl⟩
          simp [this, hb]
      · have hblind : (some (Entry.file n content)).map (Entry.blind bad p) =
            some (.file n content) := by
          simp only [Option.map_some', Entry.blind, hb, Bool.false_eq_true, if_false]
        refine hsame (by rw [hblind]) (fun r oe _ => ?_)
        unfold notBlinded
        simp [hb]

/-- C22. (1) At a file whose content cannot be read the walk function of the
second pass sends nothing and returns what it returns for the same file
readable on a connection that does not fail: the failed read produces no
record and no error. (2) Whole pass: take any tree on which the pass returns
nil, and let reading fail for the files at the paths `bad`. The pass still
returns nil, and it sends, in the same order, exactly the records it sent
before except those of the files that can no longer be read: every other
qualifying entry, earlier or later, is still emitted. -/
theorem unreadable_file_is_skipped (lower : Char → Char) (config : Config) (rootPath : Str)
    (patterns : List Str) (hostname localIP : Str) :
    (∀ (mf : List Str) (p n : Str) (content : List UInt8) (e : Bool) (conn : Conn),
      secondPass lower config rootPath patterns mf hostname localIP p (some (.file n none)) e
          conn =
        ((secondPass lower config rootPath patterns mf hostname localIP p
          (some (.file n (some content))) e ⟨[], none⟩).1, conn)) ∧
    (∀ (root : Option Entry) (bad : Str → Bool) (conn : Conn),
      (searchAndSendFiles lower config root localIP rootPath patterns conn hostname).1 = none →
      (searchAndSendFiles lower config (root.map (Entry.blind bad rootPath)) localIP rootPath
          patterns conn hostname).1 = none ∧
        (searchAndSendFiles lower config (root.map (Entry.blind bad rootPath)) localIP rootPath
            patterns conn hostname).2.sent =
          conn.sent ++ ((emitted lower config root localIP rootPath patterns hostname).filter
            (notBlinded bad)).map Prod.snd ∧
        (searchAndSendFiles lower config root localIP rootPath patterns conn hostname).2.sent =
          conn.sent ++
            (emitted lower config root localIP rootPath patterns hostname).map Prod.snd) := by
  constructor
  · intro mf p n content e conn
    rw [secondPass_eq_run, secondPass_eq_run, Step.run_scratch]
    rcases secondPassStep_unreadable lower config rootPath patterns mf hostname localIP p n
      (some content) e with ⟨h1, h2⟩ | ⟨h1, r, oe, h2⟩
    · rw [h1]
      cases hs : secondPassStep lower config rootPath patterns mf hostname localIP p
          (some (.file n (some content))) e with
      | done x => rfl
      | send r oe => exact absurd hs (h2 r oe)
    · rw [h1, h2]
      rfl
  · intro root bad conn hnil
    unfold searchAndSendFiles at hnil ⊢
    unfold emitted
    rw [matchedFoldersOf_blind, filepath.Walk_blind]
    generalize matchedFoldersOf lower config rootPath root patterns = mf at hnil ⊢
    obtain ⟨h2, _, h4, h5, _⟩ := filepath.Walk_sim (keepInv (notBlinded bad) conn.sent)
      (secondPass lower config rootPath patterns mf hostname localIP)
      (fun p i e s => secondPass lower config rootPath patterns mf hostname localIP p
        (i.map (Entry.blind bad p)) e s)
      (recordSends (secondPass lower config rootPath patterns mf hostname localIP))
      (fun p i e s1 s2 s3 hinv hsoft => by
        unfold recordSends
        simp only [secondPass_eq_run] at hsoft ⊢
        obtain ⟨r1, r2⟩ := secondPassStep_blind_rel lower config rootPath patterns mf hostname
          localIP bad p i e
        exact step_sim_keep (notBlinded bad) conn.sent p _ _ r1 r2 s1 s2 s3 hinv hsoft)
      rootPath root conn conn [] ⟨by simp, by simp, roomLe_refl _⟩ hnil
    exact ⟨h2, h5, h4⟩

set_option maxRecDepth 100000 in
/-- Witness for `unreadable_file_is_skipped` (C22): of `a.c`, `b.c` and
`c.c` in the folder `tugas`, `b.c` cannot be read; `a.c` and `c.c` are sent
and the pass returns nil. -/
theorem unreadable_file_is_skipped_witness :
    secondPass strings.asciiLower ⟨[], str "tugas", false, true, false⟩ (str "tugas") [str ".c"]
        [] (str "pc") (str "10.0.0.7") (str "tugas/b.c") (some (.file (str "b.c") none)) false
        ⟨[], some 5⟩ = (none, ⟨[], some 5⟩) ∧
    (searchAndSendFiles strings.asciiLower ⟨[], str "tugas", false, true, false⟩
        ((some (.dir (str "tugas") true [.file (str "a.c") (some [1]),
          .file (str "b.c") (some [2]), .file (str "c.c") (some [3])])).map
          (Entry.blind (fun p => p == str "tugas/b.c") (str "tugas")))
        (str "10.0.0.7") (str "tugas") [str ".c"] ⟨[], none⟩ (str "pc")).1 = none ∧
    searchAndSendFiles strings.asciiLower ⟨[], str "tugas", false, true, false⟩
        ((some (.dir (str "tugas") true [.file (str "a.c") (some [1]),
          .file (str "b.c") (some [2]), .file (str "c.c") (some [3])])).map
          (Entry.blind (fun p => p == str "tugas/b.c") (str "tugas")))
        (str "10.0.0.7") (str "tugas") [str ".c"] ⟨[], none⟩ (str "pc") =
      (none, ⟨[⟨str "a.c", some [1], str "10.0.0.7", str "pc"⟩,
        ⟨str "c.c", some [3], str "10.0.0.7", str "pc"⟩], none⟩) := by
  have h := unreadable_file_is_skipped strings.asciiLower
    ⟨[], str "tugas", false, true, false⟩ (str "tugas") [str ".c"] (str "pc") (str "10.0.0.7")
  refine ⟨(h.1 [] (str "tugas/b.c") (str "b.c") [2] false ⟨[], some 5⟩).trans (by decide), ?_,
    by decide⟩
  exact (h.2
    (some (.dir (str "tugas") true [.file (str "a.c") (some [1]),
      .file (str "b.c") (some [2]), .file (str "c.c") (some [3])]))
    (fun p => p == str "tugas/b.c") ⟨[], none⟩ (by decide)).1

/-! ## C23, C28: which entries get a record -/

/-- When a discovery pass returns nil, the walk function returned nil or
`SkipDir` at every call. -/
theorem visited_soft (lower : Char → Char) (config : Config) (root : Option Entry)
    (localIP rootPath : Str) (patterns : List Str) (conn : Conn) (hostname : Str)
    (hnil : (searchAndSendFiles lower config root localIP rootPath patterns conn hostname).1 =
      none) :
    ∀ v ∈ visited lower config root localIP rootPath patterns hostname,
      soft (secondPassStep lower config rootPath patterns
        (matchedFoldersOf lower config rootPath root patterns) hostname localIP
        v.1 v.2.1 v.2.2).result := by
  unfold searchAndSendFiles at hnil
  unfold visited
  generalize matchedFoldersOf lower config rootPath root patterns = mf at hnil ⊢
  have hoe : ∀ p i e r oe,
      secondPassStep lower config rootPath patterns mf hostname localIP p i e = .send r oe →
      oe ≠ WalkError.SkipDir := fun p i e r oe h =>
    (secondPassStep_send _ _ _ _ _ _ _ _ _ _ _ _ h).1
  obtain ⟨h1, _, _, h4⟩ := filepath.Walk_sim
    (fun (_ : Conn) (V2 V3 : List (Str × Option Entry × Bool)) => V2 = V3 ∧
      ∀ v ∈ V3, soft (secondPassStep lower config rootPath patterns mf hostname localIP
        v.1 v.2.1 v.2.2).result)
    (secondPass lower config rootPath patterns mf hostname localIP)
    (recordVisits (secondPass lower config rootPath patterns mf hostname localIP))
    (recordVisits (secondPass lower config rootPath patterns mf hostname localIP))
    (fun p i e c V2 V3 hinv hs => by
      obtain ⟨rfl, hP⟩ := hinv
      rw [recordVisits_secondPass]
      rw [secondPass_eq_run] at hs ⊢
      obtain ⟨a, _⟩ := Step.run_soft _ (hoe p i e) c hs
      refine ⟨a.symm, a.symm, rfl, ?_⟩
      intro v hv
      rcases List.mem_append.1 hv with h | h
      · exact hP v h
      · rw [List.mem_singleton.1 h, ← a]
        exact hs)
    rootPath root conn [] [] ⟨rfl, fun v hv => absurd hv (List.not_mem_nil _)⟩ hnil
  exact h4

/-- What a pass that returns nil has sent, call by call. -/
theorem searchAndSendFiles_sent_visited (lower : Char → Char) (config : Config)
    (root : Option Entry) (localIP rootPath : Str) (patterns : List Str) (conn : Conn)
    (hostname : Str)
    (hnil : (searchAndSendFiles lower config root localIP rootPath patterns conn hostname).1 =
      none) :
    (searchAndSendFiles lower config root localIP rootPath patterns conn hostname).2.sent =
      conn.sent ++ ((visited lower config root localIP rootPath patterns hostname).filterMap
        (recordAt lower config rootPath patterns
          (matchedFoldersOf lower config rootPath root patterns) hostname localIP)).map
        Prod.snd := by
  rw [(searchAndSendFiles_sent lower config root localIP rootPath patterns conn hostname).1 hnil,
    emitted_eq_filterMap_visited]

theorem secondPassStep_dir_eq (lower : Char → Char) (c : Config) (rootPath : Str)
    (patterns matchedFolders : List Str) (hostname localIP : Str) (p n : Str)
    (ch : List Entry) :
    secondPassStep lower c rootPath patterns matchedFolders hostname localIP p
        (some (.dir n true ch)) false =
      if (utf8.bytes rootPath).length > (utf8.bytes p).length then .done (some WalkError.panic)
      else if strings.Count ((utf8.bytes p).drop (utf8.bytes rootPath).length)
        filepath.SeparatorByte > 5 then
        .done (some WalkError.SkipDir)
      else if (c.MatchFolders && containsPattern lower (filepath.Base p) patterns) = true then
        match filepath.Rel rootPath p with
        | none => .done (some WalkError.rel)
        | some relPath => .send ⟨relPath, none, localIP, hostname⟩ WalkError.sendingFolder
      else .done none := by
  unfold secondPassStep
  simp only [Bool.false_eq_true, if_false, Entry.IsDir, if_true]

theorem secondPassStep_unlistable (lower : Char → Char) (c : Config) (rootPath : Str)
    (patterns matchedFolders : List Str) (hostname localIP : Str) (p : Str)
    (i : Option Entry) :
    secondPassStep lower c rootPath patterns matchedFolders hostname localIP p i true =
      .done none := by
  unfold secondPassStep
  simp only [if_true]

theorem secondPassStep_file_eq (lower : Char → Char) (c : Config) (rootPath : Str)
    (patterns matchedFolders : List Str) (hostname localIP : Str) (p n : Str)
    (content : List UInt8) (hF : c.MatchFiles = true) (hE : c.FilterExts = false)
    (hm : containsPattern lower (filepath.Base p) patterns = true) :
    secondPassStep lower c rootPath patterns matchedFolders hostname localIP p
        (some (.file n (some content))) false =
      if (utf8.bytes rootPath).length > (utf8.bytes p).length then .done (some WalkError.panic)
      else if strings.Count ((utf8.bytes p).drop (utf8.bytes rootPath).length)
        filepath.SeparatorByte > 5 then
        .done (some WalkError.SkipDir)
      else
        match filepath.Rel rootPath p with
        | none => .done (some WalkError.rel)
        | some relPath => .send ⟨relPath, some content, localIP, hostname⟩ WalkError.sendingFile
      := by
  unfold secondPassStep
  simp only [Bool.false_eq_true, if_false, Entry.IsDir, hF, hE, hm, Bool.and_self, Bool.true_or,
    ite_self, if_true, Bool.false_and]

/-- The decision at a directory, when the walk function returned nil or
`SkipDir` there: the marker record, with the path relative to the search
root, exactly when the directory could be listed, lies within the depth
limit and its base name matches with folder matching on. -/
theorem secondPassStep_dir_soft (lower : Char → Char) (c : Config) (rootPath : Str)
    (patterns matchedFolders : List Str) (hostname localIP : Str) (p n : Str) (l : Bool)
    (ch : List Entry)
    (hs : soft (secondPassStep lower c rootPath patterns matchedFolders hostname localIP p
      (some (.dir n l ch)) (!l)).result) :
    ((l = true ∧ strings.Count ((utf8.bytes p).drop (utf8.bytes rootPath).length)
        filepath.SeparatorByte ≤ 5 ∧
        (c.MatchFolders && containsPattern lower (filepath.Base p) patterns) = true) →
      ∃ rel, filepath.Rel rootPath p = some rel ∧
        (secondPassStep lower c rootPath patterns matchedFolders hostname localIP p
          (some (.dir n l ch)) (!l)).record = some ⟨rel, none, localIP, hostname⟩) ∧
    (¬ (l = true ∧ strings.Count ((utf8.bytes p).drop (utf8.bytes rootPath).length)
        filepath.SeparatorByte ≤ 5 ∧
        (c.MatchFolders && containsPattern lower (filepath.Base p) patterns) = true) →
      (secondPassStep lower c rootPath patterns matchedFolders hostname localIP p
        (some (.dir n l ch)) (!l)).record = none) := by
  cases l with
  | false =>
    have e : (!false) = true := rfl
    rw [e, secondPassStep_unlistable]
    exact ⟨fun h => (by cases h.1), fun _ => rfl⟩
  | true =>
    have e : (!true) = false := rfl
    rw [e] at hs ⊢
    rw [secondPassStep_dir_eq] at hs ⊢
    by_cases hlen : (utf8.bytes rootPath).length > (utf8.bytes p).length
    · rw [if_pos hlen] at hs
      rcases hs with h | h <;> cases h
    · rw [if_neg hlen] at hs ⊢
      by_cases hlev : strings.Count ((utf8.bytes p).drop (utf8.bytes rootPath).length)
        filepath.SeparatorByte > 5
      · rw [if_pos hlev]
        exact ⟨fun h => absurd h.2.1 (by omega), fun _ => rfl⟩
      · rw [if_neg hlev] at hs ⊢
        by_cases hm : (c.MatchFolders && containsPattern lower (filepath.Base p) patterns) = true
        · rw [if_pos hm] at hs ⊢
          cases hr : filepath.Rel rootPath p with
          | none =>
            rw [hr] at hs
            rcases hs with h | h <;> cases h
          | some rel =>
            exact ⟨fun _ => ⟨rel, rfl, rfl⟩, fun h => absurd ⟨rfl, by omega, hm⟩ h⟩
        · rw [if_neg hm]
          exact ⟨fun h => absurd h.2.2 hm, fun _ => rfl⟩

/-- The decision at a readable file whose name matches, with file matching on
and the extension filter off, when the walk function returned nil or
`SkipDir` there: within the depth limit, the record of the file. -/
theorem secondPassStep_file_soft (lower : Char → Char) (c : Config) (rootPath : Str)
    (patterns matchedFolders : List Str) (hostname localIP : Str) (p n : Str)
    (content : List UInt8) (hF : c.MatchFiles = true) (hE : c.FilterExts = false)
    (hm : containsPattern lower (filepath.Base p) patterns = true)
    (hlev : strings.Count ((utf8.bytes p).drop (utf8.bytes rootPath).length)
        filepath.SeparatorByte ≤ 5)
    (hs : soft (secondPassStep lower c rootPath patterns matchedFolders hostname localIP p
      (some (.file n (some content))) false).result) :
    ∃ rel, filepath.Rel rootPath p = some rel ∧
      (secondPassStep lower c rootPath patterns matchedFolders hostname localIP p
        (some (.file n (some content))) false).record =
          some ⟨rel, some content, localIP, hostname⟩ := by
  rw [secondPassStep_file_eq _ _ _ _ _ _ _ _ _ _ hF hE hm] at hs ⊢
  by_cases hlen : (utf8.bytes rootPath).length > (utf8.bytes p).length
  · rw [if_pos hlen] at hs
    rcases hs with h | h <;> cases h
  · rw [if_neg hlen, if_neg (by omega)] at hs ⊢
    cases hr : filepath.Rel rootPath p with
    | none =>
      rw [hr] at hs
      rcases hs with h | h <;> cases h
    | some rel => exact ⟨rel, rfl, rfl⟩

theorem secondPassStep_send_info (lower : Char → Char) (c : Config) (rootPath : Str)
    (patterns matchedFolders : List Str) (hostname localIP : Str) (p : Str)
    (i : Option Entry) (e : Bool) (r : FileInfo) (oe : WalkError)
    (h : secondPassStep lower c rootPath patterns matchedFolders hostname localIP p i e =
      .send r oe) : ∃ info, i = some info := by
  cases i with
  | some info => exact ⟨info, rfl⟩
  | none =>
    unfold secondPassStep at h
    dsimp only at h
    repeat' split at h
    all_goals cases h

theorem containsPattern_of_nil_mem (lower : Char → Char) (name : Str) (patterns : List Str)
    (h : [] ∈ patterns) : containsPattern lower name patterns = true := by
  unfold containsPattern
  rw [containsPatternLoop_iff]
  exact ⟨[], h, List.nil_infix⟩

set_option maxRecDepth 100000 in
/-- C23 (counterexample). Folder matching on, patterns `["my"]`, search root
`Documents` holding the folders `My Code`, which can be listed, and
`My Music`, which cannot. Both base names match and both lie one level below
the root; the pass returns nil and sends the marker for `My Code` only: for a
directory that cannot be listed the walk function is called with an error and
returns before the marker is made. -/
theorem unlistable_matched_folder_gets_no_marker :
    containsPattern strings.asciiLower (filepath.Base (str "Documents/My Music")) [str "my"] =
      true ∧
    strings.Count ((utf8.bytes (str "Documents/My Music")).drop
        (utf8.bytes (str "Documents")).length) filepath.SeparatorByte = 1 ∧
    searchAndSendFiles strings.asciiLower ⟨[], str "Documents", false, false, true⟩
        (some (.dir (str "Documents") true
          [.dir (str "My Code") true [], .dir (str "My Music") false []]))
        (str "10.0.0.7") (str "Documents") [str "my"] ⟨[], none⟩ (str "pc") =
      (none, ⟨[⟨str "My Code", none, str "10.0.0.7", str "pc"⟩], none⟩) := by
  decide

/-- C23 (amended). With folder matching on, when the pass returns nil: what
it has sent is, in the order of the walk, the records made at the calls of
the walk function; at a call for a directory the record is the marker (the
directory's path relative to the search root, absent content) when the
directory could be listed, lies within the depth limit and its base name
matches the pattern set, and there is no record otherwise; and every record
with absent content was made at a call for a directory. -/
theorem folder_markers_for_listed_matching_directories (lower : Char → Char) (config : Config)
    (root : Option Entry) (localIP rootPath : Str) (patterns : List Str) (conn : Conn)
    (hostname : Str) (hMF : config.MatchFolders = true)
    (hnil : (searchAndSendFiles lower config root localIP rootPath patterns conn hostname).1 =
      none) :
    (searchAndSendFiles lower config root localIP rootPath patterns conn hostname).2.sent =
      conn.sent ++ ((visited lower config root localIP rootPath patterns hostname).filterMap
        (recordAt lower config rootPath patterns
          (matchedFoldersOf lower config rootPath root patterns) hostname localIP)).map
        Prod.snd ∧
    (∀ (p n : Str) (l : Bool) (ch : List Entry),
      (p, some (.dir n l ch), !l) ∈ visited lower config root localIP rootPath patterns hostname →
      ((l = true ∧ strings.Count ((utf8.bytes p).drop (utf8.bytes rootPath).length)
        filepath.SeparatorByte ≤ 5 ∧
          containsPattern lower (filepath.Base p) patterns = true) →
        ∃ rel, filepath.Rel rootPath p = some rel ∧
          recordAt lower config rootPath patterns
            (matchedFoldersOf lower config rootPath root patterns) hostname localIP
            (p, some (.dir n l ch), !l) = some (p, ⟨rel, none, localIP, hostname⟩)) ∧
      (¬ (l = true ∧ strings.Count ((utf8.bytes p).drop (utf8.bytes rootPath).length)
        filepath.SeparatorByte ≤ 5 ∧
          containsPattern lower (filepath.Base p) patterns = true) →
        recordAt lower config rootPath patterns
          (matchedFoldersOf lower config rootPath root patterns) hostname localIP
          (p, some (.dir n l ch), !l) = none)) ∧
    (∀ (v : Str × Option Entry × Bool) (pr : Str × FileInfo),
      recordAt lower config rootPath patterns
        (matchedFoldersOf lower config rootPath root patterns) hostname localIP v = some pr →
      pr.2.Content = none → ∃ n l ch, v.2.1 = some (.dir n l ch)) := by
  refine ⟨searchAndSendFiles_sent_visited _ _ _ _ _ _ _ _ hnil, ?_, ?_⟩
  · intro p n l ch hv
    have hs := visited_soft _ _ _ _ _ _ _ _ hnil _ hv
    obtain ⟨a, b⟩ := secondPassStep_dir_soft lower config rootPath patterns
      (matchedFoldersOf lower config rootPath root patterns) hostname localIP p n l ch hs
    rw [hMF, Bool.true_and] at a b
    unfold recordAt
    constructor
    · intro h
      obtain ⟨rel, h1, h2⟩ := a h
      exact ⟨rel, h1, by rw [h2]; rfl⟩
    · intro h
      rw [b h]
      rfl
  · intro v pr hr hc
    unfold recordAt at hr
    cases hstep : secondPassStep lower config rootPath patterns
        (matchedFoldersOf lower config rootPath root patterns) hostname localIP
        v.1 v.2.1 v.2.2 with
    | done x => rw [hstep] at hr; cases hr
    | send r oe =>
      rw [hstep] at hr
      simp only [Step.record, Option.map_some', Option.some.injEq] at hr
      obtain ⟨info, hi⟩ := secondPassStep_send_info _ _ _ _ _ _ _ _ _ _ _ _ hstep
      have h2 := (secondPassStep_send _ _ _ _ _ _ _ _ _ _ _ _ hstep).2
      have hrc : r.Content = none := by rw [← hr] at hc; exact hc
      cases info with
      | dir n l ch => exact ⟨n, l, ch, hi⟩
      | file n content =>
        have := h2.1 ⟨n, content, hi⟩
        rw [hrc] at this
        cases this

set_option maxRecDepth 100000 in
/-- Witness for `folder_markers_for_listed_matching_directories` (C23). -/
theorem folder_markers_for_listed_matching_directories_witness :
    (searchAndSendFiles strings.asciiLower ⟨[], str "Documents", false, false, true⟩
        (some (.dir (str "Documents") true
          [.dir (str "My Code") true [], .dir (str "My Music") false []]))
        (str "10.0.0.7") (str "Documents") [str "my"] ⟨[], none⟩ (str "pc")).2.sent =
      [⟨str "My Code", none, str "10.0.0.7", str "pc"⟩] :=
  ((folder_markers_for_listed_matching_directories strings.asciiLower
    ⟨[], str "Documents", false, false, true⟩
    (some (.dir (str "Documents") true
      [.dir (str "My Code") true [], .dir (str "My Music") false []]))
    (str "10.0.0.7") (str "Documents") [str "my"] ⟨[], none⟩ (str "pc") rfl (by decide)).1).trans
    (by decide)

set_option maxRecDepth 100000 in
/-- C28 (counterexample). Pattern list `[""]`, file matching on, extension
filter off, search root `tugas` holding the file `b.txt` and the folder
`private`, which cannot be listed and holds the readable file `a.txt`. The
pass returns nil and sends `b.txt` only: `a.txt` lies two levels below the
search root and can be read, but the walk never reaches it. -/
theorem file_in_unlistable_folder_is_not_emitted :
    searchAndSendFiles strings.asciiLower ⟨[], str "tugas", false, true, false⟩
        (some (.dir (str "tugas") true
          [.file (str "b.txt") (some [2]),
            .dir (str "private") false [.file (str "a.txt") (some [1])]]))
        (str "10.0.0.7") (str "tugas") [str ""] ⟨[], none⟩ (str "pc") =
      (none, ⟨[⟨str "b.txt", some [2], str "10.0.0.7", str "pc"⟩], none⟩) := by
  decide

/-- C28 (amended). If the pattern list contains the empty string,
`containsPattern` returns true for every name; and then, with file matching
on and the extension filter off, when the pass returns nil, every readable
file within the depth limit for which the walk function is called (files in
folders that cannot be listed are not among them) has its record, with its
path relative to the search root and its content, among the records sent. -/
theorem empty_pattern_emits_every_visited_file (lower : Char → Char) (config : Config)
    (root : Option Entry) (localIP rootPath : Str) (patterns : List Str) (conn : Conn)
    (hostname : Str) (hmem : [] ∈ patterns) :
    (∀ name, containsPattern lower name patterns = true) ∧
    (config.MatchFiles = true → config.FilterExts = false →
      (searchAndSendFiles lower config root localIP rootPath patterns conn hostname).1 = none →
      ∀ (p n : Str) (content : List UInt8),
        (p, some (.file n (some content)), false) ∈
          visited lower config root localIP rootPath patterns hostname →
        strings.Count ((utf8.bytes p).drop (utf8.bytes rootPath).length)
        filepath.SeparatorByte ≤ 5 →
        ∃ rel, filepath.Rel rootPath p = some rel ∧
          (⟨rel, some content, localIP, hostname⟩ : FileInfo) ∈
            (searchAndSendFiles lower config root localIP rootPath patterns conn
              hostname).2.sent) := by
  refine ⟨fun name => containsPattern_of_nil_mem lower name patterns hmem, ?_⟩
  intro hF hE hnil p n content hv hlev
  have hs := visited_soft _ _ _ _ _ _ _ _ hnil _ hv
  obtain ⟨rel, h1, h2⟩ := secondPassStep_file_soft lower config rootPath patterns
    (matchedFoldersOf lower config rootPath root patterns) hostname localIP p n content hF hE
    (containsPattern_of_nil_mem lower _ patterns hmem) hlev hs
  refine ⟨rel, h1, ?_⟩
  rw [searchAndSendFiles_sent_visited _ _ _ _ _ _ _ _ hnil]
  apply List.mem_append_right
  refine List.mem_map.2 ⟨(p, ⟨rel, some content, localIP, hostname⟩), ?_, rfl⟩
  refine List.mem_filterMap.2 ⟨_, hv, ?_⟩
  unfold recordAt
  rw [h2]
  rfl

set_option maxRecDepth 100000 in
/-- Witness for `empty_pattern_emits_every_visited_file` (C28): the file
`tugas/b.txt` of the tree above. -/
theorem empty_pattern_emits_every_visited_file_witness :
    ∃ rel, filepath.Rel (str "tugas") (str "tugas/b.txt") = some rel ∧
      (⟨rel, some [2], str "10.0.0.7", str "pc"⟩ : FileInfo) ∈
        (searchAndSendFiles strings.asciiLower ⟨[], str "tugas", false, true, false⟩
          (some (.dir (str "tugas") true
            [.file (str "b.txt") (some [2]),
              .dir (str "private") false [.file (str "a.txt") (some [1])]]))
          (str "10.0.0.7") (str "tugas") [str ""] ⟨[], none⟩ (str "pc")).2.sent :=
  (empty_pattern_emits_every_visited_file strings.asciiLower
    ⟨[], str "tugas", false, true, false⟩
    (some (.dir (str "tugas") true
      [.file (str "b.txt") (some [2]),
        .dir (str "private") false [.file (str "a.txt") (some [1])]]))
    (str "10.0.0.7") (str "tugas") [str ""] ⟨[], none⟩ (str "pc") (by decide)).2 rfl rfl
    (by decide) (str "tugas/b.txt") (str "b.txt") [2] (List.Mem.tail _ (List.Mem.head _))
    (by decide)

/-! ## C27, C30: evaluations -/

set_option maxRecDepth 100000 in
/-- C27 (evaluation at the failing input). Folder-only mode, patterns
`["tugas"]`, search root `docs` holding the folder `tugas` (with `a.c`) and,
beside it, the files `tugas_lama.zip` and `x.txt`. The root `docs` does not
match. Besides the marker and `tugas/a.c` the pass sends `tugas_lama.zip`,
which is not inside any matched folder: the test
`strings.HasPrefix(path, folderPath)` compares `docs/tugas_lama.zip` with
`docs/tugas` as strings. -/
theorem file_beside_matched_folder_is_sent :
    containsPattern strings.asciiLower (filepath.Base (str "docs")) [str "tugas"] = false ∧
    strings.HasPrefix (str "docs/tugas_lama.zip") (str "docs/tugas") = true ∧
    searchAndSendFiles strings.asciiLower ⟨[], str "docs", false, false, true⟩
        (some (.dir (str "docs") true
          [.dir (str "tugas") true [.file (str "a.c") (some [1])],
            .file (str "tugas_lama.zip") (some [2]), .file (str "x.txt") (some [3])]))
        (str "10.0.0.7") (str "docs") [str "tugas"] ⟨[], none⟩ (str "pc") =
      (none, ⟨[⟨str "tugas", none, str "10.0.0.7", str "pc"⟩,
        ⟨str "tugas/a.c", some [1], str "10.0.0.7", str "pc"⟩,
        ⟨str "tugas_lama.zip", some [2], str "10.0.0.7", str "pc"⟩], none⟩) := by
  decide

set_option maxRecDepth 100000 in
/-- C30 (evaluation at the failing input). For the search root `./tugas/`
holding the file `a`, the walk hands the file over as `tugas/a`
(`filepath.Join` cleans the path): 7 characters of one byte each, while the
root string has 8, so `path[len(rootPath):]` is out of range and the pass
panics. The same for the search root `kuliah/../tugas` (15 bytes) and the
entry `tugas/SD 1` (10 bytes). -/
theorem depth_slice_out_of_range :
    filepath.Join [str "./tugas/", str "a"] = str "tugas/a" ∧
    (str "./tugas/").length = 8 ∧ (str "tugas/a").length = 7 ∧
    (utf8.bytes (str "./tugas/")).length = 8 ∧ (utf8.bytes (str "tugas/a")).length = 7 ∧
    searchAndSendFiles strings.asciiLower ⟨[], str "./tugas/", false, true, false⟩
        (some (.dir (str "tugas") true [.file (str "a") (some [1])]))
        (str "10.0.0.7") (str "./tugas/") [str "a"] ⟨[], none⟩ (str "pc") =
      (some WalkError.panic, ⟨[], none⟩) ∧
    filepath.Join [str "kuliah/../tugas", str "SD 1"] = str "tugas/SD 1" ∧
    searchAndSendFiles strings.asciiLower ⟨[], str "kuliah/../tugas", false, true, false⟩
        (some (.dir (str "tugas") true [.dir (str "SD 1") true []]))
        (str "10.0.0.7") (str "kuliah/../tugas") [str "sd"] ⟨[], none⟩ (str "pc") =
      (some WalkError.panic, ⟨[], none⟩) := by
  decide
end LabGo
